import Mathlib

/-!
# Wavefront OBJ / MTL loader (`ObjLoader.cpp`, `Model.cpp`)

A shallow embedding of the loader and of the properties its specification states.

Conventions of the embedding.

* Text is a `List Char`; a `std::istringstream` is the list of characters not yet read.
* `std::size_t` values are natural numbers.  `int` and `uint32_t` values are integers and
  naturals; every conversion the source writes (`static_cast<int>`, `static_cast<uint32_t>`,
  `indexCount += 3` on a `uint32_t`) is modelled by an explicit reduction modulo `2^32`.
* `float`, the `glm` vector operations and the numeric extraction of `iostream` belong to
  external libraries; the loader is parametric in them (`Numerics`).
* The file system is a parameter (`FileSystem`).
* A C++ exception leaving a function, and an access outside a `std::vector`, are results of the
  embedded function (`Fault`).
-/

namespace ObjLoader

/-! ## Machine integers -/

/-- Conversion of an integer value to `int`: 32 bit, two's complement. -/
def toInt32 (z : Int) : Int := (z + 2147483648) % 4294967296 - 2147483648

/-- Conversion of an integer value to `uint32_t`. -/
def toUInt32 (z : Int) : Nat := (z % 4294967296).toNat

/-- The values of type `int`. -/
def IsInt32 (z : Int) : Prop := -2147483648 ≤ z ∧ z ≤ 2147483647

instance (z : Int) : Decidable (IsInt32 z) := by unfold IsInt32; infer_instance

/-! ## Faults -/

deriving instance DecidableEq for Except

/-- What can end a call abnormally: the two exceptions of `std::stoi`, and an access outside the
bounds of a `std::vector` (undefined behaviour in the source). -/
inductive Fault where
  | invalid_argument
  | out_of_range
  | out_of_bounds
  deriving DecidableEq, Repr

/-! ## Index resolution -/

/-- Model of `ResolveIndex` of `ObjLoader.cpp`.  `idx` is an `int`; `count` a `std::size_t`.  For a positive
`int` the subtraction `idx - 1` cannot overflow; `static_cast<int>(count) + idx` is evaluated in
`int`. -/
def ResolveIndex (idx : Int) (count : Nat) : Int :=
  if idx > 0 then
    let resolved := idx - 1
    if resolved ≥ 0 ∧ resolved.toNat < count then resolved else -1
  else if idx < 0 then
    let resolved := toInt32 (toInt32 (count : Int) + idx)
    if resolved ≥ 0 ∧ resolved.toNat < count then resolved else -1
  else -1

/-! ## Text -/

/-- Model of `std::isspace` in the "C" locale. -/
def isspace (c : Char) : Bool :=
  c = ' ' || c = Char.ofNat 9 || c = Char.ofNat 10 || c = Char.ofNat 11 || c = Char.ofNat 12
    || c = Char.ofNat 13

/-- Model of `std::isdigit`. -/
def isdigit (c : Char) : Bool := decide (48 ≤ c.toNat ∧ c.toNat ≤ 57)

/-- Value of a run of decimal digits. -/
def digitsValue (ds : List Char) : Nat :=
  ds.foldl (fun acc c => 10 * acc + (c.toNat - 48)) 0

/-- Model of `std::stoi(str)`: `strtol` in base 10 (leading white space, an optional sign, the longest run
of digits; what follows is ignored), `std::invalid_argument` when there is no digit and
`std::out_of_range` when the value is not an `int`. -/
def stoi (str : List Char) : Except Fault Int :=
  let s := str.dropWhile isspace
  let signed : Bool × List Char :=
    match s with
    | '-' :: r => (true, r)
    | '+' :: r => (false, r)
    | _ => (false, s)
  let ds := signed.2.takeWhile isdigit
  if ds = [] then .error .invalid_argument
  else
    let v : Int := if signed.1 then -(digitsValue ds : Int) else (digitsValue ds : Int)
    if v < -2147483648 ∨ 2147483647 < v then .error .out_of_range else .ok v

/-- Model of `std::string::find(ch, pos)`: the first position `≥ pos` holding `ch`. -/
def find (s : List Char) (ch : Char) (pos : Nat) : Option Nat :=
  match (s.drop pos).indexOf? ch with
  | some i => some (pos + i)
  | none => none

/-- Model of `std::string::substr(pos, len)`. -/
def substr (s : List Char) (pos len : Nat) : List Char := (s.drop pos).take len

/-- Model of `ParseFaceToken`: the three `int` out-parameters `v`, `t`, `n` and the returned flag (always
`true`); every `std::stoi` may throw. -/
def ParseFaceToken (token : List Char) : Except Fault (Bool × Int × Int × Int) :=
  match find token '/' 0 with
  | none => do
    let v ← stoi token
    pure (true, v, 0, 0)
  | some firstSlash => do
    let secondSlash := find token '/' (firstSlash + 1)
    let v ← stoi (substr token 0 firstSlash)
    match secondSlash with
    | none =>
      if firstSlash + 1 < token.length then do
        let t ← stoi (token.drop (firstSlash + 1))
        pure (true, v, t, 0)
      else pure (true, v, 0, 0)
    | some secondSlash => do
      let t ← if secondSlash > firstSlash + 1 then
          stoi (substr token (firstSlash + 1) (secondSlash - firstSlash - 1))
        else pure 0
      let n ← if secondSlash + 1 < token.length then stoi (token.drop (secondSlash + 1))
        else pure 0
      pure (true, v, t, n)

/-- The characters `Trim` strips: `" \t\r\n"`. -/
def trimChars : List Char := [' ', Char.ofNat 9, Char.ofNat 13, Char.ofNat 10]

/-- Model of `Trim`: drop the characters of `trimChars` from both ends. -/
def Trim (str : List Char) : List Char :=
  ((str.dropWhile (fun c => c ∈ trimChars)).reverse.dropWhile (fun c => c ∈ trimChars)).reverse

/-- Model of `iss >> word` for a `std::string`: skip white space, read up to the next white space.  When
nothing is left the extraction fails and the variable keeps its value `old`. -/
def readWord (iss : List Char) (old : List Char) : List Char × List Char :=
  let s := iss.dropWhile isspace
  if s = [] then (old, []) else (s.takeWhile (fun c => !isspace c), s.dropWhile (fun c => !isspace c))

/-- Model of `while (iss >> part) faceTokens.push_back(part)`: all the words left on the line. -/
def readWords (iss : List Char) : List (List Char) :=
  (iss.splitOnP isspace).filter (fun w => w ≠ [])

/-- Model of `std::getline` until the end of the file, with the characters of the line being read kept in
`cur` (latest first): a line ends at a line feed or, when it has at least one character, at the end
of the text. -/
def getlinesAux : List Char → List Char → List (List Char)
  | [], cur => if cur = [] then [] else [cur.reverse]
  | c :: cs, cur =>
    if c = Char.ofNat 10 then cur.reverse :: getlinesAux cs [] else getlinesAux cs (c :: cur)

/-- The lines `std::getline` reads from a text. -/
def getlines (text : List Char) : List (List Char) := getlinesAux text []

/-! ## Numeric environment and data model -/

/-- Model of `glm::vec2`. -/
structure V2 (F : Type) where
  x : F
  y : F
  deriving DecidableEq, Repr

/-- Model of `glm::vec3`. -/
structure V3 (F : Type) where
  x : F
  y : F
  z : F
  deriving DecidableEq, Repr

/-- The numeric environment of the loader: the type `float` with the constants, the `glm`
operations and the `iostream` extraction the source calls.  They belong to external libraries and
are parameters of the embedding. -/
structure Numerics (F : Type) where
  /-- The constant `0.0f`. -/
  zero : F
  /-- The constant `1.0f`. -/
  one : F
  /-- The constant `0.8f`. -/
  c08 : F
  /-- The constant `32.0f`. -/
  c32 : F
  /-- The comparison `a > b`. -/
  gt : F → F → Bool
  /-- The function `glm::dot`. -/
  dot : V3 F → V3 F → F
  /-- The function `glm::cross`. -/
  cross : V3 F → V3 F → V3 F
  /-- The function `glm::normalize`. -/
  normalize : V3 F → V3 F
  /-- The sum of two vectors (`+=`). -/
  add : V3 F → V3 F → V3 F
  /-- The difference of two vectors. -/
  sub : V3 F → V3 F → V3 F
  /-- The test `glm::any(glm::isnan(v))`. -/
  anyIsnan : V3 F → Bool
  /-- The extraction `iss >> x` of a `float`: from the characters left and the value `x` holds, the
  value `x` holds afterwards and the characters left, `none` once the stream has failed. -/
  extract : List Char → F → F × Option (List Char)

/-- Model of `VertexPNT`. -/
structure VertexPNT (F : Type) where
  position : V3 F
  normal : V3 F
  texCoord : V2 F
  deriving DecidableEq, Repr

/-- Model of `MaterialDefinition`; an empty `diffuseTexture` is the empty path. -/
structure MaterialDefinition (F : Type) where
  name : List Char
  diffuseColor : V3 F
  shininess : F
  diffuseTexture : List Char
  deriving DecidableEq, Repr

/-- Model of `MeshChunk`; `startIndex` and `indexCount` are `uint32_t`. -/
structure MeshChunk (F : Type) where
  startIndex : Nat
  indexCount : Nat
  material : MaterialDefinition F
  deriving DecidableEq, Repr

/-- Model of `ObjMesh`; the entries of `indices` are `uint32_t`. -/
structure ObjMesh (F : Type) where
  vertices : List (VertexPNT F)
  indices : List Nat
  chunks : List (MeshChunk F)
  deriving DecidableEq, Repr

/-- Model of `VertexKey`: three `int` fields, compared field by field. -/
structure VertexKey where
  position : Int
  texCoord : Int
  normal : Int
  deriving DecidableEq, Repr

/-- The file system: `read p` is the text of the file `p`, `none` when it cannot be opened;
`sibling p name` is `(p.parent_path() / name).lexically_normal()`. -/
structure FileSystem where
  read : List Char → Option (List Char)
  sibling : List Char → List Char → List Char

/-! ## A model of `float`

IEEE 754 binary32 with round to nearest, ties to even, and the `glm` functions written over it as
`glm` defines them.  It instantiates `Numerics` where a statement is evaluated on a concrete
source. -/

/-- IEEE 754 binary32 values.  `fin neg m e` is `(-1)^neg * m * 2^e` with `m < 2^24`,
`-149 ≤ e ≤ 104`, and `2^23 ≤ m` unless `e = -149`. -/
inductive F32 where
  | nan
  | inf (neg : Bool)
  | fin (neg : Bool) (m : Nat) (e : Int)
  deriving DecidableEq, Repr

namespace F32

/-- Number of binary digits of `n`, by recursion on `fuel ≥ n`. -/
def bitLength : Nat → Nat → Nat
  | 0, _ => 0
  | fuel + 1, n => if n = 0 then 0 else bitLength fuel (n / 2) + 1

/-- Round the positive rational `num / den` to the nearest binary32 value, ties to even. -/
def round (neg : Bool) (num den : Nat) : F32 :=
  if num = 0 ∨ den = 0 then fin neg 0 (-149)
  else
    let k : Int := (bitLength num num : Int) - (bitLength den den : Int)
    let geK : Bool := if k ≥ 0 then decide (den * 2 ^ k.toNat ≤ num)
      else decide (den ≤ num * 2 ^ (-k).toNat)
    let fl : Int := if geK then k else k - 1
    let e : Int := max (fl - 23) (-149)
    let a : Nat := if e ≥ 0 then num else num * 2 ^ (-e).toNat
    let b : Nat := if e ≥ 0 then den * 2 ^ e.toNat else den
    let m0 := a / b
    let r := a % b
    let m := if 2 * r > b ∨ (2 * r = b ∧ m0 % 2 = 1) then m0 + 1 else m0
    let m1 := if m = 16777216 then 8388608 else m
    let e1 := if m = 16777216 then e + 1 else e
    if e1 > 104 then inf neg else fin neg m1 e1

/-- The value of a finite float as a fraction `(numerator, denominator)`. -/
def frac (m : Nat) (e : Int) : Nat × Nat :=
  if e ≥ 0 then (m * 2 ^ e.toNat, 1) else (m, 2 ^ (-e).toNat)

/-- Negation. -/
def neg : F32 → F32
  | nan => nan
  | inf s => inf (!s)
  | fin s m e => fin (!s) m e

/-- Addition, rounded to nearest. -/
def add : F32 → F32 → F32
  | nan, _ => nan
  | _, nan => nan
  | inf s, inf t => if s = t then inf s else nan
  | inf s, fin _ _ _ => inf s
  | fin _ _ _, inf t => inf t
  | fin s m e, fin t n f =>
    let p := frac m e
    let q := frac n f
    let x : Int := (if s then -1 else 1) * (p.1 * q.2 : Nat)
    let y : Int := (if t then -1 else 1) * (q.1 * p.2 : Nat)
    let sum := x + y
    if sum = 0 then fin (s && t) 0 (-149)
    else round (decide (sum < 0)) sum.natAbs (p.2 * q.2)

/-- Subtraction. -/
def sub (a b : F32) : F32 := add a (neg b)

/-- Multiplication, rounded to nearest. -/
def mul : F32 → F32 → F32
  | nan, _ => nan
  | _, nan => nan
  | inf s, inf t => inf (xor s t)
  | inf s, fin t n _ => if n = 0 then nan else inf (xor s t)
  | fin s m _, inf t => if m = 0 then nan else inf (xor s t)
  | fin s m e, fin t n f =>
    let p := frac m e
    let q := frac n f
    round (xor s t) (p.1 * q.1) (p.2 * q.2)

/-- Division, rounded to nearest. -/
def div : F32 → F32 → F32
  | nan, _ => nan
  | _, nan => nan
  | inf _, inf _ => nan
  | inf s, fin t _ _ => inf (xor s t)
  | fin s _ _, inf t => fin (xor s t) 0 (-149)
  | fin s m e, fin t n f =>
    if n = 0 then (if m = 0 then nan else inf (xor s t))
    else
      let p := frac m e
      let q := frac n f
      round (xor s t) (p.1 * q.2) (p.2 * q.1)

/-- Integer square root: the digits of the root from position `b` down, `r` being the digits
found so far. -/
def isqrtFrom (n : Nat) : Nat → Nat → Nat
  | 0, r => r
  | b + 1, r =>
    let c := r + 2 ^ b
    isqrtFrom n b (if c * c ≤ n then c else r)

/-- Integer square root (floor). -/
def isqrt (n : Nat) : Nat := isqrtFrom n (bitLength n n) 0

/-- Square root, rounded to nearest: the root of `m * 2^k` with `k` of the parity of `e` is taken
in the integers, with a sticky half when it is not exact. -/
def sqrt : F32 → F32
  | nan => nan
  | inf s => if s then nan else inf false
  | fin s m e =>
    if m = 0 then fin s 0 (-149)
    else if s then nan
    else
      let k : Int := 52 + e % 2
      let big := m * 2 ^ k.toNat
      let s0 := isqrt big
      let sticky := if s0 * s0 = big then 0 else 1
      let h : Int := (e - k) / 2
      if h ≥ 0 then round false ((2 * s0 + sticky) * 2 ^ h.toNat) 2
      else round false (2 * s0 + sticky) (2 * 2 ^ (-h).toNat)

/-- The comparison `a < b`. -/
def lt : F32 → F32 → Bool
  | nan, _ => false
  | _, nan => false
  | inf s, inf t => s && !t
  | inf s, fin _ _ _ => s
  | fin _ _ _, inf t => !t
  | fin s m e, fin t n f =>
    let p := frac m e
    let q := frac n f
    let x : Int := (if s then -1 else 1) * (p.1 * q.2 : Nat)
    let y : Int := (if t then -1 else 1) * (q.1 * p.2 : Nat)
    decide (x < y)

/-- The test `std::isnan`. -/
def isnan : F32 → Bool
  | nan => true
  | _ => false

/-- The constant `0.0f`. -/
def zero : F32 := fin false 0 (-149)

/-- The constant `1.0f`. -/
def one : F32 := fin false 8388608 (-23)

/-- Model of `glm::dot` on `vec3`: the products are summed from the left. -/
def dot (a b : V3 F32) : F32 := add (add (mul a.x b.x) (mul a.y b.y)) (mul a.z b.z)

/-- Model of `glm::cross`. -/
def cross (a b : V3 F32) : V3 F32 :=
  ⟨sub (mul a.y b.z) (mul b.y a.z), sub (mul a.z b.x) (mul b.z a.x),
   sub (mul a.x b.y) (mul b.x a.y)⟩

/-- Model of `glm::normalize`: `v * inversesqrt(dot(v, v))` with `inversesqrt(x) = 1 / sqrt(x)`. -/
def normalize (v : V3 F32) : V3 F32 :=
  let s := div one (sqrt (dot v v))
  ⟨mul v.x s, mul v.y s, mul v.z s⟩

/-- Extraction of a `float` written as `[sign] digits [. digits]`: white space is skipped; at the
end of the text the extraction fails and the value is kept; when no numeral starts there it fails
and the value becomes zero.  Exponent notation and the failure on overflow of `operator>>` are
not modelled: the function is meant for the plain decimals of the example sources. -/
def extract (iss : List Char) (old : F32) : F32 × Option (List Char) :=
  let s := iss.dropWhile isspace
  if s = [] then (old, none)
  else
    let signed : Bool × List Char :=
      match s with
      | '-' :: r => (true, r)
      | '+' :: r => (false, r)
      | _ => (false, s)
    let ip := signed.2.takeWhile isdigit
    let r1 := signed.2.dropWhile isdigit
    let fp : List Char := match r1 with
      | '.' :: r => r.takeWhile isdigit
      | _ => []
    let r2 : List Char := match r1 with
      | '.' :: r => r.dropWhile isdigit
      | _ => r1
    if ip = [] ∧ fp = [] then (zero, none)
    else (round signed.1 (digitsValue (ip ++ fp)) (10 ^ fp.length), some r2)

end F32

/-- The numeric environment over `F32`. -/
def binary32 : Numerics F32 :=
  { zero := F32.zero, one := F32.one, c08 := F32.round false 4 5, c32 := F32.round false 32 1,
    gt := fun a b => F32.lt b a, dot := F32.dot, cross := F32.cross,
    normalize := F32.normalize,
    add := fun a b => ⟨F32.add a.x b.x, F32.add a.y b.y, F32.add a.z b.z⟩,
    sub := fun a b => ⟨F32.sub a.x b.x, F32.sub a.y b.y, F32.sub a.z b.z⟩,
    anyIsnan := fun v => F32.isnan v.x || F32.isnan v.y || F32.isnan v.z,
    extract := F32.extract }

/-- An example file system with the single file `path`, holding `text`; `sibling` gives the name
as it is (right for names without a directory part and without dot segments). -/
def oneFile (path text : List Char) : FileSystem :=
  { read := fun p => if p = path then some text else none,
    sibling := fun _ name => name }

section Loader

variable {F : Type} (N : Numerics F)

/-- Model of `glm::vec3(s)`: the three components equal to `s`. -/
def V3.splat (s : F) : V3 F := ⟨s, s, s⟩

/-- Model of `iss >> v.x >> v.y >> v.z`: an extraction is attempted only while the stream is good. -/
def extract3 (iss : List Char) (old : V3 F) : V3 F :=
  match N.extract iss old.x with
  | (x, none) => ⟨x, old.y, old.z⟩
  | (x, some r1) =>
    match N.extract r1 old.y with
    | (y, none) => ⟨x, y, old.z⟩
    | (y, some r2) => ⟨x, y, (N.extract r2 old.z).1⟩

/-- Model of `iss >> v.x >> v.y`. -/
def extract2 (iss : List Char) (old : V2 F) : V2 F :=
  match N.extract iss old.x with
  | (x, none) => ⟨x, old.y⟩
  | (x, some r1) => ⟨x, (N.extract r1 old.y).1⟩

/-- Model of `MaterialDefinition{}` with the default member initialisers. -/
def MaterialDefinition.init : MaterialDefinition F :=
  { name := [], diffuseColor := V3.splat N.c08, shininess := N.c32, diffuseTexture := [] }

/-- The local `defaultMaterial` of `LoadObjMesh`. -/
def defaultMaterial : MaterialDefinition F :=
  { name := "default".toList, diffuseColor := V3.splat N.c08, shininess := N.c32,
    diffuseTexture := [] }

/-! ## Material library -/

/-- The loop state of `ParseMtlFile`. -/
structure MtlState (F : Type) where
  current : MaterialDefinition F
  currentName : List Char
  materials : List (List Char × MaterialDefinition F)

/-- Model of `materials[name] = m` on an `unordered_map`, kept as an association list read with
`List.lookup`. -/
def assign (materials : List (List Char × MaterialDefinition F)) (name : List Char)
    (m : MaterialDefinition F) : List (List Char × MaterialDefinition F) :=
  (name, m) :: materials.filter (fun e => e.1 ≠ name)

/-- The lambda `commitCurrent` of `ParseMtlFile`. -/
def commitCurrent (s : MtlState F) : List (List Char × MaterialDefinition F) :=
  if s.currentName ≠ [] then assign s.materials s.currentName s.current else s.materials

/-- One iteration of the line loop of `ParseMtlFile`. -/
def mtlLine (fs : FileSystem) (filePath : List Char) (s : MtlState F) (rawLine : List Char) :
    MtlState F :=
  let line := Trim rawLine
  if line = [] ∨ line.head? = some '#' then s
  else
    let w := readWord line []
    let token := w.1
    let iss := w.2
    if token = "newmtl".toList then
      { current := { (MaterialDefinition.init N) with
                      diffuseColor := V3.splat N.c08, shininess := N.c32 },
        currentName := (readWord iss s.currentName).1,
        materials := commitCurrent s }
    else if token = "Kd".toList then
      { s with current := { s.current with diffuseColor := extract3 N iss s.current.diffuseColor } }
    else if token = "Ns".toList then
      { s with current := { s.current with shininess := (N.extract iss s.current.shininess).1 } }
    else if token = "map_Kd".toList then
      { s with current := { s.current with diffuseTexture := fs.sibling filePath (readWord iss []).1 } }
    else s

/-- Model of `ParseMtlFile`: the mapping `materials` after the call. -/
def ParseMtlFile (fs : FileSystem) (filePath : List Char)
    (materials : List (List Char × MaterialDefinition F)) :
    List (List Char × MaterialDefinition F) :=
  match fs.read filePath with
  | none => materials
  | some text =>
    commitCurrent ((getlines text).foldl (mtlLine N fs filePath)
      { current := MaterialDefinition.init N, currentName := [], materials := materials })

/-- Model of `ResolveMaterial`. -/
def ResolveMaterial (name : List Char) (library : List (List Char × MaterialDefinition F))
    (fallback : MaterialDefinition F) : MaterialDefinition F :=
  match library.lookup name with
  | some m => m
  | none => fallback

/-! ## Mesh assembly -/

/-- The local state of `LoadObjMesh` while it reads lines; `vertices`, `indices` and `chunks`
are the fields of the local `mesh`. -/
structure ParseState (F : Type) where
  positions : List (V3 F)
  texcoords : List (V2 F)
  normals : List (V3 F)
  materialLibrary : List (List Char × MaterialDefinition F)
  vertices : List (VertexPNT F)
  indices : List Nat
  chunks : List (MeshChunk F)
  currentChunk : MeshChunk F
  currentMaterialName : List Char
  vertexCache : List (VertexKey × Nat)
  deriving DecidableEq

/-- The state of `LoadObjMesh` before the first line. -/
def ParseState.init : ParseState F :=
  { positions := [], texcoords := [], normals := [], materialLibrary := [],
    vertices := [], indices := [], chunks := [],
    currentChunk := { startIndex := 0, indexCount := 0, material := defaultMaterial N },
    currentMaterialName := [], vertexCache := [] }

/-- Model of `vertexCache.emplace(key, index)`: no effect when the key is present. -/
def emplace (cache : List (VertexKey × Nat)) (key : VertexKey) (index : Nat) :
    List (VertexKey × Nat) :=
  if (cache.lookup key).isSome then cache else (key, index) :: cache

/-- The lambda `emitVertex` of `LoadObjMesh`: the returned `int` and the state afterwards. -/
def emitVertex (st : ParseState F) (partToken : List Char) :
    Except Fault (Int × ParseState F) := do
  let parsed ← ParseFaceToken partToken
  let vi := parsed.2.1
  let ti := parsed.2.2.1
  let ni := parsed.2.2.2
  if !parsed.1 then pure (-1, st)
  else
    let posIndex := ResolveIndex vi st.positions.length
    if posIndex < 0 then pure (-1, st)
    else
      let texIndex := ResolveIndex ti st.texcoords.length
      let normIndex := ResolveIndex ni st.normals.length
      let key : VertexKey := ⟨posIndex, texIndex, normIndex⟩
      match st.vertexCache.lookup key with
      | some index => pure (toInt32 index, st)
      | none =>
        match st.positions[posIndex.toNat]? with
        | none => throw Fault.out_of_bounds
        | some position =>
          let texRead : Option (V2 F) :=
            if texIndex ≥ 0 then st.texcoords[texIndex.toNat]? else some ⟨N.zero, N.zero⟩
          let normRead : Option (V3 F) :=
            if normIndex ≥ 0 then st.normals[normIndex.toNat]? else some (V3.splat N.zero)
          match texRead, normRead with
          | some texCoord, some normal =>
            let newIndex := toUInt32 st.vertices.length
            pure (toInt32 newIndex,
              { st with vertices := st.vertices ++ [⟨position, normal, texCoord⟩],
                        vertexCache := emplace st.vertexCache key newIndex })
          | _, _ => throw Fault.out_of_bounds

/-- The body of the fan loop of `LoadObjMesh` from corner `i` on: `first` and `prev` are the
loop variables, `tokens` the corners `faceTokens[i..]`. -/
def fanLoop (first : Int) : Int → List (List Char) → ParseState F → Except Fault (ParseState F)
  | _, [], st => pure st
  | prev, tok :: rest, st => do
    let r ← emitVertex N st tok
    let current := r.1
    let st1 := r.2
    if first < 0 ∨ prev < 0 ∨ current < 0 then fanLoop first prev rest st1
    else
      fanLoop first current rest
        { st1 with
          indices := st1.indices ++ [toUInt32 first, toUInt32 prev, toUInt32 current],
          currentChunk := { st1.currentChunk with
            indexCount := toUInt32 (st1.currentChunk.indexCount + 3) } }

/-- The branch of `LoadObjMesh` for a face record with the corner tokens `faceTokens`. -/
def processFace (st : ParseState F) (faceTokens : List (List Char)) :
    Except Fault (ParseState F) :=
  match faceTokens with
  | t0 :: t1 :: t2 :: rest => do
    let r0 ← emitVertex N st t0
    let r1 ← emitVertex N r0.2 t1
    fanLoop N r0.1 r1.1 (t2 :: rest) r1.2
  | _ => pure st

/-- The branch of `LoadObjMesh` for `usemtl materialName`. -/
def useMaterial (st : ParseState F) (materialName : List Char) : ParseState F :=
  if materialName ≠ st.currentMaterialName then
    let st1 : ParseState F :=
      if st.currentChunk.indexCount > 0 then
        { st with
          chunks := st.chunks ++ [st.currentChunk],
          currentChunk := { st.currentChunk with
            startIndex := toUInt32 st.indices.length, indexCount := 0 } }
      else
        { st with
          currentChunk := { st.currentChunk with startIndex := toUInt32 st.indices.length } }
    { st1 with
      currentMaterialName := materialName,
      currentChunk := { st1.currentChunk with
        material := ResolveMaterial materialName st1.materialLibrary (defaultMaterial N) } }
  else st

/-- The loop `while (iss >> mtlFile) ParseMtlFile(...)` of the `mtllib` branch. -/
def loadLibraries (fs : FileSystem) (objPath : List Char) (mtlFiles : List (List Char))
    (library : List (List Char × MaterialDefinition F)) :
    List (List Char × MaterialDefinition F) :=
  mtlFiles.foldl (fun lib mtlFile => ParseMtlFile N fs (fs.sibling objPath mtlFile) lib) library

/-- One iteration of the line loop of `LoadObjMesh`. -/
def processLine (fs : FileSystem) (objPath : List Char) (st : ParseState F)
    (rawLine : List Char) : Except Fault (ParseState F) :=
  let line := Trim rawLine
  if line = [] ∨ line.head? = some '#' then pure st
  else
    let w := readWord line []
    let token := w.1
    let iss := w.2
    if token = "v".toList then
      pure { st with positions := st.positions ++ [extract3 N iss (V3.splat N.zero)] }
    else if token = "vt".toList then
      pure { st with texcoords := st.texcoords ++ [extract2 N iss ⟨N.zero, N.zero⟩] }
    else if token = "vn".toList then
      pure { st with normals := st.normals ++ [extract3 N iss (V3.splat N.zero)] }
    else if token = "mtllib".toList then
      pure { st with materialLibrary := loadLibraries N fs objPath (readWords iss) st.materialLibrary }
    else if token = "usemtl".toList then
      pure (useMaterial N st (readWord iss []).1)
    else if token = "f".toList then
      processFace N st (readWords iss)
    else pure st

/-- The line loop of `LoadObjMesh`. -/
def processLines (fs : FileSystem) (objPath : List Char) :
    List (List Char) → ParseState F → Except Fault (ParseState F)
  | [], st => pure st
  | line :: rest, st => do
    let st1 ← processLine N fs objPath st line
    processLines fs objPath rest st1

/-! ## Normals -/

/-- The scan that sets `hasNormals`. -/
def hasNormals (vertices : List (VertexPNT F)) : Bool :=
  vertices.any (fun v => N.gt (N.dot v.normal v.normal) N.zero)

/-- The statement `vertices[i].normal += normal`. -/
def addNormal (vertices : List (VertexPNT F)) (i : Nat) (normal : V3 F) :
    List (VertexPNT F) :=
  match vertices[i]? with
  | some v => vertices.set i { v with normal := N.add v.normal normal }
  | none => vertices

/-- The accumulation loop `for (i = 0; i + 2 < indices.size(); i += 3)` over the index entries
not yet visited. -/
def accumulate : List Nat → List (VertexPNT F) → Except Fault (List (VertexPNT F))
  | ia :: ib :: ic :: rest, vertices =>
    match vertices[ia]?, vertices[ib]?, vertices[ic]? with
    | some a, some b, some c =>
      let ab := N.sub b.position a.position
      let ac := N.sub c.position a.position
      let normal := N.normalize (N.cross ab ac)
      if N.anyIsnan normal then accumulate rest vertices
      else accumulate rest (addNormal N (addNormal N (addNormal N vertices ia normal) ib normal) ic normal)
    | _, _, _ => throw Fault.out_of_bounds
  | _, vertices => pure vertices

/-- The last loop of the branch `!hasNormals`. -/
def finishSynthesized (v : VertexPNT F) : VertexPNT F :=
  if N.gt (N.dot v.normal v.normal) N.zero then { v with normal := N.normalize v.normal }
  else { v with normal := ⟨N.zero, N.one, N.zero⟩ }

/-- The loop of the branch `hasNormals`. -/
def finishSupplied (v : VertexPNT F) : VertexPNT F :=
  if N.gt (N.dot v.normal v.normal) N.zero then { v with normal := N.normalize v.normal }
  else v

/-- The normal pass at the end of `LoadObjMesh`: the vertex buffer afterwards. -/
def normalPass (vertices : List (VertexPNT F)) (indices : List Nat) :
    Except Fault (List (VertexPNT F)) :=
  if !hasNormals N vertices then do
    let cleared := vertices.map (fun v => { v with normal := V3.splat N.zero })
    let summed ← accumulate N indices cleared
    pure (summed.map (finishSynthesized N))
  else pure (vertices.map (finishSupplied N))

/-- The chunk list after the statement that follows the line loop. -/
def closeChunks (st : ParseState F) : List (MeshChunk F) :=
  if st.currentChunk.indexCount > 0 then st.chunks ++ [st.currentChunk] else st.chunks

/-- Model of `LoadObjMesh`: `none` stands for the return value `false` (`outMesh` is not written), and
`some mesh` for `true` with `outMesh = mesh`. -/
def LoadObjMesh (fs : FileSystem) (objPath : List Char) : Except Fault (Option (ObjMesh F)) :=
  match fs.read objPath with
  | none => pure none
  | some text => do
    let st ← processLines N fs objPath (getlines text) (ParseState.init N)
    let vertices ← normalPass N st.vertices st.indices
    pure (some { vertices := vertices, indices := st.indices, chunks := closeChunks st })

/-! ## The model class (`Model.cpp`) -/

/-- Model of `MeshDrawCall`; `diffuseTexture` is a `GLuint`. -/
structure MeshDrawCall (F : Type) where
  startIndex : Nat
  indexCount : Nat
  diffuseColor : V3 F
  shininess : F
  diffuseTexture : Nat
  hasDiffuse : Bool
  deriving DecidableEq, Repr

/-- The texture collaborator: `normal p` is `p.lexically_normal()` as a string, and `load p` is
`gfx::LoadTexture2D(p, texture, &error)`: the texture name on success, `none` on failure. -/
structure TextureLoader where
  normal : List Char → List Char
  load : List Char → Option Nat

/-- The members of `Model` that `LoadFromObj` writes besides the buffer names. -/
structure Model (F : Type) where
  draws : List (MeshDrawCall F)
  textures : List Nat
  indexCount : Nat
  deriving DecidableEq, Repr

/-- The state of the lambda `acquireTexture`: the local `textureCache` and the member
`textures_`. -/
structure TextureState where
  textureCache : List (List Char × Nat)
  textures : List Nat

/-- The lambda `acquireTexture` of `Model::LoadFromObj`: the returned name (`0` on failure) and
the state afterwards. -/
def acquireTexture (tl : TextureLoader) (ts : TextureState) (texPath : List Char) :
    Nat × TextureState :=
  let key := tl.normal texPath
  match ts.textureCache.lookup key with
  | some texture => (texture, ts)
  | none =>
    match tl.load key with
    | none => (0, ts)
    | some texture =>
      (texture,
        { textureCache :=
            if (ts.textureCache.lookup key).isSome then ts.textureCache
            else (key, texture) :: ts.textureCache,
          textures := ts.textures ++ [texture] })

/-- One iteration of the loop over `mesh.chunks` in `Model::LoadFromObj`. -/
def drawStep (tl : TextureLoader) (acc : List (MeshDrawCall F) × TextureState)
    (chunk : MeshChunk F) : List (MeshDrawCall F) × TextureState :=
  if chunk.indexCount = 0 then acc
  else
    let draw : MeshDrawCall F :=
      { startIndex := chunk.startIndex, indexCount := chunk.indexCount,
        diffuseColor := chunk.material.diffuseColor, shininess := chunk.material.shininess,
        diffuseTexture := 0, hasDiffuse := false }
    if !chunk.material.diffuseTexture.isEmpty then
      let r := acquireTexture tl acc.2 chunk.material.diffuseTexture
      if r.1 ≠ 0 then (acc.1 ++ [{ draw with diffuseTexture := r.1, hasDiffuse := true }], r.2)
      else (acc.1 ++ [draw], r.2)
    else (acc.1 ++ [draw], acc.2)

/-- Model of `Model::LoadFromObj`: the returned flag and the members afterwards.  The calls that create
and fill the buffers of the graphics library are left out; they do not touch what is modelled. -/
def LoadFromObj (fs : FileSystem) (tl : TextureLoader) (self : Model F) (objPath : List Char) :
    Except Fault (Bool × Model F) := do
  let loaded ← LoadObjMesh N fs objPath
  match loaded with
  | none => pure (false, self)
  | some mesh =>
    if mesh.vertices.isEmpty ∨ mesh.indices.isEmpty then pure (false, self)
    else
      let r := mesh.chunks.foldl (drawStep tl) ([], { textureCache := [], textures := [] })
      let draws : List (MeshDrawCall F) :=
        if r.1.isEmpty then
          [{ startIndex := 0, indexCount := toUInt32 mesh.indices.length,
             diffuseColor := V3.splat N.c08, shininess := N.c32, diffuseTexture := 0,
             hasDiffuse := false }]
        else r.1
      pure (true, { draws := draws, textures := r.2.textures, indexCount := mesh.indices.length })

/-! ## Notions used to state the properties -/

/-- The key `emitVertex` builds for a corner token: the resolved position, texture coordinate and
normal indices; `none` when the token does not parse or its position index is invalid. -/
def cornerKey (st : ParseState F) (partToken : List Char) : Option VertexKey :=
  match ParseFaceToken partToken with
  | .ok parsed =>
    if parsed.1 = true ∧ 0 ≤ ResolveIndex parsed.2.1 st.positions.length then
      some ⟨ResolveIndex parsed.2.1 st.positions.length,
            ResolveIndex parsed.2.2.1 st.texcoords.length,
            ResolveIndex parsed.2.2.2 st.normals.length⟩
    else none
  | .error _ => none

/-- The vertex `emitVertex` builds for a key: absent attributes are zero. -/
def vertexOf (st : ParseState F) (key : VertexKey) : VertexPNT F :=
  { position := st.positions.getD key.position.toNat (V3.splat N.zero),
    normal := if key.normal ≥ 0 then st.normals.getD key.normal.toNat (V3.splat N.zero)
      else V3.splat N.zero,
    texCoord := if key.texCoord ≥ 0 then st.texcoords.getD key.texCoord.toNat ⟨N.zero, N.zero⟩
      else ⟨N.zero, N.zero⟩ }

/-- The fan triangulation as the specification states it: for the corners `c0, c1, ..., cn` the
index triples `(c0, c1, c2), (c0, c2, c3), ..., (c0, c(n-1), cn)`, concatenated. -/
def fanSpec (c0 : Nat) : List Nat → List Nat
  | c1 :: c2 :: rest => c0 :: c1 :: c2 :: fanSpec c0 (c2 :: rest)
  | _ => []

/-- What the parse relies on between two faces: every cached index names a vertex of the vertex
buffer. -/
def CacheInBounds (st : ParseState F) : Prop :=
  ∀ key index, st.vertexCache.lookup key = some index → index < st.vertices.length

/-- The state after `emitVertex` has appended the vertex of a new key. -/
def pushVertex (st : ParseState F) (key : VertexKey) : ParseState F :=
  { st with vertices := st.vertices ++ [vertexOf N st key],
            vertexCache := emplace st.vertexCache key (toUInt32 st.vertices.length) }

/-- The fields of the parse state that `emitVertex` leaves alone. -/
def SameFrame (st st1 : ParseState F) : Prop :=
  st1.positions = st.positions ∧ st1.texcoords = st.texcoords ∧ st1.normals = st.normals ∧
  st1.materialLibrary = st.materialLibrary ∧ st1.indices = st.indices ∧
  st1.chunks = st.chunks ∧ st1.currentChunk = st.currentChunk ∧
  st1.currentMaterialName = st.currentMaterialName

/-- The vertex buffer and the cache only grow from `st` to `st1`. -/
def Extends (st st1 : ParseState F) : Prop :=
  (∃ added, st1.vertices = st.vertices ++ added) ∧
  ∀ key index, st.vertexCache.lookup key = some index →
    st1.vertexCache.lookup key = some index

/-- The vertex index of a corner token in a state: the cached index of its key. -/
def cornerIndex (st : ParseState F) (tok : List Char) : Option Nat :=
  match cornerKey st tok with
  | some key => st.vertexCache.lookup key
  | none => none

/-- What the fan loop appends to the index buffer: `first` and `prev` are the vertex indices the
loop holds, the list has for each remaining corner its vertex index, `none` for a rejected
corner. -/
def fanRest (first : Nat) : Nat → List (Option Nat) → List Nat
  | _, [] => []
  | prev, none :: rest => fanRest first prev rest
  | prev, some current :: rest => first :: prev :: current :: fanRest first current rest

/-- The loop started with the results of the first two corners. -/
def loopSpec : Option Nat → Option Nat → List (Option Nat) → List Nat
  | some first, some prev, ids => fanRest first prev ids
  | _, _, _ => []

/-- What a face record appends to the index buffer, from the vertex index of each corner. -/
def faceIndices : List (Option Nat) → List Nat
  | first :: prev :: rest => loopSpec first prev rest
  | _ => []

/-- The `int` a corner returned, next to its vertex index. -/
def Linked (r : Int) (o : Option Nat) : Prop :=
  (o = none ∧ r < 0) ∨ ∃ n : Nat, o = some n ∧ r = (n : Int) ∧ n < 2147483648

/-- The fields of the parse state that a face record leaves alone. -/
def FaceFrame (st st1 : ParseState F) : Prop :=
  st1.positions = st.positions ∧ st1.texcoords = st.texcoords ∧ st1.normals = st.normals ∧
  st1.materialLibrary = st.materialLibrary ∧ st1.chunks = st.chunks ∧
  st1.currentMaterialName = st.currentMaterialName ∧
  st1.currentChunk.startIndex = st.currentChunk.startIndex ∧
  st1.currentChunk.material = st.currentChunk.material

/-- The face policy of the loader, from the vertex index of each corner (`none` for a corner
with an invalid position index): nothing unless the first two corners are valid, else the fan over
the first two corners and the valid ones among the others. -/
def droppedFan : List (Option Nat) → List Nat
  | some c0 :: some c1 :: rest => fanSpec c0 (c1 :: rest.reduceOption)
  | _ => []

/-- The triangles of a face as the specification states them: the fan triangles
`(c0, c(i-1), ci)` whose three corners are valid, in fan order. -/
def validFanTriangles (c0 : Option Nat) : List (Option Nat) → List Nat
  | c1 :: c2 :: rest =>
    (match c0, c1, c2 with
      | some a, some b, some c => [a, b, c]
      | _, _, _ => []) ++ validFanTriangles c0 (c2 :: rest)
  | _ => []

/-- A position `(x, y, z)` with small integer coordinates, in binary32. -/
def pos32 (x y z : Nat) : V3 F32 := ⟨F32.round false x 1, F32.round false y 1, F32.round false z 1⟩

/-- The parse state after four `v` records (the corners of the unit square) and nothing else. -/
def quadState : ParseState F32 :=
  { ParseState.init binary32 with
    positions := [pos32 0 0 0, pos32 1 0 0, pos32 1 1 0, pos32 0 1 0] }

/-- How the parse state evolves while `LoadObjMesh` reads lines, as seen between two calls of
`emitVertex`: by calls of `emitVertex`, by the statements of the fan loop that append a triangle
and count it, and by whole lines. -/
inductive Evolves (fs : FileSystem) (objPath : List Char) : ParseState F → ParseState F → Prop
  | refl (st : ParseState F) : Evolves fs objPath st st
  | emit {st st1 st2 : ParseState F} (tok : List Char) (r : Int) :
      Evolves fs objPath st st1 → emitVertex N st1 tok = .ok (r, st2) → Evolves fs objPath st st2
  | push {st st1 : ParseState F} (indices : List Nat) (chunk : MeshChunk F) :
      Evolves fs objPath st st1 →
      Evolves fs objPath st { st1 with indices := indices, currentChunk := chunk }
  | line {st st1 st2 : ParseState F} (rawLine : List Char) :
      Evolves fs objPath st st1 → processLine N fs objPath st1 rawLine = .ok st2 →
      Evolves fs objPath st st2

/-- The result of a step that succeeds, `d` otherwise. -/
def okOr {α : Type} (d : α) : Except Fault α → α
  | .ok a => a
  | .error _ => d

/-- The state `quadState` after `emitVertex` on the corner `1`. -/
def quadAfterCorner : ParseState F32 :=
  (okOr (0, quadState) (emitVertex binary32 quadState "1".toList)).2

/-- The state `quadAfterCorner` after the line `f 1 2 3`. -/
def quadAfterFace : ParseState F32 :=
  okOr quadState (processLine binary32 (oneFile [] []) [] quadAfterCorner "f 1 2 3".toList)

/-- The chunks `chunks` cover the index range from `start` to `total` without gap or overlap, in
order, and none of them is empty. -/
def PartitionFrom (start : Nat) : List (MeshChunk F) → Nat → Prop
  | [], total => start = total
  | c :: cs, total =>
    c.startIndex = start ∧ 0 < c.indexCount ∧ PartitionFrom (start + c.indexCount) cs total

/-- The chunk bookkeeping of `LoadObjMesh` between two lines: the closed chunks cover the index
buffer up to the start of the active chunk, and the active chunk covers the rest. -/
def ChunkInv (st : ParseState F) : Prop :=
  PartitionFrom 0 st.chunks st.currentChunk.startIndex ∧
  st.currentChunk.startIndex + st.currentChunk.indexCount = st.indices.length

/-- The path of the geometry source in the examples. -/
def examplePath : List Char := "model.obj".toList

/-- A source that switches `usemtl A` to `usemtl B` with faces under each. -/
def twoMaterialSource : List Char :=
  "v 0 0 0\nv 1 0 0\nv 0 1 0\nv 1 1 0\nusemtl A\nf 1 2 3\nusemtl B\nf 2 4 3 1\n".toList

/-- The mesh a call returns, the empty mesh when it returns none. -/
def meshOf (r : Except Fault (Option (ObjMesh F32))) : ObjMesh F32 :=
  match r with
  | .ok (some mesh) => mesh
  | _ => { vertices := [], indices := [], chunks := [] }

/-- The mesh of `twoMaterialSource`. -/
def twoMaterialMesh : ObjMesh F32 :=
  meshOf (LoadObjMesh binary32 (oneFile examplePath twoMaterialSource) examplePath)

/-- A source with a face record whose corners are not numbers, between well-formed records. -/
def malformedFaceSource : List Char :=
  "v 0 0 0\nv 1 0 0\nv 0 1 0\nf a b c\nf 1 2 3\n".toList

/-- A source of blank and comment lines only. -/
def commentSource : List Char := "# a model\n\n   \n# no geometry\n".toList

/-- A texture collaborator that loads nothing. -/
def noTextures : TextureLoader := { normal := fun p => p, load := fun _ => none }

/-- A model before its first load. -/
def emptyModel : Model F32 := { draws := [], textures := [], indexCount := 0 }

/-- What holds of the buffers between two statements of the line loop: every cached index is a
`uint32_t` that names a vertex, and so does every entry of the index buffer. -/
def BuffersInv (st : ParseState F) : Prop :=
  CacheInBounds st ∧
  (∀ key index, st.vertexCache.lookup key = some index → index < 4294967296) ∧
  ∀ i ∈ st.indices, i < st.vertices.length

/-- The test `glm::dot(n, n) > 0.0f` by which the loader decides that a normal counts; a normal
that is not zero fails it when the products underflow. -/
def nonzero (n : V3 F) : Bool := N.gt (N.dot n n) N.zero

/-- The face normal of the triangle with the corner positions number `ia`, `ib`, `ic` of `ps`:
`normalize(cross(b - a, c - a))`. -/
def faceNormal (ps : List (V3 F)) (ia ib ic : Nat) : V3 F :=
  N.normalize (N.cross
    (N.sub (ps.getD ib (V3.splat N.zero)) (ps.getD ia (V3.splat N.zero)))
    (N.sub (ps.getD ic (V3.splat N.zero)) (ps.getD ia (V3.splat N.zero))))

/-- The sum `S_v` of the specification for the vertex `v`, added to `acc`: over the triangles of
the index buffer in order, and over the corners of a triangle in order, the face normal of every
triangle whose face normal is not NaN, once for every corner that is `v`. -/
def normalSum (ps : List (V3 F)) (v : Nat) : List Nat → V3 F → V3 F
  | ia :: ib :: ic :: rest, acc =>
    if N.anyIsnan (faceNormal N ps ia ib ic) then normalSum ps v rest acc
    else
      normalSum ps v rest
        (let acc1 := if ia = v then N.add acc (faceNormal N ps ia ib ic) else acc
         let acc2 := if ib = v then N.add acc1 (faceNormal N ps ia ib ic) else acc1
         if ic = v then N.add acc2 (faceNormal N ps ia ib ic) else acc2)
  | _, acc => acc

/-- The triangles of an index buffer, as the accumulation loop reads them. -/
def triangles : List Nat → List (Nat × Nat × Nat)
  | ia :: ib :: ic :: rest => (ia, ib, ic) :: triangles rest
  | _ => []

/-- The normal the branch `!hasNormals` leaves in a vertex whose accumulated sum is `sum`. -/
def finishedNormal (sum : V3 F) : V3 F :=
  if nonzero N sum then N.normalize sum else ⟨N.zero, N.one, N.zero⟩

/-- The normal of the vertex `v` when no normal is supplied: `normalize(S_v)` when
`dot(S_v, S_v) > 0.0f`, the up vector otherwise. -/
def synthesizedNormal (vertices : List (VertexPNT F)) (indices : List Nat) (v : Nat) : V3 F :=
  finishedNormal N
    (normalSum N (vertices.map (fun y => y.position)) v indices (V3.splat N.zero))

/-- The state of `LoadObjMesh` after the line loop over a source, the initial state when the
loop is aborted. -/
def parsedState (source : List Char) : ParseState F32 :=
  okOr (ParseState.init binary32)
    (processLines binary32 (oneFile examplePath source) examplePath (getlines source)
      (ParseState.init binary32))

/-- Two positions and a face record whose third corner is out of range: two vertices are emitted
and no triangle. -/
def orphanSource : List Char := "v 0 0 0\nv 1 0 0\nf 1 2 9\n".toList

/-- A triangle with a supplied normal of length two on two of its corners and none on the
third. -/
def suppliedSource : List Char :=
  "v 0 0 0\nv 1 0 0\nv 0 1 0\nvn 0 0 2\nf 1//1 2//1 3\n".toList

/-- The first word of a line after trimming: the directive of the line. -/
def lineToken (rawLine : List Char) : List Char := (readWord (Trim rawLine) []).1

/-- What follows the first word of a line. -/
def lineRest (rawLine : List Char) : List Char := (readWord (Trim rawLine) []).2

/-- The line is skipped by the line loop: empty after trimming, or a comment. -/
def Skipped (rawLine : List Char) : Prop :=
  Trim rawLine = [] ∨ (Trim rawLine).head? = some '#'

instance (rawLine : List Char) : Decidable (Skipped rawLine) := by
  unfold Skipped; infer_instance

/-- The line is a directive `usemtl materialName`. -/
def UsemtlLine (rawLine materialName : List Char) : Prop :=
  ¬Skipped rawLine ∧ lineToken rawLine = "usemtl".toList ∧
    (readWord (lineRest rawLine) []).1 = materialName

instance (rawLine materialName : List Char) : Decidable (UsemtlLine rawLine materialName) := by
  unfold UsemtlLine; infer_instance

/-- The line is a directive `mtllib` naming the files `mtlFiles`. -/
def MtllibLine (rawLine : List Char) (mtlFiles : List (List Char)) : Prop :=
  ¬Skipped rawLine ∧ lineToken rawLine = "mtllib".toList ∧ readWords (lineRest rawLine) = mtlFiles

instance (rawLine : List Char) (mtlFiles : List (List Char)) :
    Decidable (MtllibLine rawLine mtlFiles) := by
  unfold MtllibLine; infer_instance

/-- The line is not a `usemtl` directive. -/
def NoUsemtl (rawLine : List Char) : Prop :=
  Skipped rawLine ∨ lineToken rawLine ≠ "usemtl".toList

instance (rawLine : List Char) : Decidable (NoUsemtl rawLine) := by
  unfold NoUsemtl; infer_instance

/-- A source with two `usemtl A` directives in a row before its only face. -/
def repeatedMaterialSource : List Char :=
  "v 0 0 0\nv 1 0 0\nv 0 1 0\nusemtl A\nusemtl A\nf 1 2 3\n".toList

/-- The state of `repeatedMaterialSource` after its three `v` records. -/
def threePositions : ParseState F32 :=
  { ParseState.init binary32 with positions := [pos32 0 0 0, pos32 1 0 0, pos32 0 1 0] }

/-- The state `threePositions` with the face `f 1 2 3` emitted under the default material. -/
def oneTriangle : ParseState F32 :=
  okOr threePositions
    (processLine binary32 (oneFile [] []) [] threePositions "f 1 2 3".toList)

/-- The chunk bookkeeping that only a `usemtl` directive touches. -/
def SameChunking (st st1 : ParseState F) : Prop :=
  st1.chunks = st.chunks ∧ st1.currentMaterialName = st.currentMaterialName ∧
  st1.currentChunk.startIndex = st.currentChunk.startIndex ∧
  st1.currentChunk.material = st.currentChunk.material

/-- An example file system holding the listed files in one directory: `sibling` gives the name
as it is, which is `(p.parent_path() / name).lexically_normal()` only for names without a
directory part and without dot segments. -/
def filesOf (files : List (List Char × List Char)) : FileSystem :=
  { read := fun p => files.lookup p, sibling := fun _ name => name }

/-- A material file with two materials. -/
def exampleMtl : List Char :=
  "# materials\nnewmtl red\nKd 1 0 0\nNs 8\nnewmtl plain\nmap_Kd wood.png\n".toList

/-- A geometry source that loads `a.mtl` and uses a material it defines and one it lacks. -/
def materialSource : List Char :=
  "mtllib a.mtl\nv 0 0 0\nv 1 0 0\nv 0 1 0\nusemtl red\nf 1 2 3\nusemtl missing\nf 3 2 1\n".toList

/-- The files of the material example. -/
def materialFiles : FileSystem :=
  filesOf [(examplePath, materialSource), ("a.mtl".toList, exampleMtl)]

/-- The state of the material example after `mtllib a.mtl` and the three `v` records. -/
def materialState : ParseState F32 :=
  okOr (ParseState.init binary32)
    (processLines binary32 materialFiles examplePath
      ((getlines materialSource).take 4) (ParseState.init binary32))

/-- The state `quadState` with two texture coordinates and one normal. -/
def quadWithAttributes : ParseState F32 :=
  { quadState with
    texcoords := [⟨F32.zero, F32.zero⟩, ⟨F32.one, F32.zero⟩],
    normals := [pos32 0 0 1] }

/-- The line is a face record with the corner tokens `faceTokens`. -/
def FaceLine (rawLine : List Char) (faceTokens : List (List Char)) : Prop :=
  ¬Skipped rawLine ∧ lineToken rawLine = "f".toList ∧ readWords (lineRest rawLine) = faceTokens

instance (rawLine : List Char) (faceTokens : List (List Char)) :
    Decidable (FaceLine rawLine faceTokens) := by
  unfold FaceLine; infer_instance

/-- The line is a position record `v ...`. -/
def PositionLine (rawLine : List Char) : Prop :=
  ¬Skipped rawLine ∧ lineToken rawLine = "v".toList

instance (rawLine : List Char) : Decidable (PositionLine rawLine) := by
  unfold PositionLine; infer_instance

/-- The position a `v` record appends: what `iss >> pos.x >> pos.y >> pos.z` leaves in the
zero-initialised `pos`. -/
def positionOf (rawLine : List Char) : V3 F :=
  extract3 N (lineRest rawLine) (V3.splat N.zero)

/-- Three collinear, pairwise distinct positions and the face over them. -/
def collinearSource : List Char := "v 0 0 0\nv 1 0 0\nv 2 0 0\nf 1 2 3\n".toList

/-- The single triangle over the positions `(0,0,0)`, `(1,0,0)`, `(0,1,0)`. -/
def singleTriangleSource : List Char := "v 0 0 0\nv 1 0 0\nv 0 1 0\nf 1 2 3\n".toList

/-- A material file whose second `newmtl` has no name. -/
def namelessMtl : List Char := "newmtl A\nKd 1 0 0\nnewmtl\nNs 5\n".toList

/-- Two material files that both define `A`: `a.mtl` in one block, `b.mtl` in a block that a
`newmtl` without a name follows. -/
def namelessFiles : FileSystem :=
  filesOf [("a.mtl".toList, "newmtl A\nKd 0 0 1\n".toList), ("b.mtl".toList, namelessMtl)]

/-- An integer written in decimal: its digits, after a minus sign when it is negative. -/
def decimal (z : Int) : List Char :=
  match z with
  | Int.ofNat n => Nat.toDigits 10 n
  | Int.negSucc n => '-' :: Nat.toDigits 10 (n + 1)

/-- A run of decimal digits, not empty. -/
def IsDigits (ds : List Char) : Prop := ds ≠ [] ∧ ∀ c ∈ ds, isdigit c = true

/-- What the claim compares of a draw call. -/
def drawKey (d : MeshDrawCall F) : Nat × Nat × V3 F × F :=
  (d.startIndex, d.indexCount, d.diffuseColor, d.shininess)

/-- What the claim compares of a chunk. -/
def chunkKey (c : MeshChunk F) : Nat × Nat × V3 F × F :=
  (c.startIndex, c.indexCount, c.material.diffuseColor, c.material.shininess)

/-- The draw list and the texture state after the loop over `mesh.chunks` in
`Model::LoadFromObj`, before the test `draws_.empty()`. -/
def drawLoop (tl : TextureLoader) (chunks : List (MeshChunk F)) :
    List (MeshDrawCall F) × TextureState :=
  chunks.foldl (drawStep tl) ([], { textureCache := [], textures := [] })

/-- Every entry of a material mapping has an empty `name` field and a key that is not empty. -/
def NamesEmpty (m : List (List Char × MaterialDefinition F)) : Prop :=
  ∀ e ∈ m, e.2.name = [] ∧ e.1 ≠ []

/-- What holds of the `name` fields between two lines of the parse: the library entries have an
empty name, and the material of every chunk has the name `default` or the empty name. -/
def NameInv (st : ParseState F) : Prop :=
  NamesEmpty st.materialLibrary ∧
  (∀ c ∈ st.chunks, c.material.name = "default".toList ∨ c.material.name = []) ∧
  (st.currentChunk.material.name = "default".toList ∨ st.currentChunk.material.name = [])

/-- A triangle under `usemtl default`, with no material library. -/
def defaultNamedSource : List Char :=
  "v 0 0 0\nv 1 0 0\nv 0 1 0\nusemtl default\nf 1 2 3\n".toList

/-- The indices of a key name elements of the attribute lists of the state: the position index
always, the texture coordinate and normal indices unless they are the invalid marker. -/
def KeyInRange (st : ParseState F) (key : VertexKey) : Prop :=
  0 ≤ key.position ∧ key.position.toNat < st.positions.length ∧
  (key.texCoord = -1 ∨ (0 ≤ key.texCoord ∧ key.texCoord.toNat < st.texcoords.length)) ∧
  (key.normal = -1 ∨ (0 ≤ key.normal ∧ key.normal.toNat < st.normals.length))

/-- The vertex cache is a bijection between its keys and the indices of the vertex buffer, and
the vertex at the index of a key is the vertex built from the key. -/
def CacheBijection (st : ParseState F) : Prop :=
  (∀ key i, st.vertexCache.lookup key = some i → i < st.vertices.length) ∧
  (∀ i, i < st.vertices.length → ∃ key, st.vertexCache.lookup key = some i) ∧
  (∀ k1 k2 i, st.vertexCache.lookup k1 = some i → st.vertexCache.lookup k2 = some i →
    k1 = k2) ∧
  (∀ key i, st.vertexCache.lookup key = some i →
    KeyInRange st key ∧ st.vertices[i]? = some (vertexOf N st key))

/-- Two positions with equal values and a third one, a face whose last corner is out of range
and a triangle. -/
def equalPositionsSource : List Char :=
  "v 0 0 0\nv 0 0 0\nv 1 0 0\nf 1 2 9\nf 1 2 3\n".toList

/-- The float nearest to `10^-30`: not zero, with a square that underflows to zero. -/
def tiny32 : F32 := F32.round false 1 (10 ^ 30)

/-- A triangle whose three corners name the supplied normal `(10^-30, 0, 0)`. -/
def tinyNormalSource : List Char :=
  "v 0 0 0\nv 1 0 0\nv 0 1 0\nvn 0.000000000000000000000000000001 0 0\nf 1//1 2//1 3//1\n".toList

/-- Two triangles around the first position with the face normals `(10^-30, 1, 0)` and
`(0, -1, 0)`. -/
def tinySumSource : List Char :=
  "v 0 0 0\nv 1 0 0\nv 0 0 1\nv 1 -0.000000000000000000000000000001 0\nf 1 3 4\nf 1 2 3\n".toList

/-- Two corners that name the supplied normal `(10^-30, 0, 0)` in a face whose third corner is
out of range. -/
def tinyOrphanSource : List Char :=
  "v 0 0 0\nv 1 0 0\nvn 0.000000000000000000000000000001 0 0\nf 1//1 2//1 9\n".toList

end Loader

end ObjLoader

namespace ObjLoader

/-! ## Index resolution -/

theorem toInt32_of_isInt32 {z : Int} (h : IsInt32 z) : toInt32 z = z := by
  unfold IsInt32 at h
  unfold toInt32
  omega

/-- A resolved index is the invalid marker or an index into a list of `count` elements. -/
theorem ResolveIndex_range (idx : Int) (count : Nat) :
    ResolveIndex idx count = -1 ∨
      (0 ≤ ResolveIndex idx count ∧ (ResolveIndex idx count).toNat < count) := by
  unfold ResolveIndex
  dsimp only
  split
  · split
    · right; assumption
    · left; rfl
  · split
    · split
      · right; assumption
      · left; rfl
    · left; rfl

/-- C1 (as amended): for every `int` `idx` and every list size `count` that is itself an `int`
(`count ≤ INT_MAX`), `ResolveIndex` maps a positive `idx` to `idx - 1` when `idx ≤ count`, a
negative `idx` to `count + idx` when that is not negative, and everything else, `0` included, to
the invalid marker `-1`. -/
theorem ResolveIndex_spec (idx : Int) (count : Nat) (hidx : IsInt32 idx)
    (hcount : count ≤ 2147483647) :
    (0 < idx → ResolveIndex idx count = if idx ≤ count then idx - 1 else -1) ∧
    (idx < 0 → ResolveIndex idx count = if 0 ≤ (count : Int) + idx then (count : Int) + idx else -1) ∧
    (idx = 0 → ResolveIndex idx count = -1) := by
  unfold IsInt32 at hidx
  refine ⟨fun h => ?_, fun h => ?_, fun h => ?_⟩
  · unfold ResolveIndex
    dsimp only
    rw [if_pos h]
    split <;> split <;> omega
  · unfold ResolveIndex
    dsimp only
    rw [if_neg (by omega), if_pos h]
    have h1 : toInt32 (count : Int) = count := toInt32_of_isInt32 (by unfold IsInt32; omega)
    have h2 : toInt32 ((count : Int) + idx) = count + idx :=
      toInt32_of_isInt32 (by unfold IsInt32; omega)
    rw [h1, h2]
    split <;> split <;> omega
  · subst h
    rfl

/-- Witness of C1: the last of five elements, the first, the invalid index `0`. -/
theorem ResolveIndex_spec_witness :
    ResolveIndex (-1) 5 = 4 ∧ ResolveIndex 1 5 = 0 ∧ ResolveIndex 0 5 = -1 := by
  have h1 := ResolveIndex_spec (-1) 5 (by decide) (by decide)
  have h2 := ResolveIndex_spec 1 5 (by decide) (by decide)
  have h3 := ResolveIndex_spec 0 5 (by decide) (by decide)
  exact ⟨by simpa using h1.2.1 (by decide), by simpa using h2.1 (by decide), h3.2.2 rfl⟩

/-- C1 as stated fails for a list size beyond `INT_MAX`: with 2147483649 elements the index `-1`
has `count + idx = 2147483648 ≥ 0`, yet `static_cast<int>(count)` is `-2147483647` and the
result is the invalid marker. -/
theorem ResolveIndex_count_beyond_int :
    (-1 : Int) < 0 ∧ (0 : Int) ≤ ((2147483649 : Nat) : Int) + (-1) ∧
      ResolveIndex (-1) 2147483649 = -1 ∧
      ResolveIndex (-1) 2147483649 ≠ ((2147483649 : Nat) : Int) + (-1) := by
  decide

/-! ## Properties of the loader -/

section Face

variable {F : Type} (N : Numerics F)

/-! ### The face branch: `emitVertex` and the fan loop -/

theorem getElem?_of_resolved {α : Type} (l : List α) (d : α) (idx : Int)
    (h : 0 ≤ ResolveIndex idx l.length) :
    l[(ResolveIndex idx l.length).toNat]? = some (l.getD (ResolveIndex idx l.length).toNat d) := by
  rcases ResolveIndex_range idx l.length with h1 | ⟨_, h2⟩
  · rw [h1] at h; exact absurd h (by decide)
  · rw [List.getD_eq_getElem?_getD, List.getElem?_eq_getElem h2]; rfl

theorem emitVertex_of_key (st : ParseState F) (tok : List Char) (key : VertexKey)
    (h : cornerKey st tok = some key) :
    emitVertex N st tok =
      match st.vertexCache.lookup key with
      | some index => .ok (toInt32 index, st)
      | none => .ok (toInt32 (toUInt32 st.vertices.length), pushVertex N st key) := by
  unfold cornerKey at h
  unfold emitVertex
  cases hp : ParseFaceToken tok with
  | error e => rw [hp] at h; cases h
  | ok parsed =>
    rw [hp] at h
    dsimp only at h
    split at h
    · rename_i hc
      obtain ⟨hflag, hpos⟩ := hc
      injection h with h
      subst h
      simp only [bind, Except.bind, hflag, Bool.not_true, Bool.false_eq_true, ↓reduceIte,
        not_lt.mpr hpos]
      cases hl : List.lookup _ st.vertexCache with
      | some index => rfl
      | none =>
        dsimp only
        rw [getElem?_of_resolved st.positions (V3.splat N.zero) _ hpos]
        have ht : (if ResolveIndex parsed.2.2.1 st.texcoords.length ≥ 0 then
              st.texcoords[(ResolveIndex parsed.2.2.1 st.texcoords.length).toNat]?
            else some (⟨N.zero, N.zero⟩ : V2 F)) =
            some (vertexOf N st ⟨ResolveIndex parsed.2.1 st.positions.length,
              ResolveIndex parsed.2.2.1 st.texcoords.length,
              ResolveIndex parsed.2.2.2 st.normals.length⟩).texCoord := by
          unfold vertexOf
          dsimp only
          split
          · rename_i h0
            exact getElem?_of_resolved st.texcoords _ _ h0
          · rfl
        have hn : (if ResolveIndex parsed.2.2.2 st.normals.length ≥ 0 then
              st.normals[(ResolveIndex parsed.2.2.2 st.normals.length).toNat]?
            else some (V3.splat N.zero)) =
            some (vertexOf N st ⟨ResolveIndex parsed.2.1 st.positions.length,
              ResolveIndex parsed.2.2.1 st.texcoords.length,
              ResolveIndex parsed.2.2.2 st.normals.length⟩).normal := by
          unfold vertexOf
          dsimp only
          split
          · rename_i h0
            exact getElem?_of_resolved st.normals _ _ h0
          · rfl
        rw [ht, hn]
        rfl
    · cases h

theorem emitVertex_of_no_key (st : ParseState F) (tok : List Char) (parsed : Bool × Int × Int × Int)
    (hp : ParseFaceToken tok = .ok parsed) (h : cornerKey st tok = none) :
    emitVertex N st tok = .ok (-1, st) := by
  unfold cornerKey at h
  unfold emitVertex
  rw [hp] at h ⊢
  dsimp only at h
  split at h
  · cases h
  · rename_i hc
    simp only [bind, Except.bind]
    cases hflag : parsed.1 with
    | false => rfl
    | true =>
      have : ResolveIndex parsed.2.1 st.positions.length < 0 := by
        by_contra hneg
        exact hc ⟨hflag, not_lt.mp hneg⟩
      simp [this]
      rfl

theorem emitVertex_of_error (st : ParseState F) (tok : List Char) (e : Fault)
    (hp : ParseFaceToken tok = .error e) : emitVertex N st tok = .error e := by
  unfold emitVertex
  rw [hp]
  rfl

theorem toUInt32_natCast_le (n : Nat) : toUInt32 (n : Int) ≤ n := by
  unfold toUInt32
  omega

theorem toUInt32_natCast_of_lt {n : Nat} (h : n < 4294967296) : toUInt32 (n : Int) = n := by
  unfold toUInt32
  omega

theorem toInt32_natCast_of_lt {n : Nat} (h : n < 2147483648) : toInt32 (n : Int) = n := by
  unfold toInt32
  omega

theorem Extends.refl (st : ParseState F) : Extends st st :=
  ⟨⟨[], (List.append_nil _).symm⟩, fun _ _ h => h⟩

theorem Extends.trans {a b c : ParseState F} (h1 : Extends a b) (h2 : Extends b c) :
    Extends a c := by
  obtain ⟨⟨x, hx⟩, hc1⟩ := h1
  obtain ⟨⟨y, hy⟩, hc2⟩ := h2
  exact ⟨⟨x ++ y, by rw [hy, hx, List.append_assoc]⟩, fun k i h => hc2 k i (hc1 k i h)⟩

theorem lookup_cons_ne {α β : Type} [DecidableEq α] (k key : α) (v : β) (l : List (α × β))
    (h : k ≠ key) : List.lookup k ((key, v) :: l) = List.lookup k l := by
  have hb : (k == key) = false := by simpa using h
  simp [List.lookup, hb]

theorem lookup_cons_self {α β : Type} [DecidableEq α] (key : α) (v : β) (l : List (α × β)) :
    List.lookup key ((key, v) :: l) = some v := by
  simp [List.lookup]

theorem lookup_emplace_self (cache : List (VertexKey × Nat)) (key : VertexKey) (index : Nat)
    (h : cache.lookup key = none) : (emplace cache key index).lookup key = some index := by
  unfold emplace
  simp only [h, Option.isSome_none, Bool.false_eq_true, ↓reduceIte]
  exact lookup_cons_self _ _ _

theorem lookup_emplace_of_some (cache : List (VertexKey × Nat)) (key k : VertexKey)
    (index i : Nat) (h : cache.lookup k = some i) :
    (emplace cache key index).lookup k = some i := by
  unfold emplace
  split
  · exact h
  · rename_i hn
    have hne : k ≠ key := by
      rintro rfl
      rw [h] at hn
      exact hn rfl
    rw [lookup_cons_ne _ _ _ _ hne]
    exact h

theorem lookup_emplace_cases (cache : List (VertexKey × Nat)) (key k : VertexKey)
    (index i : Nat) (h : (emplace cache key index).lookup k = some i) :
    cache.lookup k = some i ∨ (k = key ∧ i = index) := by
  unfold emplace at h
  split at h
  · exact Or.inl h
  · by_cases hk : k = key
    · subst hk
      rw [lookup_cons_self] at h
      injection h with h
      exact Or.inr ⟨rfl, h.symm⟩
    · left
      rw [lookup_cons_ne _ _ _ _ hk] at h
      exact h

theorem cornerKey_congr (st st1 : ParseState F) (tok : List Char)
    (h1 : st1.positions = st.positions) (h2 : st1.texcoords = st.texcoords)
    (h3 : st1.normals = st.normals) : cornerKey st1 tok = cornerKey st tok := by
  unfold cornerKey
  rw [h1, h2, h3]

/-- The effect of `emitVertex` on a token that parses, in a state whose cache is in bounds and
whose vertex buffer has fewer than `2^31` entries. -/
theorem emitVertex_post (st : ParseState F) (tok : List Char) (parsed : Bool × Int × Int × Int)
    (hp : ParseFaceToken tok = .ok parsed) (hwf : CacheInBounds st)
    (hfit : st.vertices.length < 2147483648) :
    ∃ r st1, emitVertex N st tok = .ok (r, st1) ∧ SameFrame st st1 ∧ Extends st st1 ∧
      CacheInBounds st1 ∧ st1.vertices.length ≤ st.vertices.length + 1 ∧
      ((cornerIndex st1 tok = none ∧ r = -1 ∧ st1 = st ∧ cornerKey st tok = none) ∨
        ∃ key i, cornerKey st tok = some key ∧ cornerIndex st1 tok = some i ∧ r = (i : Int) ∧
          i < 2147483648 ∧
          ((st.vertexCache.lookup key = some i ∧ st1 = st) ∨
           (st.vertexCache.lookup key = none ∧ i = st.vertices.length ∧
             st1 = pushVertex N st key))) := by
  cases hk : cornerKey st tok with
  | none =>
    refine ⟨-1, st, emitVertex_of_no_key N st tok parsed hp hk, ?_, Extends.refl st, hwf,
      Nat.le_succ _, Or.inl ⟨?_, rfl, rfl, rfl⟩⟩
    · exact ⟨rfl, rfl, rfl, rfl, rfl, rfl, rfl, rfl⟩
    · unfold cornerIndex
      rw [hk]
  | some key =>
    have he := emitVertex_of_key N st tok key hk
    cases hl : st.vertexCache.lookup key with
    | some i =>
      rw [hl] at he
      have hi : i < st.vertices.length := hwf key i hl
      refine ⟨toInt32 i, st, he, ⟨rfl, rfl, rfl, rfl, rfl, rfl, rfl, rfl⟩, Extends.refl st, hwf,
        Nat.le_succ _, Or.inr ⟨key, i, rfl, ?_, toInt32_natCast_of_lt (by omega), by omega,
          Or.inl ⟨hl, rfl⟩⟩⟩
      unfold cornerIndex
      rw [hk]
      exact hl
    | none =>
      rw [hl] at he
      have hu : toUInt32 (st.vertices.length : Int) = st.vertices.length :=
        toUInt32_natCast_of_lt (by omega)
      have hkey1 : cornerKey (pushVertex N st key) tok = some key := by
        exact (cornerKey_congr st (pushVertex N st key) tok rfl rfl rfl).trans hk
      have hlook : (pushVertex N st key).vertexCache.lookup key = some st.vertices.length := by
        unfold pushVertex
        dsimp only
        rw [hu]
        exact lookup_emplace_self _ _ _ hl
      refine ⟨toInt32 (toUInt32 st.vertices.length), pushVertex N st key, he,
        ⟨rfl, rfl, rfl, rfl, rfl, rfl, rfl, rfl⟩, ⟨⟨_, rfl⟩, ?_⟩, ?_, ?_,
        Or.inr ⟨key, st.vertices.length, rfl, ?_, ?_, hfit, Or.inr ⟨hl, rfl, rfl⟩⟩⟩
      · intro k i h
        exact lookup_emplace_of_some _ _ _ _ _ h
      · intro k i h
        unfold pushVertex at h ⊢
        dsimp only at h ⊢
        rw [List.length_append, List.length_singleton]
        rcases lookup_emplace_cases _ _ _ _ _ h with h1 | ⟨_, h2⟩
        · exact Nat.lt_succ_of_lt (hwf k i h1)
        · rw [h2, hu]; exact Nat.lt_succ_self _
      · unfold pushVertex
        dsimp only
        rw [List.length_append, List.length_singleton]
      · unfold cornerIndex
        rw [hkey1]
        exact hlook
      · rw [hu]
        exact toInt32_natCast_of_lt hfit

theorem loopSpec_nil (a b : Option Nat) : loopSpec a b [] = [] := by
  cases a <;> cases b <;> rfl

theorem loopSpec_none_cons (a b : Option Nat) (ids : List (Option Nat)) :
    loopSpec a b (none :: ids) = loopSpec a b ids := by
  cases a <;> cases b <;> rfl

theorem cornerIndex_mono (st st1 : ParseState F) (tok : List Char) (i : Nat)
    (h1 : st1.positions = st.positions) (h2 : st1.texcoords = st.texcoords)
    (h3 : st1.normals = st.normals) (hext : Extends st st1)
    (h : cornerIndex st tok = some i) : cornerIndex st1 tok = some i := by
  unfold cornerIndex at h ⊢
  rw [cornerKey_congr st st1 tok h1 h2 h3]
  cases hk : cornerKey st tok with
  | none => rw [hk] at h; cases h
  | some key =>
    rw [hk] at h
    exact hext.2 key i h

theorem cornerIndex_none (st st1 : ParseState F) (tok : List Char)
    (h1 : st1.positions = st.positions) (h2 : st1.texcoords = st.texcoords)
    (h3 : st1.normals = st.normals) (h : cornerKey st tok = none) :
    cornerIndex st1 tok = none := by
  unfold cornerIndex
  rw [cornerKey_congr st st1 tok h1 h2 h3, h]

theorem toUInt32_add (a b c : Int) :
    toUInt32 ((toUInt32 (a + b) : Int) + c) = toUInt32 (a + b + c) := by
  unfold toUInt32
  omega

theorem linked_nonneg {r : Int} {n : Nat} (h : Linked r (some n)) :
    r = (n : Int) ∧ n < 2147483648 := by
  rcases h with ⟨h, _⟩ | ⟨m, h1, h2, h3⟩
  · cases h
  · injection h1 with h1
    subst h1
    exact ⟨h2, h3⟩

theorem linked_neg {r : Int} (h : Linked r none) : r < 0 := by
  rcases h with ⟨_, h⟩ | ⟨m, h1, _, _⟩
  · exact h
  · cases h1

theorem fanLoop_post (toks : List (List Char)) :
    ∀ (st : ParseState F) (first prev : Int) (ofirst oprev : Option Nat),
      Linked first ofirst → Linked prev oprev →
      (∀ tok ∈ toks, ∃ p, ParseFaceToken tok = .ok p) → CacheInBounds st →
      st.vertices.length + toks.length ≤ 2147483648 →
      st.currentChunk.indexCount < 4294967296 →
      ∃ st1, fanLoop N first prev toks st = .ok st1 ∧ FaceFrame st st1 ∧ Extends st st1 ∧
        CacheInBounds st1 ∧ st1.vertices.length ≤ st.vertices.length + toks.length ∧
        st1.indices = st.indices ++ loopSpec ofirst oprev (toks.map (cornerIndex st1)) ∧
        st1.currentChunk.indexCount = toUInt32 ((st.currentChunk.indexCount : Int) +
          ((loopSpec ofirst oprev (toks.map (cornerIndex st1))).length : Nat)) ∧
        ∀ tok ∈ toks, cornerKey st tok ≠ none → cornerIndex st1 tok ≠ none := by
  induction toks with
  | nil =>
    intro st first prev ofirst oprev _ _ _ hwf _ hic
    refine ⟨st, rfl, ⟨rfl, rfl, rfl, rfl, rfl, rfl, rfl, rfl⟩, Extends.refl st, hwf,
      Nat.le_refl _, ?_, ?_, ?_⟩
    · simp [loopSpec_nil]
    · simp only [List.map_nil, loopSpec_nil, List.length_nil, Nat.cast_zero, add_zero]
      exact (toUInt32_natCast_of_lt hic).symm
    · intro tok htok
      cases htok
  | cons tok rest ih =>
    intro st first prev ofirst oprev hf hpv hparse hwf hfit hic
    obtain ⟨parsed, hp⟩ := hparse tok (List.mem_cons_self _ _)
    have hparse1 : ∀ t ∈ rest, ∃ p, ParseFaceToken t = .ok p :=
      fun t ht => hparse t (List.mem_cons_of_mem _ ht)
    rw [List.length_cons] at hfit
    obtain ⟨r, st1, he, hframe, hext, hwf1, hlen1, hcase⟩ :=
      emitVertex_post N st tok parsed hp hwf (by omega)
    obtain ⟨hp1, hp2, hp3, hp4, hp5, hp6, hp7, hp8⟩ := hframe
    have hunf : fanLoop N first prev (tok :: rest) st =
        if first < 0 ∨ prev < 0 ∨ r < 0 then fanLoop N first prev rest st1
        else fanLoop N first r rest
          { st1 with
            indices := st1.indices ++ [toUInt32 first, toUInt32 prev, toUInt32 r],
            currentChunk := { st1.currentChunk with
              indexCount := toUInt32 (st1.currentChunk.indexCount + 3) } } := by
      rw [fanLoop, he]
      rfl
    have hhead : ∀ st2 : ParseState F, st2.positions = st1.positions →
        st2.texcoords = st1.texcoords → st2.normals = st1.normals → Extends st1 st2 →
        cornerKey st tok ≠ none → cornerIndex st2 tok ≠ none := by
      intro st2 g1 g2 g3 hx hne
      rcases hcase with ⟨_, _, _, hkn⟩ | ⟨key, i, _, hci, _, _, _⟩
      · exact absurd hkn hne
      · rw [cornerIndex_mono st1 st2 tok i g1 g2 g3 hx hci]
        exact Option.some_ne_none i
    have htail : ∀ st2 : ParseState F,
        (∀ t ∈ rest, cornerKey st1 t ≠ none → cornerIndex st2 t ≠ none) →
        st2.positions = st1.positions → st2.texcoords = st1.texcoords →
        st2.normals = st1.normals → Extends st1 st2 →
        ∀ t ∈ tok :: rest, cornerKey st t ≠ none → cornerIndex st2 t ≠ none := by
      intro st2 h8 g1 g2 g3 hx t ht hne
      rcases List.mem_cons.mp ht with rfl | ht
      · exact hhead st2 g1 g2 g3 hx hne
      · exact h8 t ht (by rw [cornerKey_congr st st1 t hp1 hp2 hp3]; exact hne)
    -- the recursive call when the triangle is skipped
    have hskip : (first < 0 ∨ prev < 0 ∨ r < 0) →
        (∀ st2, Extends st1 st2 → st2.positions = st1.positions →
          st2.texcoords = st1.texcoords → st2.normals = st1.normals →
          loopSpec ofirst oprev ((tok :: rest).map (cornerIndex st2)) =
            loopSpec ofirst oprev (rest.map (cornerIndex st2))) →
        ∃ st2, fanLoop N first prev (tok :: rest) st = .ok st2 ∧ FaceFrame st st2 ∧
          Extends st st2 ∧ CacheInBounds st2 ∧
          st2.vertices.length ≤ st.vertices.length + (rest.length + 1) ∧
          st2.indices = st.indices ++ loopSpec ofirst oprev ((tok :: rest).map (cornerIndex st2)) ∧
          st2.currentChunk.indexCount = toUInt32 ((st.currentChunk.indexCount : Int) +
            ((loopSpec ofirst oprev ((tok :: rest).map (cornerIndex st2))).length : Nat)) ∧
          ∀ t ∈ tok :: rest, cornerKey st t ≠ none → cornerIndex st2 t ≠ none := by
      intro hcond hsame
      obtain ⟨st2, h1, h2, h3, h4, h5, h6, h7, h8⟩ :=
        ih st1 first prev ofirst oprev hf hpv hparse1 hwf1 (by omega) (by rw [hp7]; exact hic)
      obtain ⟨f1, f2, f3, f4, f5, f6, f7, f8⟩ := h2
      refine ⟨st2, ?_, ⟨f1.trans hp1, f2.trans hp2, f3.trans hp3, f4.trans hp4, f5.trans hp6,
        f6.trans hp8, f7.trans (by rw [hp7]), f8.trans (by rw [hp7])⟩, hext.trans h3, h4,
        by omega, ?_, ?_, htail st2 h8 f1 f2 f3 h3⟩
      · rw [hunf, if_pos hcond]; exact h1
      · rw [hsame st2 h3 f1 f2 f3, h6, hp5]
      · rw [hsame st2 h3 f1 f2 f3, h7, hp7]
    rcases hcase with ⟨_, hr, hst, hkn⟩ | ⟨key, i, hk, hci, hr, hi, _⟩
    · refine hskip (Or.inr (Or.inr (by rw [hr]; decide))) ?_
      intro st2 _ g1 g2 g3
      rw [List.map_cons, cornerIndex_none st st2 tok (g1.trans hp1) (g2.trans hp2)
        (g3.trans hp3) hkn, loopSpec_none_cons]
    · cases ofirst with
      | none =>
        refine hskip (Or.inl (linked_neg hf)) ?_
        intro st2 _ _ _ _
        cases oprev <;> rfl
      | some f =>
        cases oprev with
        | none =>
          refine hskip (Or.inr (Or.inl (linked_neg hpv))) ?_
          intro st2 _ _ _ _
          rfl
        | some p =>
          obtain ⟨hfe, hfl⟩ := linked_nonneg hf
          obtain ⟨hpe, hpl⟩ := linked_nonneg hpv
          have hcond : ¬(first < 0 ∨ prev < 0 ∨ r < 0) := by
            rw [hfe, hpe, hr]
            omega
          obtain ⟨st2, h1, h2, h3, h4, h5, h6, h7, h8⟩ :=
            ih { st1 with
                indices := st1.indices ++ [toUInt32 first, toUInt32 prev, toUInt32 r],
                currentChunk := { st1.currentChunk with
                  indexCount := toUInt32 (st1.currentChunk.indexCount + 3) } }
              first r (some f) (some i) hf (Or.inr ⟨i, rfl, hr, hi⟩) hparse1 hwf1
              (by dsimp only; omega) (by dsimp only; unfold toUInt32; omega)
          obtain ⟨f1, f2, f3, f4, f5, f6, f7, f8⟩ := h2
          dsimp only at h5 h6 h7 f1 f2 f3 f4 f5 f6 f7 f8
          have hidx : cornerIndex st2 tok = some i :=
            cornerIndex_mono st1 st2 tok i f1 f2 f3 h3 hci
          refine ⟨st2, ?_, ⟨f1.trans hp1, f2.trans hp2, f3.trans hp3, f4.trans hp4,
            f5.trans hp6, f6.trans hp8, f7.trans (by rw [hp7]), f8.trans (by rw [hp7])⟩,
            hext.trans h3, h4, by rw [List.length_cons]; omega, ?_, ?_,
            htail st2 h8 f1 f2 f3 h3⟩
          · rw [hunf, if_neg hcond]; exact h1
          · rw [h6, List.map_cons, hidx]
            dsimp only [loopSpec, fanRest]
            rw [hp5, hfe, hpe, hr, toUInt32_natCast_of_lt (by omega),
              toUInt32_natCast_of_lt (by omega), toUInt32_natCast_of_lt (by omega)]
            simp
          · rw [h7, List.map_cons, hidx]
            dsimp only [loopSpec, fanRest]
            rw [hp7, toUInt32_add]
            congr 1
            simp only [List.length_cons]
            push_cast
            ring

theorem emitVertex_linked (st : ParseState F) (tok : List Char)
    (parsed : Bool × Int × Int × Int)
    (hp : ParseFaceToken tok = .ok parsed) (hwf : CacheInBounds st)
    (hfit : st.vertices.length < 2147483648) :
    ∃ r st1 o, emitVertex N st tok = .ok (r, st1) ∧ SameFrame st st1 ∧ Extends st st1 ∧
      CacheInBounds st1 ∧ st1.vertices.length ≤ st.vertices.length + 1 ∧ Linked r o ∧
      (∀ st2 : ParseState F, st2.positions = st1.positions → st2.texcoords = st1.texcoords →
        st2.normals = st1.normals → Extends st1 st2 → cornerIndex st2 tok = o) ∧
      (cornerKey st tok ≠ none → o ≠ none) := by
  obtain ⟨r, st1, he, hframe, hext, hwf1, hlen1, hcase⟩ :=
    emitVertex_post N st tok parsed hp hwf hfit
  rcases hcase with ⟨_, hr, hst, hkn⟩ | ⟨key, i, hk, hci, hr, hi, _⟩
  · refine ⟨r, st1, none, he, hframe, hext, hwf1, hlen1, Or.inl ⟨rfl, by rw [hr]; decide⟩, ?_,
      fun h => absurd hkn h⟩
    intro st2 g1 g2 g3 _
    subst hst
    exact cornerIndex_none st1 st2 tok g1 g2 g3 hkn
  · refine ⟨r, st1, some i, he, hframe, hext, hwf1, hlen1, Or.inr ⟨i, rfl, hr, hi⟩, ?_,
      fun _ => Option.some_ne_none i⟩
    intro st2 g1 g2 g3 hx
    exact cornerIndex_mono st1 st2 tok i g1 g2 g3 hx hci

theorem processFace_post (st : ParseState F) (toks : List (List Char))
    (hparse : ∀ tok ∈ toks, ∃ p, ParseFaceToken tok = .ok p) (hwf : CacheInBounds st)
    (hfit : st.vertices.length + toks.length ≤ 2147483648)
    (hic : st.currentChunk.indexCount < 4294967296) :
    ∃ st1, processFace N st toks = .ok st1 ∧ FaceFrame st st1 ∧ Extends st st1 ∧
      CacheInBounds st1 ∧ st1.vertices.length ≤ st.vertices.length + toks.length ∧
      st1.indices = st.indices ++ faceIndices (toks.map (cornerIndex st1)) ∧
      st1.currentChunk.indexCount = toUInt32 ((st.currentChunk.indexCount : Int) +
        ((faceIndices (toks.map (cornerIndex st1))).length : Nat)) ∧
      (3 ≤ toks.length → ∀ tok ∈ toks, cornerKey st tok ≠ none → cornerIndex st1 tok ≠ none) := by
  have hsmall : faceIndices (toks.map (cornerIndex st)) = [] →
      processFace N st toks = .ok st → toks.length < 3 →
      ∃ st1, processFace N st toks = .ok st1 ∧ FaceFrame st st1 ∧ Extends st st1 ∧
        CacheInBounds st1 ∧ st1.vertices.length ≤ st.vertices.length + toks.length ∧
        st1.indices = st.indices ++ faceIndices (toks.map (cornerIndex st1)) ∧
        st1.currentChunk.indexCount = toUInt32 ((st.currentChunk.indexCount : Int) +
          ((faceIndices (toks.map (cornerIndex st1))).length : Nat)) ∧
        (3 ≤ toks.length → ∀ tok ∈ toks, cornerKey st tok ≠ none →
          cornerIndex st1 tok ≠ none) := by
    intro h1 h2 h3
    refine ⟨st, h2, ⟨rfl, rfl, rfl, rfl, rfl, rfl, rfl, rfl⟩, Extends.refl st, hwf,
      Nat.le_add_right _ _, ?_, ?_, fun h => absurd h (by omega)⟩
    · rw [h1, List.append_nil]
    · rw [h1]
      simp only [List.length_nil, Nat.cast_zero, add_zero]
      exact (toUInt32_natCast_of_lt hic).symm
  match toks, hparse, hfit, hsmall with
  | [], _, _, hsmall => exact hsmall rfl rfl (by decide)
  | [_], _, _, hsmall => exact hsmall rfl rfl (by simp)
  | [_, _], _, _, hsmall => exact hsmall (loopSpec_nil _ _) rfl (by simp)
  | t0 :: t1 :: t2 :: rest, hparse, hfit, _ =>
    obtain ⟨p0, hp0⟩ := hparse t0 (by simp)
    obtain ⟨p1, hp1⟩ := hparse t1 (by simp)
    simp only [List.length_cons] at hfit
    obtain ⟨r0, s0, o0, he0, hfr0, hext0, hwf0, hlen0, hl0, hidx0, hs0⟩ :=
      emitVertex_linked N st t0 p0 hp0 hwf (by omega)
    obtain ⟨r1, s1, o1, he1, hfr1, hext1, hwf1, hlen1, hl1, hidx1, hs1⟩ :=
      emitVertex_linked N s0 t1 p1 hp1 hwf0 (by omega)
    obtain ⟨a1, a2, a3, a4, a5, a6, a7, a8⟩ := hfr0
    obtain ⟨b1, b2, b3, b4, b5, b6, b7, b8⟩ := hfr1
    obtain ⟨s2, h1, h2, h3, h4, h5, h6, h7, h8⟩ :=
      fanLoop_post N (t2 :: rest) s1 r0 r1 o0 o1 hl0 hl1
        (fun t ht => hparse t (List.mem_cons_of_mem _ (List.mem_cons_of_mem _ ht))) hwf1
        (by simp only [List.length_cons]; omega) (by rw [b7, a7]; exact hic)
    obtain ⟨f1, f2, f3, f4, f5, f6, f7, f8⟩ := h2
    have hi0 : cornerIndex s2 t0 = o0 :=
      hidx0 s2 (f1.trans b1) (f2.trans b2) (f3.trans b3) (hext1.trans h3)
    have hi1 : cornerIndex s2 t1 = o1 := hidx1 s2 f1 f2 f3 h3
    have hunf : processFace N st (t0 :: t1 :: t2 :: rest) = fanLoop N r0 r1 (t2 :: rest) s1 := by
      rw [processFace, he0]
      dsimp only [bind, Except.bind]
      rw [he1]
    refine ⟨s2, hunf.trans h1, ⟨(f1.trans b1).trans a1, (f2.trans b2).trans a2,
      (f3.trans b3).trans a3, (f4.trans b4).trans a4, (f5.trans b6).trans a6,
      (f6.trans b8).trans a8, f7.trans (by rw [b7, a7]), f8.trans (by rw [b7, a7])⟩,
      (hext0.trans hext1).trans h3, h4, by simp only [List.length_cons] at h5 ⊢; omega, ?_, ?_,
      ?_⟩
    · rw [h6, b5, a5]
      simp only [List.map_cons, faceIndices, hi0, hi1]
    · rw [h7, b7, a7]
      simp only [List.map_cons, faceIndices, hi0, hi1]
    · intro _ t ht hne
      rcases List.mem_cons.mp ht with rfl | ht
      · rw [hi0]
        exact hs0 hne
      · rcases List.mem_cons.mp ht with rfl | ht
        · rw [hi1]
          exact hs1 (by rw [cornerKey_congr st s0 t a1 a2 a3]; exact hne)
        · exact h8 t ht (by
            rw [cornerKey_congr s0 s1 t b1 b2 b3, cornerKey_congr st s0 t a1 a2 a3]
            exact hne)

theorem fanRest_eq_fanSpec (first : Nat) (l : List (Option Nat)) :
    ∀ prev, fanRest first prev l = fanSpec first (prev :: l.reduceOption) := by
  induction l with
  | nil => intro prev; rfl
  | cons o rest ih =>
    intro prev
    cases o with
    | none => rw [List.reduceOption_cons_of_none]; exact ih prev
    | some c =>
      rw [List.reduceOption_cons_of_some]
      show first :: prev :: c :: fanRest first c rest = _
      rw [ih c]
      rfl

theorem reduceOption_map_some {α : Type} (l : List α) : (l.map some).reduceOption = l := by
  induction l with
  | nil => rfl
  | cons x rest ih => rw [List.map_cons, List.reduceOption_cons_of_some, ih]

theorem faceIndices_eq_droppedFan (ids : List (Option Nat)) :
    faceIndices ids = droppedFan ids := by
  match ids with
  | [] => rfl
  | [o] => cases o <;> rfl
  | none :: _ :: _ => rfl
  | some _ :: none :: _ => rfl
  | some c0 :: some c1 :: rest => exact fanRest_eq_fanSpec c0 rest c1

theorem fanSpec_length (c0 : Nat) (l : List Nat) :
    ∀ c1, (fanSpec c0 (c1 :: l)).length = 3 * l.length := by
  induction l with
  | nil => intro c1; rfl
  | cons c2 rest ih =>
    intro c1
    show (c0 :: c1 :: c2 :: fanSpec c0 (c2 :: rest)).length = _
    simp only [List.length_cons, ih c2]
    omega

theorem map_eq_map_some {α : Type} (f : α → Option Nat) (l : List α)
    (h : ∀ x ∈ l, f x ≠ none) : ∃ ids : List Nat, l.map f = ids.map some := by
  induction l with
  | nil => exact ⟨[], rfl⟩
  | cons x rest ih =>
    obtain ⟨ids, hids⟩ := ih (fun y hy => h y (List.mem_cons_of_mem _ hy))
    cases hx : f x with
    | none => exact absurd hx (h x (List.mem_cons_self _ _))
    | some i => exact ⟨i :: ids, by rw [List.map_cons, hx, hids]; rfl⟩

theorem parses_of_cornerKey (st : ParseState F) (tok : List Char)
    (h : cornerKey st tok ≠ none) : ∃ p, ParseFaceToken tok = .ok p := by
  unfold cornerKey at h
  cases hp : ParseFaceToken tok with
  | ok p => exact ⟨p, rfl⟩
  | error e => rw [hp] at h; exact absurd rfl h

/-- C2: a face record with corners `c0, c1, ..., cn` (`n ≥ 2`, here `n = rest.length + 2`), all
with a valid position index, appends exactly the `n - 1` fan triangles `(c0, c1, c2)`,
`(c0, c2, c3)`, ..., `(c0, c(n-1), cn)` to the index buffer, in this order, each entry being the
vertex index of its corner, and the active chunk's `indexCount` grows by `3 (n - 1)`.  The state
is one a parse can be in (every cached index names a vertex, `indexCount` is a `uint32_t`) with
buffers that fit the index types. -/
theorem fan_triangulation (st : ParseState F) (t0 t1 t2 : List Char) (rest : List (List Char))
    (hvalid : ∀ tok ∈ t0 :: t1 :: t2 :: rest, cornerKey st tok ≠ none)
    (hwf : CacheInBounds st)
    (hfit : st.vertices.length + (rest.length + 3) ≤ 2147483648)
    (hic : st.currentChunk.indexCount + 3 * (rest.length + 1) < 4294967296) :
    ∃ st1 c0 cs, processFace N st (t0 :: t1 :: t2 :: rest) = .ok st1 ∧
      (t0 :: t1 :: t2 :: rest).map (cornerIndex st1) = (c0 :: cs).map some ∧
      st1.indices = st.indices ++ fanSpec c0 cs ∧
      (fanSpec c0 cs).length = 3 * (rest.length + 1) ∧
      st1.currentChunk.indexCount = st.currentChunk.indexCount + 3 * (rest.length + 1) := by
  obtain ⟨st1, h1, _, _, _, _, h6, h7, h8⟩ :=
    processFace_post N st (t0 :: t1 :: t2 :: rest)
      (fun tok ht => parses_of_cornerKey st tok (hvalid tok ht)) hwf
      (by simp only [List.length_cons]; omega) (by omega)
  obtain ⟨ids, hids⟩ := map_eq_map_some (cornerIndex st1) (t0 :: t1 :: t2 :: rest)
    (fun tok ht => h8 (by simp) tok ht (hvalid tok ht))
  have hlen : ids.length = rest.length + 3 := by
    have := congrArg List.length hids
    simpa using this.symm
  match ids, hids, hlen with
  | c0 :: c1 :: cs, hids, hlen =>
    have hface : faceIndices ((t0 :: t1 :: t2 :: rest).map (cornerIndex st1)) =
        fanSpec c0 (c1 :: cs) := by
      rw [hids, faceIndices_eq_droppedFan]
      show fanSpec c0 (c1 :: (cs.map some).reduceOption) = _
      rw [reduceOption_map_some]
    have hl : (fanSpec c0 (c1 :: cs)).length = 3 * (rest.length + 1) := by
      rw [fanSpec_length]
      simp only [List.length_cons] at hlen
      omega
    refine ⟨st1, c0, c1 :: cs, h1, hids, ?_, hl, ?_⟩
    · rw [h6, hface]
    · rw [h7, hface, hl]
      have : ((st.currentChunk.indexCount : Int) + ((3 * (rest.length + 1) : Nat) : Int)) =
          ((st.currentChunk.indexCount + 3 * (rest.length + 1) : Nat) : Int) := by
        push_cast; ring
      rw [this, toUInt32_natCast_of_lt hic]

/-- Witness of C2: the quad `f 1 2 3 4` over four positions and an empty cache appends the
indices `0, 1, 2, 0, 2, 3`. -/
theorem fan_triangulation_witness :
    Except.map (fun s => s.indices)
        (processFace binary32 quadState ["1".toList, "2".toList, "3".toList, "4".toList]) =
      .ok [0, 1, 2, 0, 2, 3] ∧
    ∃ st1 c0 cs,
      processFace binary32 quadState ["1".toList, "2".toList, "3".toList, "4".toList] = .ok st1 ∧
      ["1".toList, "2".toList, "3".toList, "4".toList].map (cornerIndex st1) = (c0 :: cs).map some ∧
      st1.indices = quadState.indices ++ fanSpec c0 cs ∧
      (fanSpec c0 cs).length = 3 * (["4".toList].length + 1) ∧
      st1.currentChunk.indexCount = quadState.currentChunk.indexCount + 3 * (["4".toList].length + 1) :=
  ⟨by decide,
   fan_triangulation binary32 quadState "1".toList "2".toList "3".toList ["4".toList]
    (by decide) (fun _ _ h => by cases h) (by decide) (by decide)⟩

/-! ### Deduplication across a parse -/

theorem emitVertex_cases (st st1 : ParseState F) (tok : List Char) (r : Int)
    (h : emitVertex N st tok = .ok (r, st1)) :
    (st1 = st) ∨
      ∃ key, cornerKey st tok = some key ∧ st.vertexCache.lookup key = none ∧
        st1 = pushVertex N st key := by
  cases hp : ParseFaceToken tok with
  | error e =>
    rw [emitVertex_of_error N st tok e hp] at h
    cases h
  | ok parsed =>
    cases hk : cornerKey st tok with
    | none =>
      rw [emitVertex_of_no_key N st tok parsed hp hk] at h
      injection h with h
      injection h with _ h
      exact Or.inl h.symm
    | some key =>
      rw [emitVertex_of_key N st tok key hk] at h
      cases hl : st.vertexCache.lookup key with
      | some i =>
        rw [hl] at h
        injection h with h
        injection h with _ h
        exact Or.inl h.symm
      | none =>
        rw [hl] at h
        injection h with h
        injection h with _ h
        exact Or.inr ⟨key, rfl, hl, h.symm⟩

theorem extends_pushVertex (st : ParseState F) (key : VertexKey) :
    Extends st (pushVertex N st key) :=
  ⟨⟨_, rfl⟩, fun _ _ h => lookup_emplace_of_some _ _ _ _ _ h⟩

theorem emitVertex_extends (st st1 : ParseState F) (tok : List Char) (r : Int)
    (h : emitVertex N st tok = .ok (r, st1)) : Extends st st1 := by
  rcases emitVertex_cases N st st1 tok r h with h1 | ⟨key, _, _, h1⟩
  · rw [h1]; exact Extends.refl st
  · rw [h1]; exact extends_pushVertex N st key

theorem fanLoop_extends (toks : List (List Char)) :
    ∀ (st st1 : ParseState F) (first prev : Int),
      fanLoop N first prev toks st = .ok st1 → Extends st st1 := by
  induction toks with
  | nil =>
    intro st st1 first prev h
    rw [fanLoop] at h
    injection h with h
    rw [h]
    exact Extends.refl st1
  | cons tok rest ih =>
    intro st st1 first prev h
    rw [fanLoop] at h
    cases he : emitVertex N st tok with
    | error e => rw [he] at h; cases h
    | ok res =>
      obtain ⟨r, s⟩ := res
      rw [he] at h
      dsimp only [bind, Except.bind] at h
      have hx := emitVertex_extends N st s tok r he
      split at h
      · exact hx.trans (ih _ _ _ _ h)
      · have h2 := ih _ _ _ _ h
        exact hx.trans ⟨h2.1, h2.2⟩

theorem processFace_extends (st st1 : ParseState F) (toks : List (List Char))
    (h : processFace N st toks = .ok st1) : Extends st st1 := by
  match toks, h with
  | [], h => injection h with h; rw [h]; exact Extends.refl st1
  | [_], h => injection h with h; rw [h]; exact Extends.refl st1
  | [_, _], h => injection h with h; rw [h]; exact Extends.refl st1
  | t0 :: t1 :: t2 :: rest, h =>
    rw [processFace] at h
    cases he0 : emitVertex N st t0 with
    | error e => rw [he0] at h; cases h
    | ok res0 =>
      obtain ⟨r0, s0⟩ := res0
      rw [he0] at h
      dsimp only [bind, Except.bind] at h
      cases he1 : emitVertex N s0 t1 with
      | error e => rw [he1] at h; cases h
      | ok res1 =>
        obtain ⟨r1, s1⟩ := res1
        rw [he1] at h
        dsimp only at h
        exact ((emitVertex_extends N st s0 t0 r0 he0).trans
          (emitVertex_extends N s0 s1 t1 r1 he1)).trans (fanLoop_extends N _ _ _ _ _ h)

theorem processLine_extends (fs : FileSystem) (objPath : List Char) (st st1 : ParseState F)
    (rawLine : List Char) (h : processLine N fs objPath st rawLine = .ok st1) :
    Extends st st1 := by
  unfold processLine at h
  dsimp only at h
  split at h
  · injection h with h; rw [← h]; exact Extends.refl st
  · split at h
    · injection h with h; rw [← h]; exact Extends.refl st
    · split at h
      · injection h with h; rw [← h]; exact Extends.refl st
      · split at h
        · injection h with h; rw [← h]; exact Extends.refl st
        · split at h
          · injection h with h; rw [← h]; exact Extends.refl st
          · split at h
            · injection h with h
              rw [← h]
              unfold useMaterial
              dsimp only
              split
              · split
                · exact Extends.refl st
                · exact Extends.refl st
              · exact Extends.refl st
            · split at h
              · exact processFace_extends N st st1 _ h
              · injection h with h; rw [← h]; exact Extends.refl st

theorem evolves_extends (fs : FileSystem) (objPath : List Char) (st st1 : ParseState F)
    (h : Evolves N fs objPath st st1) : Extends st st1 := by
  induction h with
  | refl => exact Extends.refl _
  | emit tok r _ he ih => exact ih.trans (emitVertex_extends N _ _ tok r he)
  | push indices chunk _ ih => exact ih
  | line rawLine _ hl ih => exact ih.trans (processLine_extends N fs objPath _ _ rawLine hl)

/-- C3: within one parse, two face corners with equal resolved (position, texcoord, normal)
triples receive the same vertex index, and the later occurrence leaves the state, hence the
vertex buffer, as it is: once `emitVertex` has returned `r1` for a key, it returns `r1` for that
key in every later state of the parse. -/
theorem deduplication (fs : FileSystem) (objPath : List Char) (st st1 st2 : ParseState F)
    (tok1 tok2 : List Char) (r1 : Int) (key : VertexKey)
    (hk1 : cornerKey st tok1 = some key)
    (h1 : emitVertex N st tok1 = .ok (r1, st1))
    (hev : Evolves N fs objPath st1 st2)
    (hk2 : cornerKey st2 tok2 = some key) :
    emitVertex N st2 tok2 = .ok (r1, st2) := by
  have hx := evolves_extends N fs objPath st1 st2 hev
  rw [emitVertex_of_key N st tok1 key hk1] at h1
  rw [emitVertex_of_key N st2 tok2 key hk2]
  cases hl : st.vertexCache.lookup key with
  | some i =>
    rw [hl] at h1
    obtain ⟨hr, hs⟩ := Prod.mk.inj (Except.ok.inj h1)
    subst hs
    rw [hx.2 key i hl, ← hr]
  | none =>
    rw [hl] at h1
    obtain ⟨hr, hs⟩ := Prod.mk.inj (Except.ok.inj h1)
    subst hs
    have h2 : (pushVertex N st key).vertexCache.lookup key =
        some (toUInt32 st.vertices.length) := lookup_emplace_self _ _ _ hl
    rw [hx.2 key _ h2, ← hr]

set_option maxRecDepth 100000 in

/-- Witness of C3: over four positions the corner `1` gets the index `0`; after the face
`f 1 2 3` the corner `-4`, which resolves to the same triple, gets `0` again and the state is
left as it is. -/
theorem deduplication_witness :
    cornerKey quadState "1".toList = some ⟨0, -1, -1⟩ ∧
    cornerKey quadAfterFace "-4".toList = some ⟨0, -1, -1⟩ ∧
    emitVertex binary32 quadAfterFace "-4".toList = .ok (0, quadAfterFace) :=
  ⟨by decide, by decide,
   deduplication binary32 (oneFile [] []) [] quadState quadAfterCorner quadAfterFace
    "1".toList "-4".toList 0 ⟨0, -1, -1⟩ (by decide) (by decide)
    (Evolves.line "f 1 2 3".toList (Evolves.refl _) (by decide)) (by decide)⟩

theorem parses_of_cornerKeyOrError (tok : List Char)
    (h : (ParseFaceToken tok).toOption ≠ none) : ∃ p, ParseFaceToken tok = .ok p := by
  cases hp : ParseFaceToken tok with
  | ok p => exact ⟨p, rfl⟩
  | error e => rw [hp] at h; exact absurd rfl h

/-- C5 (as amended): for a face record with at least three corner tokens that all parse, a corner
with an invalid position index is dropped from the polygon: nothing is appended unless the first
two corners are valid, and then the triangles appended are the fan over the first two corners and
the valid ones among the others, in order.  A corner has no vertex index exactly when its position
index is invalid. -/
theorem fan_drops_invalid_corners (st : ParseState F) (toks : List (List Char))
    (h3 : 3 ≤ toks.length)
    (hparse : ∀ tok ∈ toks, ∃ p, ParseFaceToken tok = .ok p) (hwf : CacheInBounds st)
    (hfit : st.vertices.length + toks.length ≤ 2147483648)
    (hic : st.currentChunk.indexCount < 4294967296) :
    ∃ st1, processFace N st toks = .ok st1 ∧
      st1.indices = st.indices ++ droppedFan (toks.map (cornerIndex st1)) ∧
      ∀ tok ∈ toks, cornerIndex st1 tok = none ↔ cornerKey st tok = none := by
  obtain ⟨st1, h1, hfr, _, _, _, h6, _, h8⟩ := processFace_post N st toks hparse hwf hfit hic
  obtain ⟨f1, f2, f3, _⟩ := hfr
  refine ⟨st1, h1, ?_, ?_⟩
  · rw [h6, faceIndices_eq_droppedFan]
  · intro tok ht
    constructor
    · intro hnone
      by_contra hne
      exact h8 h3 tok ht hne hnone
    · intro hnone
      exact cornerIndex_none st st1 tok f1 f2 f3 hnone

/-- Witness of C5: in `f 1 2 9 3` over four positions the corner `9` is dropped and the triangle
of the corners `1`, `2`, `3` is appended. -/
theorem fan_drops_invalid_corners_witness :
    Except.map (fun s => s.indices)
        (processFace binary32 quadState ["1".toList, "2".toList, "9".toList, "3".toList]) =
      .ok [0, 1, 2] ∧
    ∃ st1, processFace binary32 quadState
        ["1".toList, "2".toList, "9".toList, "3".toList] = .ok st1 ∧
      st1.indices = quadState.indices ++ droppedFan
        (["1".toList, "2".toList, "9".toList, "3".toList].map (cornerIndex st1)) ∧
      ∀ tok ∈ ["1".toList, "2".toList, "9".toList, "3".toList],
        cornerIndex st1 tok = none ↔ cornerKey quadState tok = none :=
  ⟨by decide,
   fan_drops_invalid_corners binary32 quadState
    ["1".toList, "2".toList, "9".toList, "3".toList] (by decide)
    (fun tok ht => parses_of_cornerKeyOrError tok (by revert tok; decide))
    (fun _ _ h => by cases h) (by decide) (by decide)⟩

/-- C5 as stated fails: in `f 1 2 9 3` over four positions the corners have the vertex indices
`0`, `1`, none, `2`; no fan triangle has three valid corners, yet the triangle `(c0, c1, c3)`,
which is not a fan triangle, is appended. -/
theorem fan_emits_triangle_outside_fan :
    Except.map
        (fun s => (s.indices,
          ["1".toList, "2".toList, "9".toList, "3".toList].map (cornerIndex s)))
        (processFace binary32 quadState ["1".toList, "2".toList, "9".toList, "3".toList]) =
      .ok ([0, 1, 2], [some 0, some 1, none, some 2]) ∧
    quadState.indices = [] ∧
    validFanTriangles (some 0) [some 1, none, some 2] = [] := by
  decide

/-! ### Chunk bookkeeping -/

theorem emitVertex_sameFrame (st st1 : ParseState F) (tok : List Char) (r : Int)
    (h : emitVertex N st tok = .ok (r, st1)) : SameFrame st st1 := by
  rcases emitVertex_cases N st st1 tok r h with h1 | ⟨key, _, _, h1⟩
  · rw [h1]; exact ⟨rfl, rfl, rfl, rfl, rfl, rfl, rfl, rfl⟩
  · rw [h1]; exact ⟨rfl, rfl, rfl, rfl, rfl, rfl, rfl, rfl⟩

theorem fanLoop_counts (toks : List (List Char)) :
    ∀ (st st1 : ParseState F) (first prev : Int),
      fanLoop N first prev toks st = .ok st1 →
      FaceFrame st st1 ∧ ∃ k : Nat, st1.indices.length = st.indices.length + k ∧
        (st.currentChunk.indexCount < 4294967296 →
          st1.currentChunk.indexCount =
            toUInt32 ((st.currentChunk.indexCount : Int) + (k : Int))) := by
  induction toks with
  | nil =>
    intro st st1 first prev h
    rw [fanLoop] at h
    have h := Except.ok.inj h
    subst h
    exact ⟨⟨rfl, rfl, rfl, rfl, rfl, rfl, rfl, rfl⟩, 0, rfl,
      fun hic => by simpa using (toUInt32_natCast_of_lt hic).symm⟩
  | cons tok rest ih =>
    intro st st1 first prev h
    rw [fanLoop] at h
    cases he : emitVertex N st tok with
    | error e => rw [he] at h; cases h
    | ok res =>
      obtain ⟨r, s⟩ := res
      rw [he] at h
      dsimp only [bind, Except.bind] at h
      obtain ⟨a1, a2, a3, a4, a5, a6, a7, a8⟩ := emitVertex_sameFrame N st s tok r he
      split at h
      · obtain ⟨⟨f1, f2, f3, f4, f5, f6, f7, f8⟩, k, hk1, hk2⟩ := ih _ _ _ _ h
        exact ⟨⟨f1.trans a1, f2.trans a2, f3.trans a3, f4.trans a4, f5.trans a6, f6.trans a8,
          f7.trans (by rw [a7]), f8.trans (by rw [a7])⟩, k, by rw [hk1, a5],
          fun hic => by rw [hk2 (by rw [a7]; exact hic), a7]⟩
      · obtain ⟨⟨f1, f2, f3, f4, f5, f6, f7, f8⟩, k, hk1, hk2⟩ := ih _ _ _ _ h
        dsimp only at f1 f2 f3 f4 f5 f6 f7 f8 hk1 hk2
        refine ⟨⟨f1.trans a1, f2.trans a2, f3.trans a3, f4.trans a4, f5.trans a6,
          f6.trans a8, f7.trans (by rw [a7]), f8.trans (by rw [a7])⟩, k + 3, ?_, ?_⟩
        · rw [hk1, List.length_append, a5]
          simp only [List.length_cons, List.length_nil]
          omega
        · intro _
          rw [hk2 (by unfold toUInt32; omega), a7, toUInt32_add]
          congr 1
          push_cast
          ring

theorem processFace_counts (st st1 : ParseState F) (toks : List (List Char))
    (h : processFace N st toks = .ok st1) :
    FaceFrame st st1 ∧ ∃ k : Nat, st1.indices.length = st.indices.length + k ∧
      (st.currentChunk.indexCount < 4294967296 →
        st1.currentChunk.indexCount =
          toUInt32 ((st.currentChunk.indexCount : Int) + (k : Int))) := by
  have hsame : processFace N st toks = .ok st →
      FaceFrame st st1 ∧ ∃ k : Nat, st1.indices.length = st.indices.length + k ∧
        (st.currentChunk.indexCount < 4294967296 →
          st1.currentChunk.indexCount =
            toUInt32 ((st.currentChunk.indexCount : Int) + (k : Int))) := by
    intro h0
    rw [h0] at h
    have h := Except.ok.inj h
    subst h
    exact ⟨⟨rfl, rfl, rfl, rfl, rfl, rfl, rfl, rfl⟩, 0, rfl,
      fun hic => by simpa using (toUInt32_natCast_of_lt hic).symm⟩
  match toks, h, hsame with
  | [], _, hsame => exact hsame rfl
  | [_], _, hsame => exact hsame rfl
  | [_, _], _, hsame => exact hsame rfl
  | t0 :: t1 :: t2 :: rest, h, _ =>
    rw [processFace] at h
    cases he0 : emitVertex N st t0 with
    | error e => rw [he0] at h; cases h
    | ok res0 =>
      obtain ⟨r0, s0⟩ := res0
      rw [he0] at h
      dsimp only [bind, Except.bind] at h
      cases he1 : emitVertex N s0 t1 with
      | error e => rw [he1] at h; cases h
      | ok res1 =>
        obtain ⟨r1, s1⟩ := res1
        rw [he1] at h
        dsimp only at h
        obtain ⟨a1, a2, a3, a4, a5, a6, a7, a8⟩ := emitVertex_sameFrame N st s0 t0 r0 he0
        obtain ⟨b1, b2, b3, b4, b5, b6, b7, b8⟩ := emitVertex_sameFrame N s0 s1 t1 r1 he1
        obtain ⟨⟨f1, f2, f3, f4, f5, f6, f7, f8⟩, k, hk1, hk2⟩ :=
          fanLoop_counts N _ _ _ _ _ h
        exact ⟨⟨(f1.trans b1).trans a1, (f2.trans b2).trans a2, (f3.trans b3).trans a3,
          (f4.trans b4).trans a4, (f5.trans b6).trans a6, (f6.trans b8).trans a8,
          f7.trans (by rw [b7, a7]), f8.trans (by rw [b7, a7])⟩, k,
          by rw [hk1, b5, a5], fun hic => by rw [hk2 (by rw [b7, a7]; exact hic), b7, a7]⟩

theorem partitionFrom_append (cs : List (MeshChunk F)) (c : MeshChunk F) :
    ∀ start total, PartitionFrom start cs total → c.startIndex = total → 0 < c.indexCount →
      PartitionFrom start (cs ++ [c]) (total + c.indexCount) := by
  induction cs with
  | nil =>
    intro start total h hs hc
    have h : start = total := h
    subst h
    exact ⟨hs, hc, rfl⟩
  | cons d ds ih =>
    intro start total h hs hc
    obtain ⟨h1, h2, h3⟩ := h
    exact ⟨h1, h2, ih _ _ h3 hs hc⟩

theorem chunkInv_useMaterial (st : ParseState F) (name : List Char) (h : ChunkInv st)
    (hfit : st.indices.length < 4294967296) :
    ChunkInv (useMaterial N st name) ∧ (useMaterial N st name).indices = st.indices := by
  obtain ⟨h1, h2⟩ := h
  have hu : toUInt32 (st.indices.length : Int) = st.indices.length :=
    toUInt32_natCast_of_lt hfit
  unfold useMaterial
  dsimp only
  split
  · split
    · rename_i hpos
      refine ⟨⟨?_, ?_⟩, rfl⟩
      · dsimp only
        rw [hu, ← h2]
        exact partitionFrom_append _ _ _ _ h1 rfl hpos
      · dsimp only
        rw [hu, Nat.add_zero]
    · rename_i hzero
      have hz : st.currentChunk.indexCount = 0 := by omega
      refine ⟨⟨?_, ?_⟩, rfl⟩
      · dsimp only
        rw [hu, ← h2, hz, Nat.add_zero]
        exact h1
      · dsimp only
        rw [hu, hz, Nat.add_zero]
  · exact ⟨⟨h1, h2⟩, rfl⟩

theorem useMaterial_indices (st : ParseState F) (name : List Char) :
    (useMaterial N st name).indices = st.indices := by
  unfold useMaterial
  dsimp only
  split
  · split <;> rfl
  · rfl

theorem chunkInv_processLine (fs : FileSystem) (objPath : List Char) (st st1 : ParseState F)
    (rawLine : List Char) (h : processLine N fs objPath st rawLine = .ok st1)
    (hinv : ChunkInv st) (hfit : st1.indices.length < 4294967296) :
    ChunkInv st1 ∧ st.indices.length ≤ st1.indices.length := by
  have hkeep : ∀ s : ParseState F, Except.ok s = Except.ok (ε := Fault) st1 →
      s.chunks = st.chunks → s.currentChunk = st.currentChunk →
      s.indices = st.indices →
      ChunkInv st1 ∧ st.indices.length ≤ st1.indices.length := by
    intro s e e1 e2 e3
    have e := Except.ok.inj e
    subst e
    unfold ChunkInv
    rw [e1, e2, e3]
    exact ⟨hinv, Nat.le_refl _⟩
  unfold processLine at h
  dsimp only at h
  split at h
  · exact hkeep _ h rfl rfl rfl
  · split at h
    · exact hkeep _ h rfl rfl rfl
    · split at h
      · exact hkeep _ h rfl rfl rfl
      · split at h
        · exact hkeep _ h rfl rfl rfl
        · split at h
          · exact hkeep _ h rfl rfl rfl
          · split at h
            · have e := Except.ok.inj h
              subst e
              rw [useMaterial_indices] at hfit ⊢
              exact ⟨(chunkInv_useMaterial N st _ hinv hfit).1, Nat.le_refl _⟩
            · split at h
              · obtain ⟨⟨f1, f2, f3, f4, f5, f6, f7, f8⟩, k, hk1, hk2⟩ :=
                  processFace_counts N st st1 _ h
                obtain ⟨i1, i2⟩ := hinv
                have hk3 := hk2 (by omega)
                have hu : toUInt32 ((st.currentChunk.indexCount : Int) + (k : Int)) =
                    st.currentChunk.indexCount + k := by
                  unfold toUInt32
                  omega
                refine ⟨⟨?_, ?_⟩, by omega⟩
                · rw [f5, f7]; exact i1
                · rw [f7, hk3, hu, hk1]; omega
              · exact hkeep _ h rfl rfl rfl

theorem processLine_indices_le (fs : FileSystem) (objPath : List Char) (st st1 : ParseState F)
    (rawLine : List Char) (h : processLine N fs objPath st rawLine = .ok st1) :
    st.indices.length ≤ st1.indices.length := by
  have hkeep : ∀ s : ParseState F, Except.ok s = Except.ok (ε := Fault) st1 →
      s.indices = st.indices → st.indices.length ≤ st1.indices.length := by
    intro s e e3
    have e := Except.ok.inj e
    subst e
    rw [e3]
  unfold processLine at h
  dsimp only at h
  split at h
  · exact hkeep _ h rfl
  · split at h
    · exact hkeep _ h rfl
    · split at h
      · exact hkeep _ h rfl
      · split at h
        · exact hkeep _ h rfl
        · split at h
          · exact hkeep _ h rfl
          · split at h
            · exact hkeep _ h (useMaterial_indices N st _)
            · split at h
              · obtain ⟨_, k, hk1, _⟩ := processFace_counts N st st1 _ h
                omega
              · exact hkeep _ h rfl

theorem processLines_indices_le (fs : FileSystem) (objPath : List Char)
    (lines : List (List Char)) :
    ∀ st st1 : ParseState F, processLines N fs objPath lines st = .ok st1 →
      st.indices.length ≤ st1.indices.length := by
  induction lines with
  | nil =>
    intro st st1 h
    rw [processLines] at h
    rw [Except.ok.inj h]
  | cons line rest ih =>
    intro st st1 h
    rw [processLines] at h
    cases hl : processLine N fs objPath st line with
    | error e => rw [hl] at h; cases h
    | ok s =>
      rw [hl] at h
      exact Nat.le_trans (processLine_indices_le N fs objPath st s line hl) (ih s st1 h)

theorem chunkInv_processLines (fs : FileSystem) (objPath : List Char)
    (lines : List (List Char)) :
    ∀ st st1 : ParseState F, processLines N fs objPath lines st = .ok st1 → ChunkInv st →
      st1.indices.length < 4294967296 → ChunkInv st1 := by
  induction lines with
  | nil =>
    intro st st1 h hinv _
    rw [processLines] at h
    rw [← Except.ok.inj h]
    exact hinv
  | cons line rest ih =>
    intro st st1 h hinv hfit
    rw [processLines] at h
    cases hl : processLine N fs objPath st line with
    | error e => rw [hl] at h; cases h
    | ok s =>
      rw [hl] at h
      have hle := processLines_indices_le N fs objPath rest s st1 h
      exact ih s st1 h
        (chunkInv_processLine N fs objPath st s line hl hinv (by omega)).1 hfit

theorem chunkInv_init : ChunkInv (ParseState.init N) := ⟨rfl, rfl⟩

theorem partitionFrom_closeChunks (st : ParseState F) (h : ChunkInv st) :
    PartitionFrom 0 (closeChunks st) st.indices.length := by
  obtain ⟨h1, h2⟩ := h
  unfold closeChunks
  split
  · rename_i hpos
    rw [← h2]
    exact partitionFrom_append _ _ _ _ h1 rfl hpos
  · rename_i hzero
    have hz : st.currentChunk.indexCount = 0 := by omega
    rw [← h2, hz, Nat.add_zero]
    exact h1

theorem LoadObjMesh_ok (fs : FileSystem) (objPath : List Char) (mesh : ObjMesh F)
    (h : LoadObjMesh N fs objPath = .ok (some mesh)) :
    ∃ text st, fs.read objPath = some text ∧
      processLines N fs objPath (getlines text) (ParseState.init N) = .ok st ∧
      normalPass N st.vertices st.indices = .ok mesh.vertices ∧
      mesh.indices = st.indices ∧ mesh.chunks = closeChunks st := by
  unfold LoadObjMesh at h
  cases hr : fs.read objPath with
  | none =>
    rw [hr] at h
    cases Except.ok.inj h
  | some text =>
    rw [hr] at h
    dsimp only at h
    cases hp : processLines N fs objPath (getlines text) (ParseState.init N) with
    | error e => rw [hp] at h; cases h
    | ok st =>
      rw [hp] at h
      dsimp only [bind, Except.bind] at h
      cases hn : normalPass N st.vertices st.indices with
      | error e => rw [hn] at h; cases h
      | ok vs =>
        rw [hn] at h
        dsimp only at h
        have hm := Option.some.inj (Except.ok.inj h)
        subst hm
        exact ⟨text, st, rfl, hp, hn, rfl, rfl⟩

theorem partitionFrom_sum (cs : List (MeshChunk F)) :
    ∀ start total, PartitionFrom start cs total →
      start + (cs.map (fun c => c.indexCount)).sum = total := by
  induction cs with
  | nil => intro start total h; exact h
  | cons c rest ih =>
    intro start total h
    obtain ⟨_, _, h3⟩ := h
    have := ih _ _ h3
    simp only [List.map_cons, List.sum_cons]
    omega

theorem partitionFrom_pos (cs : List (MeshChunk F)) :
    ∀ start total, PartitionFrom start cs total → ∀ c ∈ cs, 0 < c.indexCount := by
  induction cs with
  | nil => intro _ _ _ c hc; cases hc
  | cons d rest ih =>
    intro start total h c hc
    obtain ⟨_, h2, h3⟩ := h
    rcases List.mem_cons.mp hc with rfl | hc
    · exact h2
    · exact ih _ _ h3 c hc

theorem partitionFrom_next (cs : List (MeshChunk F)) :
    ∀ start total, PartitionFrom start cs total → ∀ (i : Nat) (hi : i + 1 < cs.length),
      (cs.get ⟨i + 1, hi⟩).startIndex =
        (cs.get ⟨i, Nat.lt_of_succ_lt hi⟩).startIndex +
          (cs.get ⟨i, Nat.lt_of_succ_lt hi⟩).indexCount := by
  induction cs with
  | nil => intro _ _ _ i hi; cases hi
  | cons c rest ih =>
    intro start total h i hi
    obtain ⟨h1, _, h3⟩ := h
    cases i with
    | zero =>
      match rest, h3, hi with
      | d :: _, h3, _ =>
        obtain ⟨g1, _, _⟩ := h3
        show d.startIndex = c.startIndex + c.indexCount
        rw [g1, h1]
    | succ j =>
      exact ih _ _ h3 j (by simpa using hi)

/-- C4: the chunk list of the mesh `LoadObjMesh` returns partitions the index buffer: the first
chunk starts at `0`, every later chunk starts where the previous one ends, the `indexCount`s sum
to the length of the index buffer, and no chunk is empty.  The index buffer fits the `uint32_t`
fields of a chunk. -/
theorem chunks_partition (fs : FileSystem) (objPath : List Char) (mesh : ObjMesh F)
    (h : LoadObjMesh N fs objPath = .ok (some mesh))
    (hfit : mesh.indices.length < 4294967296) :
    (∀ c, mesh.chunks.head? = some c → c.startIndex = 0) ∧
    (∀ (i : Nat) (hi : i + 1 < mesh.chunks.length),
      (mesh.chunks.get ⟨i + 1, hi⟩).startIndex =
        (mesh.chunks.get ⟨i, Nat.lt_of_succ_lt hi⟩).startIndex +
          (mesh.chunks.get ⟨i, Nat.lt_of_succ_lt hi⟩).indexCount) ∧
    (mesh.chunks.map (fun c => c.indexCount)).sum = mesh.indices.length ∧
    (∀ c ∈ mesh.chunks, 0 < c.indexCount) := by
  obtain ⟨text, st, _, hp, _, hi, hc⟩ := LoadObjMesh_ok N fs objPath mesh h
  have hinv := chunkInv_processLines N fs objPath _ _ _ hp (chunkInv_init N) (by rw [← hi]; exact hfit)
  have hpart := partitionFrom_closeChunks st hinv
  rw [← hc, ← hi] at hpart
  refine ⟨?_, partitionFrom_next _ _ _ hpart, ?_, partitionFrom_pos _ _ _ hpart⟩
  · intro c hcd
    match hm : mesh.chunks, hcd with
    | d :: _, hcd =>
      rw [hm] at hpart
      have := Option.some.inj hcd
      subst this
      exact hpart.1
  · have := partitionFrom_sum _ _ _ hpart
    omega

set_option maxRecDepth 100000 in

/-- Witness of C4: `usemtl A`, a triangle, `usemtl B`, a quad give exactly the two chunks
`[0, 3)` and `[3, 9)` over an index buffer of nine entries. -/
theorem chunks_partition_witness :
    twoMaterialMesh.chunks.map (fun c => (c.startIndex, c.indexCount)) = [(0, 3), (3, 6)] ∧
    twoMaterialMesh.indices.length = 9 ∧
    ((∀ c, twoMaterialMesh.chunks.head? = some c → c.startIndex = 0) ∧
    (∀ (i : Nat) (hi : i + 1 < twoMaterialMesh.chunks.length),
      (twoMaterialMesh.chunks.get ⟨i + 1, hi⟩).startIndex =
        (twoMaterialMesh.chunks.get ⟨i, Nat.lt_of_succ_lt hi⟩).startIndex +
          (twoMaterialMesh.chunks.get ⟨i, Nat.lt_of_succ_lt hi⟩).indexCount) ∧
    (twoMaterialMesh.chunks.map (fun c => c.indexCount)).sum = twoMaterialMesh.indices.length ∧
    (∀ c ∈ twoMaterialMesh.chunks, 0 < c.indexCount)) :=
  ⟨by decide, by decide,
   chunks_partition binary32 (oneFile examplePath twoMaterialSource) examplePath twoMaterialMesh
    (by decide) (by decide)⟩

/-- C6 (the code at the failing inputs): a face record with a corner that is not a number makes
`std::stoi` throw, and the exception leaves `LoadObjMesh`: the whole parse is aborted, the
well-formed face after the record included.  The same holds for `f /1 2 3` and `f 1 2 x/1`. -/
theorem malformed_corner_aborts_parse :
    LoadObjMesh binary32 (oneFile examplePath malformedFaceSource) examplePath =
      .error Fault.invalid_argument ∧
    LoadObjMesh binary32 (oneFile examplePath "v 0 0 0\nv 1 0 0\nv 0 1 0\nf /1 2 3\n".toList)
      examplePath = .error Fault.invalid_argument ∧
    LoadObjMesh binary32 (oneFile examplePath "v 0 0 0\nv 1 0 0\nv 0 1 0\nf 1 2 x/1\n".toList)
      examplePath = .error Fault.invalid_argument ∧
    ParseFaceToken "a".toList = .error Fault.invalid_argument := by
  decide

/-! ### Load failure -/

theorem mem_of_mem_Trim (l : List Char) (c : Char) (h : c ∈ Trim l) : c ∈ l := by
  unfold Trim at h
  rw [List.mem_reverse] at h
  have h1 := (List.dropWhile_sublist _).subset h
  rw [List.mem_reverse] at h1
  exact (List.dropWhile_sublist _).subset h1

theorem dropWhile_eq_nil_of_all (p : Char → Bool) (l : List Char) (h : ∀ c ∈ l, p c = true) :
    l.dropWhile p = [] := by
  induction l with
  | nil => rfl
  | cons a rest ih =>
    rw [List.dropWhile_cons, if_pos (h a (List.mem_cons_self _ _))]
    exact ih (fun c hc => h c (List.mem_cons_of_mem _ hc))

theorem processLine_blank (fs : FileSystem) (objPath : List Char) (st : ParseState F)
    (rawLine : List Char)
    (h : (∀ c ∈ rawLine, isspace c = true) ∨ (Trim rawLine).head? = some '#') :
    processLine N fs objPath st rawLine = .ok st := by
  unfold processLine
  dsimp only
  by_cases h1 : Trim rawLine = [] ∨ (Trim rawLine).head? = some '#'
  · rw [if_pos h1]
    rfl
  · rw [if_neg h1]
    rcases h with h | h
    · have hw : readWord (Trim rawLine) [] = ([], []) := by
        unfold readWord
        dsimp only
        rw [dropWhile_eq_nil_of_all isspace (Trim rawLine)
          (fun c hc => h c (mem_of_mem_Trim rawLine c hc))]
        rfl
      rw [hw]
      rfl
    · exact absurd (Or.inr h) h1

theorem processLines_skip (fs : FileSystem) (objPath : List Char) (st : ParseState F)
    (lines : List (List Char))
    (h : ∀ line ∈ lines, (∀ c ∈ line, isspace c = true) ∨ (Trim line).head? = some '#') :
    processLines N fs objPath lines st = .ok st := by
  induction lines with
  | nil => rfl
  | cons line rest ih =>
    rw [processLines, processLine_blank N fs objPath st line (h line (List.mem_cons_self _ _))]
    exact ih (fun l hl => h l (List.mem_cons_of_mem _ hl))

theorem LoadObjMesh_none_iff (fs : FileSystem) (objPath : List Char) :
    LoadObjMesh N fs objPath = .ok none ↔ fs.read objPath = none := by
  unfold LoadObjMesh
  cases hr : fs.read objPath with
  | none => exact ⟨fun _ => rfl, fun _ => rfl⟩
  | some text =>
    dsimp only
    constructor
    · intro h
      cases hp : processLines N fs objPath (getlines text) (ParseState.init N) with
      | error e => rw [hp] at h; cases h
      | ok st =>
        rw [hp] at h
        dsimp only [bind, Except.bind] at h
        cases hn : normalPass N st.vertices st.indices with
        | error e => rw [hn] at h; cases h
        | ok vs =>
          rw [hn] at h
          cases Except.ok.inj h
    · intro h
      cases h

/-- C7: `Model::LoadFromObj` returns failure exactly when `LoadObjMesh` fails, which is when the
geometry source cannot be opened, or the parsed mesh has an empty vertex buffer or an empty index
buffer; a readable source whose lines are all blank (white space only) or comments (`#` first
after trimming), the empty source included, is reported as a failure, the model left as it was;
and the returned flag does not depend on the texture collaborator. -/
theorem load_failure_iff (fs : FileSystem) (tl : TextureLoader) (self : Model F)
    (objPath : List Char) :
    ((∃ m, LoadFromObj N fs tl self objPath = .ok (false, m)) ↔
      (LoadObjMesh N fs objPath = .ok none ∨
        ∃ mesh, LoadObjMesh N fs objPath = .ok (some mesh) ∧
          (mesh.vertices = [] ∨ mesh.indices = []))) ∧
    (LoadObjMesh N fs objPath = .ok none ↔ fs.read objPath = none) ∧
    (∀ text, fs.read objPath = some text →
      (∀ line ∈ getlines text,
        (∀ c ∈ line, isspace c = true) ∨ (Trim line).head? = some '#') →
      LoadFromObj N fs tl self objPath = .ok (false, self)) ∧
    (∀ tl2 : TextureLoader,
      Except.map (fun r => r.1) (LoadFromObj N fs tl2 self objPath) =
        Except.map (fun r => r.1) (LoadFromObj N fs tl self objPath)) := by
  refine ⟨?_, LoadObjMesh_none_iff N fs objPath, ?_, ?_⟩
  · unfold LoadFromObj
    cases hl : LoadObjMesh N fs objPath with
    | error e =>
      constructor
      · rintro ⟨m, hm⟩
        cases hm
      · rintro (h | ⟨mesh, h, _⟩) <;> cases h
    | ok loaded =>
      cases loaded with
      | none => exact ⟨fun _ => Or.inl rfl, fun _ => ⟨self, rfl⟩⟩
      | some mesh =>
        dsimp only [bind, Except.bind]
        by_cases he : mesh.vertices.isEmpty = true ∨ mesh.indices.isEmpty = true
        · rw [if_pos he]
          refine ⟨fun _ => Or.inr ⟨mesh, rfl, ?_⟩, fun _ => ⟨self, rfl⟩⟩
          simpa [List.isEmpty_iff] using he
        · rw [if_neg he]
          constructor
          · rintro ⟨m, hm⟩
            have := (Prod.mk.inj (Except.ok.inj hm)).1
            cases this
          · rintro (h | ⟨mesh2, h, h2⟩)
            · cases Except.ok.inj h
            · have hm := Option.some.inj (Except.ok.inj h)
              subst hm
              exact absurd (by simpa [List.isEmpty_iff] using h2) he
  · intro text hread hlines
    unfold LoadFromObj LoadObjMesh
    rw [hread]
    dsimp only
    rw [processLines_skip N fs objPath _ _ hlines]
    rfl
  · intro tl2
    unfold LoadFromObj
    cases hl : LoadObjMesh N fs objPath with
    | error e => rfl
    | ok loaded =>
      cases loaded with
      | none => rfl
      | some mesh =>
        dsimp only [bind, Except.bind]
        by_cases he : mesh.vertices.isEmpty = true ∨ mesh.indices.isEmpty = true
        · rw [if_pos he, if_pos he]
        · rw [if_neg he, if_neg he]
          rfl

/-- Witness of C7: a source of comment and blank lines is a failed load. -/
theorem load_failure_iff_witness :
    LoadFromObj binary32 (oneFile examplePath commentSource) noTextures emptyModel examplePath =
      .ok (false, emptyModel) :=
  (load_failure_iff binary32 (oneFile examplePath commentSource) noTextures emptyModel
    examplePath).2.2.1 commentSource (by decide) (by decide)

/-! ### Index validity -/

theorem emitVertex_result (st st1 : ParseState F) (tok : List Char) (r : Int)
    (h : emitVertex N st tok = .ok (r, st1)) :
    (r = -1 ∧ st1 = st) ∨
    (∃ key i, cornerKey st tok = some key ∧ st.vertexCache.lookup key = some i ∧
      r = toInt32 i ∧ st1 = st) ∨
    (∃ key, cornerKey st tok = some key ∧ st.vertexCache.lookup key = none ∧
      r = toInt32 (toUInt32 st.vertices.length) ∧ st1 = pushVertex N st key) := by
  cases hp : ParseFaceToken tok with
  | error e =>
    rw [emitVertex_of_error N st tok e hp] at h
    cases h
  | ok parsed =>
    cases hk : cornerKey st tok with
    | none =>
      rw [emitVertex_of_no_key N st tok parsed hp hk] at h
      obtain ⟨h1, h2⟩ := Prod.mk.inj (Except.ok.inj h)
      exact Or.inl ⟨h1.symm, h2.symm⟩
    | some key =>
      rw [emitVertex_of_key N st tok key hk] at h
      cases hl : st.vertexCache.lookup key with
      | some i =>
        rw [hl] at h
        obtain ⟨h1, h2⟩ := Prod.mk.inj (Except.ok.inj h)
        exact Or.inr (Or.inl ⟨key, i, rfl, hl, h1.symm, h2.symm⟩)
      | none =>
        rw [hl] at h
        obtain ⟨h1, h2⟩ := Prod.mk.inj (Except.ok.inj h)
        exact Or.inr (Or.inr ⟨key, rfl, hl, h1.symm, h2.symm⟩)

theorem toUInt32_lt (z : Int) : toUInt32 z < 4294967296 := by
  unfold toUInt32
  omega

theorem toUInt32_toInt32 (i : Nat) (hi : i < 4294967296) : toUInt32 (toInt32 i) = i := by
  unfold toInt32 toUInt32 at *
  omega

theorem emitVertex_buffers (st st1 : ParseState F) (tok : List Char) (r : Int)
    (h : emitVertex N st tok = .ok (r, st1)) (hinv : BuffersInv st) :
    BuffersInv st1 ∧ (0 ≤ r → toUInt32 r < st1.vertices.length) := by
  obtain ⟨h1, h2, h3⟩ := hinv
  rcases emitVertex_result N st st1 tok r h with ⟨hr, hs⟩ | ⟨key, i, _, hl, hr, hs⟩ |
    ⟨key, _, hl, hr, hs⟩
  · subst hs
    exact ⟨⟨h1, h2, h3⟩, fun hn => by rw [hr] at hn; exact absurd hn (by decide)⟩
  · subst hs
    refine ⟨⟨h1, h2, h3⟩, fun hn => ?_⟩
    rw [hr] at hn ⊢
    rw [toUInt32_toInt32 i (h2 key i hl)]
    exact h1 key i hl
  · subst hs
    have hlen : (pushVertex N st key).vertices.length = st.vertices.length + 1 := by
      unfold pushVertex
      dsimp only
      rw [List.length_append, List.length_singleton]
    refine ⟨⟨?_, ?_, ?_⟩, fun hn => ?_⟩
    · intro k i hk
      rw [hlen]
      rcases lookup_emplace_cases _ _ _ _ _ hk with hk1 | ⟨_, hk2⟩
      · exact Nat.lt_succ_of_lt (h1 k i hk1)
      · rw [hk2]
        exact Nat.lt_succ_of_le (toUInt32_natCast_le _)
    · intro k i hk
      rcases lookup_emplace_cases _ _ _ _ _ hk with hk1 | ⟨_, hk2⟩
      · exact h2 k i hk1
      · rw [hk2]
        exact toUInt32_lt _
    · intro i hi
      rw [hlen]
      exact Nat.lt_succ_of_lt (h3 i hi)
    · rw [hlen]
      rw [hr] at hn ⊢
      rw [toUInt32_toInt32 _ (toUInt32_lt _)]
      exact Nat.lt_succ_of_le (toUInt32_natCast_le _)

theorem emitVertex_length_le (st st1 : ParseState F) (tok : List Char) (r : Int)
    (h : emitVertex N st tok = .ok (r, st1)) : st.vertices.length ≤ st1.vertices.length := by
  obtain ⟨⟨added, ha⟩, _⟩ := emitVertex_extends N st st1 tok r h
  rw [ha, List.length_append]
  exact Nat.le_add_right _ _

theorem fanLoop_buffers (toks : List (List Char)) :
    ∀ (st st1 : ParseState F) (first prev : Int),
      fanLoop N first prev toks st = .ok st1 → BuffersInv st →
      (0 ≤ first → toUInt32 first < st.vertices.length) →
      (0 ≤ prev → toUInt32 prev < st.vertices.length) → BuffersInv st1 := by
  induction toks with
  | nil =>
    intro st st1 first prev h hinv _ _
    rw [fanLoop] at h
    rw [← Except.ok.inj h]
    exact hinv
  | cons tok rest ih =>
    intro st st1 first prev h hinv hf hp
    rw [fanLoop] at h
    cases he : emitVertex N st tok with
    | error e => rw [he] at h; cases h
    | ok res =>
      obtain ⟨r, s⟩ := res
      rw [he] at h
      dsimp only [bind, Except.bind] at h
      obtain ⟨hinv1, hr⟩ := emitVertex_buffers N st s tok r he hinv
      have hle := emitVertex_length_le N st s tok r he
      split at h
      · exact ih _ _ _ _ h hinv1 (fun h0 => Nat.lt_of_lt_of_le (hf h0) hle)
          (fun h0 => Nat.lt_of_lt_of_le (hp h0) hle)
      · rename_i hcond
        have hf0 : 0 ≤ first := by omega
        have hp0 : 0 ≤ prev := by omega
        have hr0 : 0 ≤ r := by omega
        obtain ⟨g1, g2, g3⟩ := hinv1
        refine ih _ _ _ _ h ⟨g1, g2, ?_⟩ (fun h0 => Nat.lt_of_lt_of_le (hf h0) hle) hr
        intro i hi
        dsimp only at hi ⊢
        rcases List.mem_append.mp hi with hi | hi
        · exact g3 i hi
        · simp only [List.mem_cons, List.mem_singleton, List.not_mem_nil, or_false] at hi
          rcases hi with rfl | rfl | rfl
          · exact Nat.lt_of_lt_of_le (hf hf0) hle
          · exact Nat.lt_of_lt_of_le (hp hp0) hle
          · exact hr hr0

theorem processFace_buffers (st st1 : ParseState F) (toks : List (List Char))
    (h : processFace N st toks = .ok st1) (hinv : BuffersInv st) : BuffersInv st1 := by
  match toks, h with
  | [], h => rw [← Except.ok.inj h]; exact hinv
  | [_], h => rw [← Except.ok.inj h]; exact hinv
  | [_, _], h => rw [← Except.ok.inj h]; exact hinv
  | t0 :: t1 :: t2 :: rest, h =>
    rw [processFace] at h
    cases he0 : emitVertex N st t0 with
    | error e => rw [he0] at h; cases h
    | ok res0 =>
      obtain ⟨r0, s0⟩ := res0
      rw [he0] at h
      dsimp only [bind, Except.bind] at h
      cases he1 : emitVertex N s0 t1 with
      | error e => rw [he1] at h; cases h
      | ok res1 =>
        obtain ⟨r1, s1⟩ := res1
        rw [he1] at h
        dsimp only at h
        obtain ⟨hinv0, hr0⟩ := emitVertex_buffers N st s0 t0 r0 he0 hinv
        obtain ⟨hinv1, hr1⟩ := emitVertex_buffers N s0 s1 t1 r1 he1 hinv0
        have hle := emitVertex_length_le N s0 s1 t1 r1 he1
        exact fanLoop_buffers N _ _ _ _ _ h hinv1
          (fun h0 => Nat.lt_of_lt_of_le (hr0 h0) hle) hr1

theorem processLine_buffers (fs : FileSystem) (objPath : List Char) (st st1 : ParseState F)
    (rawLine : List Char) (h : processLine N fs objPath st rawLine = .ok st1)
    (hinv : BuffersInv st) : BuffersInv st1 := by
  have hkeep : ∀ s : ParseState F, Except.ok s = Except.ok (ε := Fault) st1 →
      s.vertexCache = st.vertexCache → s.vertices = st.vertices → s.indices = st.indices →
      BuffersInv st1 := by
    intro s e e1 e2 e3
    have e := Except.ok.inj e
    subst e
    unfold BuffersInv CacheInBounds
    rw [e1, e2, e3]
    exact hinv
  unfold processLine at h
  dsimp only at h
  split at h
  · exact hkeep _ h rfl rfl rfl
  · split at h
    · exact hkeep _ h rfl rfl rfl
    · split at h
      · exact hkeep _ h rfl rfl rfl
      · split at h
        · exact hkeep _ h rfl rfl rfl
        · split at h
          · exact hkeep _ h rfl rfl rfl
          · split at h
            · refine hkeep _ h ?_ ?_ (useMaterial_indices N st _)
              · unfold useMaterial
                dsimp only
                split
                · split <;> rfl
                · rfl
              · unfold useMaterial
                dsimp only
                split
                · split <;> rfl
                · rfl
            · split at h
              · exact processFace_buffers N st st1 _ h hinv
              · exact hkeep _ h rfl rfl rfl

theorem processLines_buffers (fs : FileSystem) (objPath : List Char)
    (lines : List (List Char)) :
    ∀ st st1 : ParseState F, processLines N fs objPath lines st = .ok st1 → BuffersInv st →
      BuffersInv st1 := by
  induction lines with
  | nil =>
    intro st st1 h hinv
    rw [processLines] at h
    rw [← Except.ok.inj h]
    exact hinv
  | cons line rest ih =>
    intro st st1 h hinv
    rw [processLines] at h
    cases hl : processLine N fs objPath st line with
    | error e => rw [hl] at h; cases h
    | ok s =>
      rw [hl] at h
      exact ih s st1 h (processLine_buffers N fs objPath st s line hl hinv)

theorem buffersInv_init : BuffersInv (ParseState.init N) := by
  refine ⟨?_, ?_, ?_⟩
  · intro _ _ h
    cases h
  · intro _ _ h
    cases h
  · intro _ h
    cases h

/-! ### The normal pass -/

theorem addNormal_getElem? (vs : List (VertexPNT F)) (i j : Nat) (n : V3 F) :
    (addNormal N vs i n)[j]? =
      (vs[j]?).map (fun x => if i = j then { x with normal := N.add x.normal n } else x) := by
  unfold addNormal
  cases hi : vs[i]? with
  | none =>
    dsimp only
    by_cases hij : i = j
    · subst hij
      rw [hi]
      rfl
    · simp [hij]
  | some a =>
    dsimp only
    rw [List.getElem?_set]
    by_cases hij : i = j
    · subst hij
      have hlt : i < vs.length := by
        by_contra hge
        rw [List.getElem?_eq_none (Nat.le_of_not_lt hge)] at hi
        cases hi
      simp [hi, hlt]
    · simp [hij]

theorem addNormal_length (vs : List (VertexPNT F)) (i : Nat) (n : V3 F) :
    (addNormal N vs i n).length = vs.length := by
  unfold addNormal
  cases vs[i]? with
  | none => rfl
  | some a => exact List.length_set _ _ _

theorem addNormal_positions (vs : List (VertexPNT F)) (i : Nat) (n : V3 F) :
    (addNormal N vs i n).map (fun x => x.position) = vs.map (fun x => x.position) := by
  apply List.ext_getElem?
  intro j
  rw [List.getElem?_map, List.getElem?_map, addNormal_getElem?]
  cases vs[j]? with
  | none => rfl
  | some x =>
    by_cases hij : i = j <;> simp [hij]

theorem addNormal_texCoords (vs : List (VertexPNT F)) (i : Nat) (n : V3 F) :
    (addNormal N vs i n).map (fun x => x.texCoord) = vs.map (fun x => x.texCoord) := by
  apply List.ext_getElem?
  intro j
  rw [List.getElem?_map, List.getElem?_map, addNormal_getElem?]
  cases vs[j]? with
  | none => rfl
  | some x =>
    by_cases hij : i = j <;> simp [hij]

theorem getD_positions (vs : List (VertexPNT F)) (i : Nat) (a : VertexPNT F)
    (h : vs[i]? = some a) :
    (vs.map (fun x => x.position)).getD i (V3.splat N.zero) = a.position := by
  rw [List.getD_eq_getElem?_getD, List.getElem?_map, h]
  rfl

theorem accumulate_spec (indices : List Nat) :
    ∀ vertices : List (VertexPNT F), (∀ i ∈ indices, i < vertices.length) →
      ∃ summed, accumulate N indices vertices = .ok summed ∧
        summed.map (fun x => x.position) = vertices.map (fun x => x.position) ∧
        summed.map (fun x => x.texCoord) = vertices.map (fun x => x.texCoord) ∧
        ∀ v, (summed[v]?).map (fun x => x.normal) =
          (vertices[v]?).map (fun x =>
            normalSum N (vertices.map (fun y => y.position)) v indices x.normal) := by
  have hdone : ∀ (l : List Nat) (vertices : List (VertexPNT F)),
      accumulate N l vertices = .ok vertices →
      (∀ v acc, normalSum N (vertices.map (fun y => y.position)) v l acc = acc) →
      ∃ summed, accumulate N l vertices = .ok summed ∧
        summed.map (fun x => x.position) = vertices.map (fun x => x.position) ∧
        summed.map (fun x => x.texCoord) = vertices.map (fun x => x.texCoord) ∧
        ∀ v, (summed[v]?).map (fun x => x.normal) =
          (vertices[v]?).map (fun x =>
            normalSum N (vertices.map (fun y => y.position)) v l x.normal) := by
    intro l vertices h1 h2
    refine ⟨vertices, h1, rfl, rfl, fun v => ?_⟩
    simp only [h2]
  intro vertices hb
  match indices, hb with
  | [], _ => exact hdone [] vertices rfl (fun _ _ => rfl)
  | [_], _ => exact hdone [_] vertices rfl (fun _ _ => rfl)
  | [_, _], _ => exact hdone [_, _] vertices rfl (fun _ _ => rfl)
  | ia :: ib :: ic :: rest, hb =>
    have ha : ia < vertices.length := hb ia (by simp)
    have hbb : ib < vertices.length := hb ib (by simp)
    have hc : ic < vertices.length := hb ic (by simp)
    have hrest : ∀ i ∈ rest, i < vertices.length :=
      fun i hi => hb i (by simp [hi])
    have ea : vertices[ia]? = some vertices[ia] := List.getElem?_eq_getElem ha
    have eb : vertices[ib]? = some vertices[ib] := List.getElem?_eq_getElem hbb
    have ec : vertices[ic]? = some vertices[ic] := List.getElem?_eq_getElem hc
    have hfn : N.normalize (N.cross (N.sub vertices[ib].position vertices[ia].position)
        (N.sub vertices[ic].position vertices[ia].position)) =
        faceNormal N (vertices.map (fun y => y.position)) ia ib ic := by
      unfold faceNormal
      rw [getD_positions N vertices ia _ ea, getD_positions N vertices ib _ eb,
        getD_positions N vertices ic _ ec]
    rw [accumulate, ea, eb, ec]
    dsimp only
    rw [hfn]
    by_cases hnan : N.anyIsnan (faceNormal N (vertices.map (fun y => y.position)) ia ib ic) = true
    · rw [if_pos hnan]
      obtain ⟨summed, h1, h2, h3, h4⟩ := accumulate_spec rest vertices hrest
      refine ⟨summed, h1, h2, h3, fun v => ?_⟩
      rw [h4 v]
      congr 1
      funext x
      rw [normalSum, if_pos hnan]
    · rw [if_neg hnan]
      obtain ⟨summed, h1, h2, h3, h4⟩ := accumulate_spec rest
        (addNormal N (addNormal N (addNormal N vertices ia _) ib _) ic
          (faceNormal N (vertices.map (fun y => y.position)) ia ib ic))
        (fun i hi => by
          rw [addNormal_length, addNormal_length, addNormal_length]
          exact hrest i hi)
      have hpos : (addNormal N (addNormal N (addNormal N vertices ia
            (faceNormal N (vertices.map (fun y => y.position)) ia ib ic)) ib
            (faceNormal N (vertices.map (fun y => y.position)) ia ib ic)) ic
            (faceNormal N (vertices.map (fun y => y.position)) ia ib ic)).map
            (fun x => x.position) = vertices.map (fun x => x.position) := by
        rw [addNormal_positions, addNormal_positions, addNormal_positions]
      have htex : (addNormal N (addNormal N (addNormal N vertices ia
            (faceNormal N (vertices.map (fun y => y.position)) ia ib ic)) ib
            (faceNormal N (vertices.map (fun y => y.position)) ia ib ic)) ic
            (faceNormal N (vertices.map (fun y => y.position)) ia ib ic)).map
            (fun x => x.texCoord) = vertices.map (fun x => x.texCoord) := by
        rw [addNormal_texCoords, addNormal_texCoords, addNormal_texCoords]
      refine ⟨summed, h1, h2.trans hpos, h3.trans htex, fun v => ?_⟩
      rw [h4 v, hpos, addNormal_getElem?, addNormal_getElem?, addNormal_getElem?]
      cases vertices[v]? with
      | none => rfl
      | some x =>
        simp only [Option.map_some']
        congr 1
        rw [normalSum.eq_1, if_neg hnan]
        congr 1
        by_cases h1 : ia = v <;> by_cases h2 : ib = v <;> by_cases h3 : ic = v <;>
          simp [h1, h2, h3]
termination_by indices.length

theorem normalSum_unreferenced (ps : List (V3 F)) (v : Nat) (indices : List Nat) :
    ∀ acc, (∀ t ∈ triangles indices,
        (t.1 ≠ v ∧ t.2.1 ≠ v ∧ t.2.2 ≠ v) ∨ N.anyIsnan (faceNormal N ps t.1 t.2.1 t.2.2) = true) →
      normalSum N ps v indices acc = acc := by
  intro acc h
  match indices, h with
  | [], _ => rfl
  | [_], _ => rfl
  | [_, _], _ => rfl
  | ia :: ib :: ic :: rest, h =>
    have hrest := normalSum_unreferenced ps v rest acc
      (fun t ht => h t (List.mem_cons_of_mem _ ht))
    rw [normalSum]
    rcases h (ia, ib, ic) (List.mem_cons_self _ _) with ⟨h1, h2, h3⟩ | hnan
    · by_cases hn : N.anyIsnan (faceNormal N ps ia ib ic) = true
      · rw [if_pos hn]; exact hrest
      · rw [if_neg hn]
        dsimp only at h1 h2 h3 ⊢
        rw [if_neg h1, if_neg h2, if_neg h3]
        exact hrest
    · rw [if_pos hnan]; exact hrest
termination_by indices.length

theorem normalPass_supplied (vertices : List (VertexPNT F)) (indices : List Nat)
    (h : hasNormals N vertices = true) :
    normalPass N vertices indices = .ok (vertices.map (finishSupplied N)) := by
  unfold normalPass
  rw [h]
  rfl

theorem getElem?_of_maps (out vs : List (VertexPNT F)) (g : Nat → V3 F)
    (h1 : out.map (fun x => x.position) = vs.map (fun x => x.position))
    (h2 : out.map (fun x => x.texCoord) = vs.map (fun x => x.texCoord))
    (h3 : ∀ v, (out[v]?).map (fun x => x.normal) = (vs[v]?).map (fun _ => g v)) (v : Nat) :
    out[v]? = (vs[v]?).map (fun x => { x with normal := g v }) := by
  have e1 := congrArg (fun l => l[v]?) h1
  have e2 := congrArg (fun l => l[v]?) h2
  have e3 := h3 v
  simp only [List.getElem?_map] at e1 e2
  cases ho : out[v]? with
  | none =>
    rw [ho] at e1
    cases hv : vs[v]? with
    | none => rfl
    | some x => rw [hv] at e1; cases e1
  | some o =>
    rw [ho] at e1 e2 e3
    cases hv : vs[v]? with
    | none => rw [hv] at e1; cases e1
    | some x =>
      rw [hv] at e1 e2 e3
      simp only [Option.map_some', Option.some.injEq] at e1 e2 e3 ⊢
      cases o
      cases x
      simp only at e1 e2 e3
      subst e1 e2 e3
      rfl

theorem normalPass_absent (vertices : List (VertexPNT F)) (indices : List Nat)
    (h : hasNormals N vertices = false) (hb : ∀ i ∈ indices, i < vertices.length) :
    ∃ out : List (VertexPNT F), normalPass N vertices indices = .ok out ∧
      ∀ v, out[v]? = (vertices[v]?).map (fun x : VertexPNT F =>
        { x with normal := synthesizedNormal N vertices indices v }) := by
  obtain ⟨summed, h1, h2, h3, h4⟩ := accumulate_spec N indices
    (vertices.map (fun v => { v with normal := V3.splat N.zero }))
    (fun i hi => by rw [List.length_map]; exact hb i hi)
  have hpos : (vertices.map (fun v : VertexPNT F => { v with normal := V3.splat N.zero })).map
      (fun x => x.position) = vertices.map (fun x => x.position) := by
    rw [List.map_map]; rfl
  have htex : (vertices.map (fun v : VertexPNT F => { v with normal := V3.splat N.zero })).map
      (fun x => x.texCoord) = vertices.map (fun x => x.texCoord) := by
    rw [List.map_map]; rfl
  refine ⟨summed.map (finishSynthesized N), ?_, ?_⟩
  · unfold normalPass
    rw [h]
    dsimp only [Bool.not_false, ↓reduceIte, bind, Except.bind]
    rw [h1]
    rfl
  · refine getElem?_of_maps _ _ (fun v => synthesizedNormal N vertices indices v) ?_ ?_ ?_
    · rw [List.map_map, ← hpos, ← h2]
      apply List.map_congr_left
      intro x _
      unfold finishSynthesized
      dsimp only [Function.comp]
      split <;> rfl
    · rw [List.map_map, ← htex, ← h3]
      apply List.map_congr_left
      intro x _
      unfold finishSynthesized
      dsimp only [Function.comp]
      split <;> rfl
    · intro v
      have e := h4 v
      rw [hpos, List.getElem?_map] at e
      rw [List.getElem?_map]
      cases hs : summed[v]? with
      | none =>
        rw [hs] at e
        cases hv : vertices[v]? with
        | none => rfl
        | some x => rw [hv] at e; cases e
      | some o =>
        rw [hs] at e
        cases hv : vertices[v]? with
        | none => rw [hv] at e; cases e
        | some x =>
          rw [hv] at e
          simp only [Option.map_some', Option.some.injEq] at e ⊢
          unfold finishSynthesized synthesizedNormal finishedNormal nonzero
          rw [e]
          split <;> rfl

theorem LoadObjMesh_of_parse (fs : FileSystem) (objPath text : List Char) (st : ParseState F)
    (vertices : List (VertexPNT F)) (hread : fs.read objPath = some text)
    (hparse : processLines N fs objPath (getlines text) (ParseState.init N) = .ok st)
    (hpass : normalPass N st.vertices st.indices = .ok vertices) :
    LoadObjMesh N fs objPath =
      .ok (some { vertices := vertices, indices := st.indices, chunks := closeChunks st }) := by
  unfold LoadObjMesh
  rw [hread]
  dsimp only
  rw [hparse]
  dsimp only [bind, Except.bind]
  rw [hpass]
  rfl

theorem hasNormals_eq_false (vertices : List (VertexPNT F))
    (h : ∀ v ∈ vertices, nonzero N v.normal = false) : hasNormals N vertices = false := by
  unfold hasNormals
  rw [List.any_eq_false]
  intro v hv
  have := h v hv
  unfold nonzero at this
  rw [this]
  exact Bool.false_ne_true

theorem hasNormals_eq_true (vertices : List (VertexPNT F))
    (h : ∃ v ∈ vertices, nonzero N v.normal = true) : hasNormals N vertices = true := by
  unfold hasNormals
  rw [List.any_eq_true]
  exact h

/-- C8 (as amended): when the parse ends with an empty index buffer no face normal is computed,
yet the normal pass runs: if no emitted vertex carries a normal `n` with `dot(n, n) > 0.0f`
every vertex gets the up vector `(0, 1, 0)`; otherwise a vertex whose normal `n` has
`dot(n, n) > 0.0f` gets `normalize(n)` and the others keep their normal.  Positions and texture
coordinates are kept. -/
theorem zero_triangles_normals (fs : FileSystem) (objPath text : List Char) (st : ParseState F)
    (hread : fs.read objPath = some text)
    (hparse : processLines N fs objPath (getlines text) (ParseState.init N) = .ok st)
    (hidx : st.indices = []) (hzero : nonzero N (V3.splat N.zero) = false) :
    ∃ mesh, LoadObjMesh N fs objPath = .ok (some mesh) ∧ mesh.indices = [] ∧
      mesh.vertices = st.vertices.map (fun v : VertexPNT F =>
        { v with normal :=
            if hasNormals N st.vertices then
              (if nonzero N v.normal then N.normalize v.normal else v.normal)
            else ⟨N.zero, N.one, N.zero⟩ }) := by
  cases hn : hasNormals N st.vertices with
  | true =>
    refine ⟨_, LoadObjMesh_of_parse N fs objPath text st _ hread hparse
      (normalPass_supplied N _ _ hn), hidx, ?_⟩
    dsimp only
    apply List.map_congr_left
    intro v _
    unfold finishSupplied nonzero
    simp only [↓reduceIte]
    split <;> rfl
  | false =>
    have hpass : normalPass N st.vertices st.indices =
        .ok (st.vertices.map (fun v : VertexPNT F =>
          { v with normal := ⟨N.zero, N.one, N.zero⟩ })) := by
      unfold normalPass
      rw [hn, hidx]
      dsimp only [Bool.not_false, ↓reduceIte, bind, Except.bind]
      have hacc : ∀ vs : List (VertexPNT F), accumulate N [] vs = .ok vs := fun _ => rfl
      rw [hacc]
      dsimp only [pure, Except.pure]
      rw [List.map_map]
      simp only [Bool.not_false, ↓reduceIte]
      congr 1
      apply List.map_congr_left
      intro v _
      unfold finishSynthesized
      dsimp only [Function.comp]
      unfold nonzero at hzero
      rw [hzero]
      rfl
    refine ⟨_, LoadObjMesh_of_parse N fs objPath text st _ hread hparse hpass, hidx, ?_⟩
    dsimp only
    apply List.map_congr_left
    intro v _
    simp

set_option maxRecDepth 100000 in

/-- Witness of C8: after `v 0 0 0`, `v 1 0 0`, `f 1 2 9` both vertices of the returned mesh
have the normal `(0, 1, 0)`. -/
theorem zero_triangles_normals_witness :
    (parsedState orphanSource).indices = [] ∧
    ∃ mesh, LoadObjMesh binary32 (oneFile examplePath orphanSource) examplePath =
        .ok (some mesh) ∧ mesh.indices = [] ∧
      mesh.vertices = (parsedState orphanSource).vertices.map (fun v : VertexPNT F32 =>
        { v with normal :=
            if hasNormals binary32 (parsedState orphanSource).vertices then
              (if nonzero binary32 v.normal then binary32.normalize v.normal else v.normal)
            else ⟨binary32.zero, binary32.one, binary32.zero⟩ }) :=
  ⟨by decide,
   zero_triangles_normals binary32 (oneFile examplePath orphanSource) examplePath orphanSource
    (parsedState orphanSource) (by decide) (by decide) (by decide) (by decide)⟩

set_option maxRecDepth 100000 in

/-- C8 as stated fails on its own example: after `v 0 0 0`, `v 1 0 0`, `f 1 2 9` the parse ends
with no index and two vertices emitted with the zero normal, and in the returned mesh both have
the normal `(0, 1, 0)`. -/
theorem zero_triangles_change_normals :
    (parsedState orphanSource).indices = [] ∧
    (parsedState orphanSource).vertices.map (fun v => v.normal) =
      [V3.splat F32.zero, V3.splat F32.zero] ∧
    Except.map (fun m => m.map (fun mesh => mesh.vertices.map (fun v => v.normal)))
        (LoadObjMesh binary32 (oneFile examplePath orphanSource) examplePath) =
      .ok (some [⟨F32.zero, F32.one, F32.zero⟩, ⟨F32.zero, F32.one, F32.zero⟩]) ∧
    (⟨F32.zero, F32.one, F32.zero⟩ : V3 F32) ≠ V3.splat F32.zero := by
  decide

/-- C9 (as amended): when at least one emitted vertex carries a normal `n` with
`dot(n, n) > 0.0f`, `LoadObjMesh` returns a mesh in which every vertex whose parsed normal `n`
has `dot(n, n) > 0.0f` has the normal `normalize(n)` and every other vertex keeps its parsed
normal; nothing computed from the triangles enters a normal, and the index buffer, the
positions and the texture coordinates are those of the parse. -/
theorem supplied_normals_kept (fs : FileSystem) (objPath text : List Char) (st : ParseState F)
    (hread : fs.read objPath = some text)
    (hparse : processLines N fs objPath (getlines text) (ParseState.init N) = .ok st)
    (hsup : ∃ v ∈ st.vertices, nonzero N v.normal = true) :
    ∃ mesh, LoadObjMesh N fs objPath = .ok (some mesh) ∧ mesh.indices = st.indices ∧
      mesh.vertices = st.vertices.map (fun v : VertexPNT F =>
        { v with normal := if nonzero N v.normal then N.normalize v.normal else v.normal }) := by
  refine ⟨_, LoadObjMesh_of_parse N fs objPath text st _ hread hparse
    (normalPass_supplied N _ _ (hasNormals_eq_true N _ hsup)), rfl, ?_⟩
  dsimp only
  apply List.map_congr_left
  intro v _
  unfold finishSupplied nonzero
  split <;> rfl

set_option maxRecDepth 100000 in

/-- Witness of C9: the supplied normal `(0, 0, 2)` becomes `(0, 0, 1)` on the two corners that
name it, and the third corner keeps the zero normal. -/
theorem supplied_normals_kept_witness :
    Except.map (fun m => m.map (fun mesh => mesh.vertices.map (fun v => v.normal)))
        (LoadObjMesh binary32 (oneFile examplePath suppliedSource) examplePath) =
      .ok (some [⟨F32.zero, F32.zero, F32.one⟩, ⟨F32.zero, F32.zero, F32.one⟩,
        V3.splat F32.zero]) ∧
    ∃ mesh, LoadObjMesh binary32 (oneFile examplePath suppliedSource) examplePath =
        .ok (some mesh) ∧ mesh.indices = (parsedState suppliedSource).indices ∧
      mesh.vertices = (parsedState suppliedSource).vertices.map (fun v : VertexPNT F32 =>
        { v with normal :=
            if nonzero binary32 v.normal then binary32.normalize v.normal else v.normal }) :=
  ⟨by decide,
   supplied_normals_kept binary32 (oneFile examplePath suppliedSource) examplePath suppliedSource
    (parsedState suppliedSource) (by decide) (by decide) (by decide)⟩

/-- C10 (as amended): when no emitted vertex carries a normal `n` with `dot(n, n) > 0.0f`,
`LoadObjMesh` returns a mesh in which the vertex `v` has its parsed position and texture
coordinate and the normal `normalize(S_v)` when `dot(S_v, S_v) > 0.0f` and `(0, 1, 0)`
otherwise, `S_v` being the sum, in index buffer order, of the face normal
`normalize(cross(b - a, c - a))` of every triangle `(a, b, c)` whose face normal is not NaN, once
per corner that is `v`.  A vertex that only triangles with a NaN face normal refer to, or none,
gets `(0, 1, 0)`. -/
theorem synthesized_normals (fs : FileSystem) (objPath text : List Char) (st : ParseState F)
    (hread : fs.read objPath = some text)
    (hparse : processLines N fs objPath (getlines text) (ParseState.init N) = .ok st)
    (hnone : ∀ v ∈ st.vertices, nonzero N v.normal = false)
    (hzero : nonzero N (V3.splat N.zero) = false) :
    ∃ mesh, LoadObjMesh N fs objPath = .ok (some mesh) ∧ mesh.indices = st.indices ∧
      (∀ v, mesh.vertices[v]? = (st.vertices[v]?).map (fun x : VertexPNT F =>
        { x with normal := synthesizedNormal N st.vertices st.indices v })) ∧
      (∀ v, (∀ t ∈ triangles st.indices, (t.1 ≠ v ∧ t.2.1 ≠ v ∧ t.2.2 ≠ v) ∨
          N.anyIsnan (faceNormal N (st.vertices.map (fun y => y.position)) t.1 t.2.1 t.2.2) =
            true) →
        synthesizedNormal N st.vertices st.indices v = ⟨N.zero, N.one, N.zero⟩) := by
  have hinv := processLines_buffers N fs objPath _ _ _ hparse (buffersInv_init N)
  obtain ⟨out, hpass, hout⟩ := normalPass_absent N st.vertices st.indices
    (hasNormals_eq_false N _ hnone) hinv.2.2
  refine ⟨_, LoadObjMesh_of_parse N fs objPath text st out hread hparse hpass, rfl, hout, ?_⟩
  intro v hv
  unfold synthesizedNormal
  rw [normalSum_unreferenced N _ v st.indices _ hv]
  unfold finishedNormal
  rw [hzero]
  rfl

set_option maxRecDepth 100000 in

/-- Witness of C10: the four vertices of the two coplanar faces of `twoMaterialSource` get the
normal `(0, 0, 1)`. -/
theorem synthesized_normals_witness :
    twoMaterialMesh.vertices.map (fun v => v.normal) =
      [⟨F32.zero, F32.zero, F32.one⟩, ⟨F32.zero, F32.zero, F32.one⟩,
       ⟨F32.zero, F32.zero, F32.one⟩, ⟨F32.zero, F32.zero, F32.one⟩] ∧
    ∃ mesh, LoadObjMesh binary32 (oneFile examplePath twoMaterialSource) examplePath =
        .ok (some mesh) ∧ mesh.indices = (parsedState twoMaterialSource).indices ∧
      (∀ v, mesh.vertices[v]? = ((parsedState twoMaterialSource).vertices[v]?).map
        (fun x : VertexPNT F32 =>
          { x with normal := (synthesizedNormal binary32 (parsedState twoMaterialSource).vertices
              (parsedState twoMaterialSource).indices v) })) ∧
      (∀ v, (∀ t ∈ triangles (parsedState twoMaterialSource).indices,
          (t.1 ≠ v ∧ t.2.1 ≠ v ∧ t.2.2 ≠ v) ∨
          binary32.anyIsnan (faceNormal binary32
            ((parsedState twoMaterialSource).vertices.map (fun y => y.position))
            t.1 t.2.1 t.2.2) = true) →
        synthesizedNormal binary32 (parsedState twoMaterialSource).vertices
          (parsedState twoMaterialSource).indices v =
            ⟨binary32.zero, binary32.one, binary32.zero⟩) :=
  ⟨by decide,
   synthesized_normals binary32 (oneFile examplePath twoMaterialSource) examplePath
    twoMaterialSource (parsedState twoMaterialSource) (by decide) (by decide) (by decide)
    (by decide)⟩

/-! ### Material directives -/

theorem processLine_usemtl (fs : FileSystem) (objPath : List Char) (st : ParseState F)
    (rawLine materialName : List Char) (h : UsemtlLine rawLine materialName) :
    processLine N fs objPath st rawLine = .ok (useMaterial N st materialName) := by
  obtain ⟨h1, h2, h3⟩ := h
  unfold Skipped at h1
  unfold lineToken at h2
  unfold lineRest at h3
  unfold processLine
  dsimp only
  rw [if_neg h1, h2, h3]
  rw [if_neg (by decide), if_neg (by decide), if_neg (by decide), if_neg (by decide),
    if_pos rfl]
  rfl

theorem processLine_mtllib (fs : FileSystem) (objPath : List Char) (st : ParseState F)
    (rawLine : List Char) (mtlFiles : List (List Char)) (h : MtllibLine rawLine mtlFiles) :
    processLine N fs objPath st rawLine =
      .ok { st with materialLibrary := loadLibraries N fs objPath mtlFiles st.materialLibrary } := by
  obtain ⟨h1, h2, h3⟩ := h
  unfold Skipped at h1
  unfold lineToken at h2
  unfold lineRest at h3
  unfold processLine
  dsimp only
  rw [if_neg h1, h2, h3]
  rw [if_neg (by decide), if_neg (by decide), if_neg (by decide), if_pos rfl]
  rfl

/-- C11: on a line `usemtl M` whose `M` differs from the active material name, an active chunk with
`indexCount > 0` is appended unchanged to the chunk list and the new active chunk starts at the
end of the index buffer with `indexCount = 0`; an active chunk with `indexCount = 0` is not
appended and its `startIndex` moves to the end of the index buffer; in both cases the active
material name becomes `M` and the vertex buffer, the index buffer, the attribute lists, the
library and the cache are unchanged.  The index buffer fits the `uint32_t` field `startIndex`. -/
theorem material_switch (fs : FileSystem) (objPath : List Char) (st : ParseState F)
    (rawLine materialName : List Char) (hline : UsemtlLine rawLine materialName)
    (hne : materialName ≠ st.currentMaterialName)
    (hfit : st.indices.length < 4294967296) :
    ∃ st1, processLine N fs objPath st rawLine = .ok st1 ∧
      (0 < st.currentChunk.indexCount →
        st1.chunks = st.chunks ++ [st.currentChunk] ∧
        st1.currentChunk.startIndex = st.indices.length ∧ st1.currentChunk.indexCount = 0) ∧
      (st.currentChunk.indexCount = 0 →
        st1.chunks = st.chunks ∧
        st1.currentChunk.startIndex = st.indices.length ∧ st1.currentChunk.indexCount = 0) ∧
      st1.currentMaterialName = materialName ∧
      st1.vertices = st.vertices ∧ st1.indices = st.indices ∧
      st1.positions = st.positions ∧ st1.texcoords = st.texcoords ∧ st1.normals = st.normals ∧
      st1.materialLibrary = st.materialLibrary ∧ st1.vertexCache = st.vertexCache := by
  have hu : toUInt32 (st.indices.length : Int) = st.indices.length :=
    toUInt32_natCast_of_lt hfit
  refine ⟨useMaterial N st materialName,
    processLine_usemtl N fs objPath st rawLine materialName hline, ?_⟩
  unfold useMaterial
  rw [if_pos hne]
  dsimp only
  by_cases hpos : st.currentChunk.indexCount > 0
  · rw [if_pos hpos]
    dsimp only
    refine ⟨fun _ => ⟨rfl, hu, rfl⟩, fun h0 => ?_, rfl, rfl, rfl, rfl, rfl, rfl, rfl, rfl⟩
    omega
  · rw [if_neg hpos]
    dsimp only
    refine ⟨fun h0 => absurd h0 hpos, fun h0 => ⟨rfl, hu, h0⟩, rfl, rfl, rfl, rfl, rfl, rfl,
      rfl, rfl⟩

/-- Witness of C11: after one triangle under the default material, `usemtl B` closes the chunk
`[0, 3)` and opens an empty chunk at `3`. -/
theorem material_switch_witness :
    Except.map (fun s => (s.chunks.map (fun c => (c.startIndex, c.indexCount)),
        s.currentChunk.startIndex, s.currentChunk.indexCount, s.currentMaterialName))
      (processLine binary32 (oneFile [] []) [] oneTriangle "usemtl B".toList) =
      .ok ([(0, 3)], 3, 0, "B".toList) ∧
    ∃ st1, processLine binary32 (oneFile [] []) [] oneTriangle "usemtl B".toList = .ok st1 ∧
      (0 < oneTriangle.currentChunk.indexCount →
        st1.chunks = oneTriangle.chunks ++ [oneTriangle.currentChunk] ∧
        st1.currentChunk.startIndex = oneTriangle.indices.length ∧
        st1.currentChunk.indexCount = 0) ∧
      (oneTriangle.currentChunk.indexCount = 0 →
        st1.chunks = oneTriangle.chunks ∧
        st1.currentChunk.startIndex = oneTriangle.indices.length ∧
        st1.currentChunk.indexCount = 0) ∧
      st1.currentMaterialName = "B".toList ∧
      st1.vertices = oneTriangle.vertices ∧ st1.indices = oneTriangle.indices ∧
      st1.positions = oneTriangle.positions ∧ st1.texcoords = oneTriangle.texcoords ∧
      st1.normals = oneTriangle.normals ∧
      st1.materialLibrary = oneTriangle.materialLibrary ∧
      st1.vertexCache = oneTriangle.vertexCache :=
  ⟨by decide,
   material_switch binary32 (oneFile [] []) [] oneTriangle "usemtl B".toList "B".toList
    (by decide) (by decide) (by decide)⟩

theorem processLine_noUsemtl (fs : FileSystem) (objPath : List Char) (st st1 : ParseState F)
    (rawLine : List Char) (hno : NoUsemtl rawLine)
    (h : processLine N fs objPath st rawLine = .ok st1) : SameChunking st st1 := by
  have hkeep : ∀ s : ParseState F, Except.ok s = Except.ok (ε := Fault) st1 →
      s.chunks = st.chunks → s.currentMaterialName = st.currentMaterialName →
      s.currentChunk = st.currentChunk → SameChunking st st1 := by
    intro s e e1 e2 e3
    have e := Except.ok.inj e
    subst e
    exact ⟨e1, e2, by rw [e3], by rw [e3]⟩
  unfold processLine at h
  dsimp only at h
  split at h
  · exact hkeep _ h rfl rfl rfl
  · rename_i hskip
    split at h
    · exact hkeep _ h rfl rfl rfl
    · split at h
      · exact hkeep _ h rfl rfl rfl
      · split at h
        · exact hkeep _ h rfl rfl rfl
        · split at h
          · exact hkeep _ h rfl rfl rfl
          · split at h
            · rename_i htok
              rcases hno with hs | hn
              · exact absurd hs hskip
              · exact absurd htok hn
            · split at h
              · obtain ⟨⟨_, _, _, _, f5, f6, f7, f8⟩, _⟩ := processFace_counts N st st1 _ h
                exact ⟨f5, f6, f7, f8⟩
              · exact hkeep _ h rfl rfl rfl

theorem processLines_noUsemtl (fs : FileSystem) (objPath : List Char)
    (lines : List (List Char)) :
    ∀ st st1 : ParseState F, (∀ l ∈ lines, NoUsemtl l) →
      processLines N fs objPath lines st = .ok st1 → SameChunking st st1 := by
  induction lines with
  | nil =>
    intro st st1 _ h
    rw [processLines] at h
    rw [← Except.ok.inj h]
    exact ⟨rfl, rfl, rfl, rfl⟩
  | cons line rest ih =>
    intro st st1 hno h
    rw [processLines] at h
    cases hl : processLine N fs objPath st line with
    | error e => rw [hl] at h; cases h
    | ok s =>
      rw [hl] at h
      obtain ⟨a1, a2, a3, a4⟩ :=
        processLine_noUsemtl N fs objPath st s line (hno line (List.mem_cons_self _ _)) hl
      obtain ⟨b1, b2, b3, b4⟩ := ih s st1 (fun l hl => hno l (List.mem_cons_of_mem _ hl)) h
      exact ⟨b1.trans a1, b2.trans a2, b3.trans a3, b4.trans a4⟩

/-- C12: a line `usemtl M` whose `M` is the active material name changes nothing; hence, before
any face and any closed chunk, `usemtl A` twice (`A` not the active name) followed by lines that
are not `usemtl` directives and emit at least one triangle yields exactly one chunk, which starts
at `0`, covers the index buffer and has the material resolved for `A` at the directive.  The
index buffer fits the `uint32_t` field `indexCount`. -/
theorem repeated_material_no_op (fs : FileSystem) (objPath : List Char)
    (st0 st1 : ParseState F) (line1 line2 materialName : List Char)
    (rest : List (List Char))
    (hfresh : st0.chunks = [] ∧ st0.indices = [] ∧ st0.currentChunk.indexCount = 0)
    (hne : materialName ≠ st0.currentMaterialName)
    (h1 : UsemtlLine line1 materialName) (h2 : UsemtlLine line2 materialName)
    (hrest : ∀ l ∈ rest, NoUsemtl l)
    (hrun : processLines N fs objPath (line1 :: line2 :: rest) st0 = .ok st1)
    (htri : st1.indices ≠ []) (hfit : st1.indices.length < 4294967296) :
    (∀ (st : ParseState F) (rawLine : List Char), UsemtlLine rawLine st.currentMaterialName →
      processLine N fs objPath st rawLine = .ok st) ∧
    closeChunks st1 =
      [{ startIndex := 0, indexCount := st1.indices.length,
         material := ResolveMaterial materialName st0.materialLibrary (defaultMaterial N) }] := by
  have hnoop : ∀ (st : ParseState F) (rawLine : List Char),
      UsemtlLine rawLine st.currentMaterialName →
      processLine N fs objPath st rawLine = .ok st := by
    intro st rawLine hl
    rw [processLine_usemtl N fs objPath st rawLine _ hl]
    unfold useMaterial
    rw [if_neg (fun hcontra => hcontra rfl)]
  refine ⟨hnoop, ?_⟩
  obtain ⟨hc, hi, hz⟩ := hfresh
  -- the state after the first directive
  have hs1 : (useMaterial N st0 materialName).currentMaterialName = materialName ∧
      (useMaterial N st0 materialName).chunks = [] ∧
      (useMaterial N st0 materialName).indices = [] ∧
      (useMaterial N st0 materialName).currentChunk =
        { startIndex := 0, indexCount := 0,
          material := ResolveMaterial materialName st0.materialLibrary (defaultMaterial N) } := by
    unfold useMaterial
    rw [if_pos hne]
    dsimp only
    rw [if_neg (by omega)]
    dsimp only
    refine ⟨rfl, hc, hi, ?_⟩
    rw [hi, hz]
    rfl
  obtain ⟨n1, n2, n3, n4⟩ := hs1
  rw [processLines, processLine_usemtl N fs objPath st0 line1 materialName h1] at hrun
  dsimp only [bind, Except.bind] at hrun
  rw [processLines, hnoop (useMaterial N st0 materialName) line2 (by rw [n1]; exact h2)] at hrun
  dsimp only [bind, Except.bind] at hrun
  have hinv0 : ChunkInv (useMaterial N st0 materialName) := by
    unfold ChunkInv
    rw [n2, n3, n4]
    exact ⟨rfl, rfl⟩
  obtain ⟨i1, i2⟩ := chunkInv_processLines N fs objPath rest _ st1 hrun hinv0 hfit
  obtain ⟨c1, _, c3, c4⟩ := processLines_noUsemtl N fs objPath rest _ st1 hrest hrun
  rw [n2] at c1
  rw [n4] at c3 c4
  dsimp only at c3 c4
  have hlen : st1.indices.length ≠ 0 := fun h0 => htri (List.length_eq_zero.mp h0)
  have hcount : st1.currentChunk.indexCount = st1.indices.length := by omega
  unfold closeChunks
  rw [if_pos (by omega), c1, List.nil_append]
  congr 1
  cases hcc : st1.currentChunk with
  | mk s i m =>
    rw [hcc] at c3 c4 hcount
    dsimp only at c3 c4 hcount
    rw [c3, c4, hcount]

set_option maxRecDepth 100000 in

/-- Witness of C12: `usemtl A`, `usemtl A`, `f 1 2 3` after three positions gives the single chunk
`[0, 3)`. -/
theorem repeated_material_no_op_witness :
    (meshOf (LoadObjMesh binary32 (oneFile examplePath repeatedMaterialSource)
      examplePath)).chunks.map (fun c => (c.startIndex, c.indexCount)) = [(0, 3)] ∧
    closeChunks (parsedState repeatedMaterialSource) =
      [{ startIndex := 0, indexCount := (parsedState repeatedMaterialSource).indices.length,
         material := ResolveMaterial "A".toList threePositions.materialLibrary
           (defaultMaterial binary32) }] :=
  ⟨by decide,
   (repeated_material_no_op binary32 (oneFile examplePath repeatedMaterialSource) examplePath
    threePositions (parsedState repeatedMaterialSource) "usemtl A".toList "usemtl A".toList
    "A".toList ["f 1 2 3".toList] (by decide) (by decide) (by decide) (by decide) (by decide)
    (by decide) (by decide) (by decide)).2⟩

theorem useMaterial_material (st : ParseState F) (materialName : List Char)
    (hne : materialName ≠ st.currentMaterialName) :
    (useMaterial N st materialName).currentChunk.material =
      ResolveMaterial materialName st.materialLibrary (defaultMaterial N) := by
  unfold useMaterial
  rw [if_pos hne]
  dsimp only
  by_cases hpos : st.currentChunk.indexCount > 0
  · rw [if_pos hpos]
  · rw [if_neg hpos]

/-- C13: a `usemtl M` directive that switches the active material gives the active chunk the
library entry stored under `M` at that moment when there is one and the default material
otherwise; the default material has the name `default`, the diffuse colour `(0.8, 0.8, 0.8)`, the
shininess `32.0` and no texture; and as long as no `usemtl` directive has been read the active
chunk has the default material and no chunk has been closed, so faces before any `usemtl` are in
a chunk with the default material. -/
theorem resolve_or_default (fs : FileSystem) (objPath : List Char) (st : ParseState F)
    (rawLine materialName : List Char) (hline : UsemtlLine rawLine materialName)
    (hne : materialName ≠ st.currentMaterialName) :
    (∃ st1, processLine N fs objPath st rawLine = .ok st1 ∧
      st1.currentChunk.material =
        match st.materialLibrary.lookup materialName with
        | some m => m
        | none => defaultMaterial N) ∧
    ((defaultMaterial N).name = "default".toList ∧
      (defaultMaterial N).diffuseColor = ⟨N.c08, N.c08, N.c08⟩ ∧
      (defaultMaterial N).shininess = N.c32 ∧ (defaultMaterial N).diffuseTexture = []) ∧
    (∀ (lines : List (List Char)) (st2 : ParseState F), (∀ l ∈ lines, NoUsemtl l) →
      processLines N fs objPath lines (ParseState.init N) = .ok st2 →
      st2.chunks = [] ∧ st2.currentChunk.material = defaultMaterial N ∧
        ∀ c ∈ closeChunks st2, c.material = defaultMaterial N) := by
  refine ⟨⟨useMaterial N st materialName,
    processLine_usemtl N fs objPath st rawLine materialName hline, ?_⟩,
    ⟨rfl, rfl, rfl, rfl⟩, ?_⟩
  · rw [useMaterial_material N st materialName hne]
    rfl
  · intro lines st2 hno hrun
    obtain ⟨c1, _, _, c4⟩ := processLines_noUsemtl N fs objPath lines _ st2 hno hrun
    have hc : st2.chunks = [] := c1
    have hm : st2.currentChunk.material = defaultMaterial N := c4
    refine ⟨hc, hm, ?_⟩
    intro c hcmem
    unfold closeChunks at hcmem
    rw [hc] at hcmem
    split at hcmem
    · rw [List.nil_append, List.mem_singleton] at hcmem
      rw [hcmem]
      exact hm
    · cases hcmem

set_option maxRecDepth 100000 in

/-- Witness of C13: with the library of `a.mtl`, `usemtl red` gives the entry of `red` and
`usemtl missing` gives the default material. -/
theorem resolve_or_default_witness :
    Except.map (fun s => (s.currentChunk.material.diffuseColor, s.currentChunk.material.shininess))
      (processLine binary32 materialFiles examplePath materialState "usemtl red".toList) =
      .ok (pos32 1 0 0, F32.round false 8 1) ∧
    Except.map (fun s => s.currentChunk.material)
      (processLine binary32 materialFiles examplePath materialState "usemtl missing".toList) =
      .ok (defaultMaterial binary32) ∧
    ∃ st1, processLine binary32 materialFiles examplePath materialState
        "usemtl red".toList = .ok st1 ∧
      st1.currentChunk.material =
        match materialState.materialLibrary.lookup "red".toList with
        | some m => m
        | none => defaultMaterial binary32 :=
  ⟨by decide, by decide,
   (resolve_or_default binary32 materialFiles examplePath materialState "usemtl red".toList
    "red".toList (by decide) (by decide)).1⟩

/-- C19: a material file that cannot be opened leaves the mapping as it was; a `mtllib` line all
of whose files cannot be opened leaves the whole parse state as it was and the line loop goes on
with the next line; and a later `usemtl` of a name the mapping lacks gives the active chunk the
default material. -/
theorem unreadable_material_file (fs : FileSystem) (objPath : List Char) (st : ParseState F)
    (rawLine : List Char) (mtlFiles : List (List Char)) (hline : MtllibLine rawLine mtlFiles)
    (hclosed : ∀ f ∈ mtlFiles, fs.read (fs.sibling objPath f) = none) :
    (∀ (p : List Char) (m : List (List Char × MaterialDefinition F)),
      fs.read p = none → ParseMtlFile N fs p m = m) ∧
    processLine N fs objPath st rawLine = .ok st ∧
    (∀ rest, processLines N fs objPath (rawLine :: rest) st = processLines N fs objPath rest st) ∧
    (∀ line2 materialName, UsemtlLine line2 materialName →
      materialName ≠ st.currentMaterialName → st.materialLibrary.lookup materialName = none →
      ∃ st1, processLine N fs objPath st line2 = .ok st1 ∧
        st1.currentChunk.material = defaultMaterial N) := by
  have hparse : ∀ (p : List Char) (m : List (List Char × MaterialDefinition F)),
      fs.read p = none → ParseMtlFile N fs p m = m := by
    intro p m hp
    unfold ParseMtlFile
    rw [hp]
  have hload : ∀ (files : List (List Char)) (m : List (List Char × MaterialDefinition F)),
      (∀ f ∈ files, fs.read (fs.sibling objPath f) = none) →
      loadLibraries N fs objPath files m = m := by
    intro files
    induction files with
    | nil => intro m _; rfl
    | cons f rest ih =>
      intro m hf
      unfold loadLibraries
      rw [List.foldl_cons, hparse _ m (hf f (List.mem_cons_self _ _))]
      exact ih m (fun g hg => hf g (List.mem_cons_of_mem _ hg))
  have hstep : processLine N fs objPath st rawLine = .ok st := by
    rw [processLine_mtllib N fs objPath st rawLine mtlFiles hline, hload mtlFiles _ hclosed]
  refine ⟨hparse, hstep, ?_, ?_⟩
  · intro rest
    rw [processLines, hstep]
    rfl
  · intro line2 materialName hl2 hne hlook
    refine ⟨useMaterial N st materialName,
      processLine_usemtl N fs objPath st line2 materialName hl2, ?_⟩
    rw [useMaterial_material N st materialName hne]
    unfold ResolveMaterial
    rw [hlook]

set_option maxRecDepth 100000 in

/-- Witness of C19: `mtllib missing.mtl` with no such file leaves the state as it was. -/
theorem unreadable_material_file_witness :
    processLine binary32 materialFiles examplePath threePositions "mtllib missing.mtl".toList =
      .ok threePositions :=
  (unreadable_material_file binary32 materialFiles examplePath threePositions
    "mtllib missing.mtl".toList ["missing.mtl".toList] (by decide) (by decide)).2.1

/-! ### Vertex construction -/

theorem cornerKey_parsed (st : ParseState F) (tok : List Char) (key : VertexKey)
    (h : cornerKey st tok = some key) :
    ∃ parsed, ParseFaceToken tok = .ok parsed ∧
      key.position = ResolveIndex parsed.2.1 st.positions.length ∧
      key.texCoord = ResolveIndex parsed.2.2.1 st.texcoords.length ∧
      key.normal = ResolveIndex parsed.2.2.2 st.normals.length ∧ 0 ≤ key.position := by
  unfold cornerKey at h
  cases hp : ParseFaceToken tok with
  | error e => rw [hp] at h; cases h
  | ok parsed =>
    rw [hp] at h
    dsimp only at h
    split at h
    · rename_i hc
      have hkey := Option.some.inj h
      subst hkey
      exact ⟨parsed, rfl, rfl, rfl, rfl, hc.2⟩
    · cases h

/-- C16: the first occurrence of a resolved key `(p, t, n)` appends exactly one vertex, at the
index that is the previous length of the vertex buffer, and returns that index; the vertex has
the position `positions[p]`, the texture coordinate `texcoords[t]` when `t` is a valid index and
`(0, 0)` when the reference is missing, zero or out of range (then `t` is the invalid marker),
and the normal `normals[n]` or `(0, 0, 0)` likewise; the vertices already in the buffer are
unchanged.  The vertex buffer has fewer than `2^31` entries, so that the index is an `int`. -/
theorem vertex_construction (st : ParseState F) (tok : List Char) (key : VertexKey)
    (hk : cornerKey st tok = some key) (hnew : st.vertexCache.lookup key = none)
    (hfit : st.vertices.length < 2147483648) :
    ∃ st1 v, emitVertex N st tok = .ok ((st.vertices.length : Int), st1) ∧
      st1.vertices = st.vertices ++ [v] ∧
      st1.vertexCache.lookup key = some st.vertices.length ∧
      st.positions[key.position.toNat]? = some v.position ∧
      (0 ≤ key.texCoord → st.texcoords[key.texCoord.toNat]? = some v.texCoord) ∧
      (key.texCoord < 0 → v.texCoord = ⟨N.zero, N.zero⟩) ∧
      (0 ≤ key.normal → st.normals[key.normal.toNat]? = some v.normal) ∧
      (key.normal < 0 → v.normal = ⟨N.zero, N.zero, N.zero⟩) ∧
      ∃ parsed, ParseFaceToken tok = .ok parsed ∧
        key.position = ResolveIndex parsed.2.1 st.positions.length ∧
        key.texCoord = ResolveIndex parsed.2.2.1 st.texcoords.length ∧
        key.normal = ResolveIndex parsed.2.2.2 st.normals.length := by
  obtain ⟨parsed, hp, k1, k2, k3, k0⟩ := cornerKey_parsed st tok key hk
  have he := emitVertex_of_key N st tok key hk
  rw [hnew] at he
  dsimp only at he
  have hu : toUInt32 (st.vertices.length : Int) = st.vertices.length :=
    toUInt32_natCast_of_lt (by omega)
  rw [hu, toInt32_natCast_of_lt hfit] at he
  refine ⟨pushVertex N st key, vertexOf N st key, he, rfl, ?_, ?_, ?_, ?_, ?_, ?_,
    ⟨parsed, hp, k1, k2, k3⟩⟩
  · unfold pushVertex
    dsimp only
    rw [hu]
    exact lookup_emplace_self _ _ _ hnew
  · unfold vertexOf
    dsimp only
    rw [k1] at k0 ⊢
    exact getElem?_of_resolved st.positions _ _ k0
  · intro h0
    unfold vertexOf
    dsimp only
    rw [if_pos h0]
    rw [k2] at h0 ⊢
    exact getElem?_of_resolved st.texcoords _ _ h0
  · intro h0
    unfold vertexOf
    dsimp only
    rw [if_neg (by omega)]
  · intro h0
    unfold vertexOf
    dsimp only
    rw [if_pos h0]
    rw [k3] at h0 ⊢
    exact getElem?_of_resolved st.normals _ _ h0
  · intro h0
    unfold vertexOf
    dsimp only
    rw [if_neg (by omega)]
    rfl

/-- Witness of C16: over four positions, two texture coordinates and one normal, the corner
`2/9` (texture reference out of range, no normal) becomes vertex `0` with the second position,
the texture coordinate `(0, 0)` and the zero normal. -/
theorem vertex_construction_witness :
    Except.map (fun r => (r.1, r.2.vertices))
        (emitVertex binary32 quadWithAttributes "2/9".toList) =
      .ok (0, [⟨pos32 1 0 0, V3.splat F32.zero, ⟨F32.zero, F32.zero⟩⟩]) ∧
    ∃ st1 v, emitVertex binary32 quadWithAttributes "2/9".toList =
        .ok ((quadWithAttributes.vertices.length : Int), st1) ∧
      st1.vertices = quadWithAttributes.vertices ++ [v] ∧
      st1.vertexCache.lookup ⟨1, -1, -1⟩ = some quadWithAttributes.vertices.length ∧
      quadWithAttributes.positions[(⟨1, -1, -1⟩ : VertexKey).position.toNat]? = some v.position ∧
      (0 ≤ (⟨1, -1, -1⟩ : VertexKey).texCoord →
        quadWithAttributes.texcoords[(⟨1, -1, -1⟩ : VertexKey).texCoord.toNat]? =
          some v.texCoord) ∧
      ((⟨1, -1, -1⟩ : VertexKey).texCoord < 0 → v.texCoord = ⟨binary32.zero, binary32.zero⟩) ∧
      (0 ≤ (⟨1, -1, -1⟩ : VertexKey).normal →
        quadWithAttributes.normals[(⟨1, -1, -1⟩ : VertexKey).normal.toNat]? = some v.normal) ∧
      ((⟨1, -1, -1⟩ : VertexKey).normal < 0 →
        v.normal = ⟨binary32.zero, binary32.zero, binary32.zero⟩) ∧
      ∃ parsed, ParseFaceToken "2/9".toList = .ok parsed ∧
        (⟨1, -1, -1⟩ : VertexKey).position =
          ResolveIndex parsed.2.1 quadWithAttributes.positions.length ∧
        (⟨1, -1, -1⟩ : VertexKey).texCoord =
          ResolveIndex parsed.2.2.1 quadWithAttributes.texcoords.length ∧
        (⟨1, -1, -1⟩ : VertexKey).normal =
          ResolveIndex parsed.2.2.2 quadWithAttributes.normals.length :=
  ⟨by decide,
   vertex_construction binary32 quadWithAttributes "2/9".toList ⟨1, -1, -1⟩
    (by decide) (by decide) (by decide)⟩

/-! ### Faces with an invalid corner -/

theorem processLine_face (fs : FileSystem) (objPath : List Char) (st : ParseState F)
    (rawLine : List Char) (faceTokens : List (List Char)) (h : FaceLine rawLine faceTokens) :
    processLine N fs objPath st rawLine = processFace N st faceTokens := by
  obtain ⟨h1, h2, h3⟩ := h
  unfold Skipped at h1
  unfold lineToken at h2
  unfold lineRest at h3
  unfold processLine
  dsimp only
  rw [if_neg h1, h2, h3]
  rw [if_neg (by decide), if_neg (by decide), if_neg (by decide), if_neg (by decide),
    if_neg (by decide), if_pos rfl]

theorem emitVertex_total (st : ParseState F) (tok : List Char) (parsed : Bool × Int × Int × Int)
    (hp : ParseFaceToken tok = .ok parsed) :
    ∃ r st1, emitVertex N st tok = .ok (r, st1) ∧ (cornerKey st tok = none → r = -1) := by
  cases hk : cornerKey st tok with
  | none => exact ⟨-1, st, emitVertex_of_no_key N st tok parsed hp hk, fun _ => rfl⟩
  | some key =>
    rw [emitVertex_of_key N st tok key hk]
    cases st.vertexCache.lookup key with
    | some i => exact ⟨_, _, rfl, fun h => by cases h⟩
    | none => exact ⟨_, _, rfl, fun h => by cases h⟩

theorem fanLoop_skip (toks : List (List Char)) :
    ∀ (st : ParseState F) (first prev : Int), (first < 0 ∨ prev < 0) →
      (∀ tok ∈ toks, ∃ p, ParseFaceToken tok = .ok p) →
      ∃ st1, fanLoop N first prev toks st = .ok st1 ∧ SameFrame st st1 ∧ Extends st st1 := by
  induction toks with
  | nil =>
    intro st first prev _ _
    exact ⟨st, rfl, ⟨rfl, rfl, rfl, rfl, rfl, rfl, rfl, rfl⟩, Extends.refl st⟩
  | cons tok rest ih =>
    intro st first prev hneg hparse
    obtain ⟨p, hp⟩ := hparse tok (List.mem_cons_self _ _)
    obtain ⟨r, s, he, _⟩ := emitVertex_total N st tok p hp
    obtain ⟨a1, a2, a3, a4, a5, a6, a7, a8⟩ := emitVertex_sameFrame N st s tok r he
    obtain ⟨st1, h1, ⟨b1, b2, b3, b4, b5, b6, b7, b8⟩, hx⟩ :=
      ih s first prev hneg (fun t ht => hparse t (List.mem_cons_of_mem _ ht))
    refine ⟨st1, ?_, ⟨b1.trans a1, b2.trans a2, b3.trans a3, b4.trans a4, b5.trans a5,
      b6.trans a6, b7.trans a7, b8.trans a8⟩, (emitVertex_extends N st s tok r he).trans hx⟩
    rw [fanLoop, he]
    dsimp only [bind, Except.bind]
    rw [if_pos (by omega)]
    exact h1

theorem fanLoop_none (toks : List (List Char)) (st : ParseState F) (first prev : Int)
    (hparse : ∀ tok ∈ toks, ∃ p, ParseFaceToken tok = .ok p)
    (hnone : ∀ tok ∈ toks, cornerKey st tok = none) :
    fanLoop N first prev toks st = .ok st := by
  induction toks generalizing prev with
  | nil => rfl
  | cons tok rest ih =>
    obtain ⟨p, hp⟩ := hparse tok (List.mem_cons_self _ _)
    rw [fanLoop, emitVertex_of_no_key N st tok p hp (hnone tok (List.mem_cons_self _ _))]
    dsimp only [bind, Except.bind]
    rw [if_pos (Or.inr (Or.inr (by decide)))]
    exact ih prev (fun t ht => hparse t (List.mem_cons_of_mem _ ht))
      (fun t ht => hnone t (List.mem_cons_of_mem _ ht))

/-- C17 (as amended): a face record whose tokens parse is skipped when its first or its second
corner has a position index that is zero or out of range, or when every corner from the third on
has one: it appends no triangle and leaves the active chunk, the chunk list and the attribute
lists as they are (vertices of its valid corners may be appended to the vertex buffer), and the
line loop goes on with the next line. -/
theorem face_record_skipped (fs : FileSystem) (objPath : List Char)
    (st : ParseState F) (rawLine t0 t1 t2 : List Char) (more : List (List Char))
    (hline : FaceLine rawLine (t0 :: t1 :: t2 :: more))
    (hparse : ∀ tok ∈ t0 :: t1 :: t2 :: more, ∃ p, ParseFaceToken tok = .ok p)
    (hbad : cornerKey st t0 = none ∨ cornerKey st t1 = none ∨
      ∀ tok ∈ t2 :: more, cornerKey st tok = none) :
    ∃ st1, processLine N fs objPath st rawLine = .ok st1 ∧
      st1.indices = st.indices ∧ st1.currentChunk = st.currentChunk ∧
      st1.chunks = st.chunks ∧ st1.positions = st.positions ∧
      st1.texcoords = st.texcoords ∧ st1.normals = st.normals ∧
      (∃ added, st1.vertices = st.vertices ++ added) ∧
      ∀ rest, processLines N fs objPath (rawLine :: rest) st =
        processLines N fs objPath rest st1 := by
  obtain ⟨p0, hp0⟩ := hparse t0 (by simp)
  obtain ⟨p1, hp1⟩ := hparse t1 (by simp)
  obtain ⟨r0, s0, he0, hr0⟩ := emitVertex_total N st t0 p0 hp0
  obtain ⟨a1, a2, a3, a4, a5, a6, a7, a8⟩ := emitVertex_sameFrame N st s0 t0 r0 he0
  obtain ⟨r1, s1, he1, hr1⟩ := emitVertex_total N s0 t1 p1 hp1
  obtain ⟨b1, b2, b3, b4, b5, b6, b7, b8⟩ := emitVertex_sameFrame N s0 s1 t1 r1 he1
  have hrest : ∀ t ∈ t2 :: more, ∃ p, ParseFaceToken t = .ok p :=
    fun t ht => hparse t (List.mem_cons_of_mem _ (List.mem_cons_of_mem _ ht))
  have hloop : ∃ st1, fanLoop N r0 r1 (t2 :: more) s1 = .ok st1 ∧ SameFrame s1 st1 ∧
      Extends s1 st1 := by
    rcases hbad with h | h | h
    · exact fanLoop_skip N (t2 :: more) s1 r0 r1
        (Or.inl (by rw [hr0 h]; decide)) hrest
    · exact fanLoop_skip N (t2 :: more) s1 r0 r1
        (Or.inr (by rw [hr1 (by rw [cornerKey_congr st s0 t1 a1 a2 a3]; exact h)]; decide))
        hrest
    · refine ⟨s1, fanLoop_none N (t2 :: more) s1 r0 r1 hrest ?_,
        ⟨rfl, rfl, rfl, rfl, rfl, rfl, rfl, rfl⟩, Extends.refl s1⟩
      intro t ht
      rw [cornerKey_congr st s1 t (b1.trans a1) (b2.trans a2) (b3.trans a3)]
      exact h t ht
  obtain ⟨st1, h1, ⟨c1, c2, c3, c4, c5, c6, c7, c8⟩, hx⟩ := hloop
  have hface : processFace N st (t0 :: t1 :: t2 :: more) = .ok st1 := by
    rw [processFace, he0]
    dsimp only [bind, Except.bind]
    rw [he1]
    exact h1
  have hstep : processLine N fs objPath st rawLine = .ok st1 := by
    rw [processLine_face N fs objPath st rawLine _ hline, hface]
  refine ⟨st1, hstep, (c5.trans b5).trans a5, (c7.trans b7).trans a7, (c6.trans b6).trans a6,
    (c1.trans b1).trans a1, (c2.trans b2).trans a2, (c3.trans b3).trans a3,
    (((emitVertex_extends N st s0 t0 r0 he0).trans
      (emitVertex_extends N s0 s1 t1 r1 he1)).trans hx).1, ?_⟩
  intro rest
  rw [processLines, hstep]
  rfl

/-- Witness of C17: `f 9 2 3` over four positions appends nothing and the following face is
processed. -/
theorem face_record_skipped_witness :
    Except.map (fun s => s.indices)
      (processLines binary32 (oneFile [] []) [] ["f 9 2 3".toList, "f 1 2 3".toList]
        quadState) = .ok [2, 0, 1] ∧
    ∃ st1, processLine binary32 (oneFile [] []) [] quadState "f 9 2 3".toList = .ok st1 ∧
      st1.indices = quadState.indices ∧ st1.currentChunk = quadState.currentChunk ∧
      st1.chunks = quadState.chunks ∧ st1.positions = quadState.positions ∧
      st1.texcoords = quadState.texcoords ∧ st1.normals = quadState.normals ∧
      (∃ added, st1.vertices = quadState.vertices ++ added) ∧
      ∀ rest, processLines binary32 (oneFile [] []) [] ("f 9 2 3".toList :: rest) quadState =
        processLines binary32 (oneFile [] []) [] rest st1 :=
  ⟨by decide,
   face_record_skipped binary32 (oneFile [] []) [] quadState
    "f 9 2 3".toList "9".toList "2".toList "3".toList [] (by decide)
    (fun tok ht => parses_of_cornerKeyOrError tok (by revert tok; decide)) (by decide)⟩

/-- C17 as stated fails: in `f 1 2 3 9` over four positions the last corner is out of range, yet
the record appends the triangle of its first three corners and the active chunk counts it. -/
theorem face_with_invalid_corner_emits :
    cornerKey quadState "9".toList = none ∧
    Except.map (fun s => (s.indices, s.currentChunk.indexCount))
      (processLine binary32 (oneFile [] []) [] quadState "f 1 2 3 9".toList) =
      .ok ([0, 1, 2], 3) ∧
    quadState.indices = [] ∧ quadState.currentChunk.indexCount = 0 := by
  decide

/-! ### Every access is in bounds -/

theorem stoi_in_bounds (s : List Char) : stoi s ≠ .error .out_of_bounds := by
  unfold stoi
  dsimp only
  split_ifs <;> intro h <;> cases h

theorem bind_in_bounds {α β : Type} (x : Except Fault α) (f : α → Except Fault β)
    (hx : x ≠ .error .out_of_bounds) (hf : ∀ a, f a ≠ .error .out_of_bounds) :
    (x >>= f) ≠ .error .out_of_bounds := by
  cases x with
  | error e =>
    intro h
    dsimp only [bind, Except.bind] at h
    rw [Except.error.inj h] at hx
    exact hx rfl
  | ok a => exact hf a

theorem ParseFaceToken_in_bounds (tok : List Char) :
    ParseFaceToken tok ≠ .error .out_of_bounds := by
  unfold ParseFaceToken
  split
  · exact bind_in_bounds _ _ (stoi_in_bounds _) (fun _ h => by cases h)
  · dsimp only
    refine bind_in_bounds _ _ (stoi_in_bounds _) (fun v => ?_)
    split
    · split
      · exact bind_in_bounds _ _ (stoi_in_bounds _) (fun _ h => by cases h)
      · intro h; cases h
    · split
      · refine bind_in_bounds _ _ (stoi_in_bounds _) (fun t => ?_)
        split
        · exact bind_in_bounds _ _ (stoi_in_bounds _) (fun _ h => by cases h)
        · intro h; cases h
      · dsimp only [bind, Except.bind, pure, Except.pure]
        split
        · exact bind_in_bounds _ _ (stoi_in_bounds _) (fun _ h => by cases h)
        · intro h; cases h

theorem emitVertex_in_bounds (st : ParseState F) (tok : List Char) :
    emitVertex N st tok ≠ .error .out_of_bounds := by
  cases hp : ParseFaceToken tok with
  | error e =>
    rw [emitVertex_of_error N st tok e hp]
    intro h
    apply ParseFaceToken_in_bounds tok
    rw [hp, Except.error.inj h]
  | ok parsed =>
    obtain ⟨r, s, h, _⟩ := emitVertex_total N st tok parsed hp
    rw [h]
    intro h; cases h

theorem fanLoop_in_bounds (toks : List (List Char)) :
    ∀ (st : ParseState F) (first prev : Int),
      fanLoop N first prev toks st ≠ .error .out_of_bounds := by
  induction toks with
  | nil =>
    intro st first prev h
    cases h
  | cons tok rest ih =>
    intro st first prev
    rw [fanLoop]
    refine bind_in_bounds _ _ (emitVertex_in_bounds N st tok) (fun r => ?_)
    dsimp only
    split
    · exact ih _ _ _
    · exact ih _ _ _

theorem processFace_in_bounds (st : ParseState F) (toks : List (List Char)) :
    processFace N st toks ≠ .error .out_of_bounds := by
  unfold processFace
  split
  · refine bind_in_bounds _ _ (emitVertex_in_bounds N st _) (fun r0 => ?_)
    refine bind_in_bounds _ _ (emitVertex_in_bounds N _ _) (fun r1 => ?_)
    exact fanLoop_in_bounds N _ _ _ _
  · intro h; cases h

theorem processLine_in_bounds (fs : FileSystem) (objPath : List Char) (st : ParseState F)
    (rawLine : List Char) : processLine N fs objPath st rawLine ≠ .error .out_of_bounds := by
  unfold processLine
  dsimp only
  split
  · intro h; cases h
  · split
    · intro h; cases h
    · split
      · intro h; cases h
      · split
        · intro h; cases h
        · split
          · intro h; cases h
          · split
            · intro h; cases h
            · split
              · exact processFace_in_bounds N st _
              · intro h; cases h

theorem processLines_in_bounds (fs : FileSystem) (objPath : List Char)
    (lines : List (List Char)) :
    ∀ st : ParseState F, processLines N fs objPath lines st ≠ .error .out_of_bounds := by
  induction lines with
  | nil =>
    intro st h
    cases h
  | cons line rest ih =>
    intro st
    rw [processLines]
    exact bind_in_bounds _ _ (processLine_in_bounds N fs objPath st line) (fun s => ih s)

theorem fanLoop_mod3 (toks : List (List Char)) :
    ∀ (st st1 : ParseState F) (first prev : Int), fanLoop N first prev toks st = .ok st1 →
      st1.indices.length % 3 = st.indices.length % 3 := by
  induction toks with
  | nil =>
    intro st st1 first prev h
    rw [fanLoop] at h
    rw [← Except.ok.inj h]
  | cons tok rest ih =>
    intro st st1 first prev h
    rw [fanLoop] at h
    cases he : emitVertex N st tok with
    | error e => rw [he] at h; cases h
    | ok rs =>
      obtain ⟨r, s⟩ := rs
      rw [he] at h
      dsimp only [bind, Except.bind] at h
      have hs : s.indices = st.indices := (emitVertex_sameFrame N st s tok r he).2.2.2.2.1
      split at h
      · rw [ih _ _ _ _ h, hs]
      · rw [ih _ _ _ _ h]
        dsimp only
        rw [List.length_append, hs]
        simp only [List.length_cons, List.length_nil]
        omega

theorem processFace_mod3 (st st1 : ParseState F) (toks : List (List Char))
    (h : processFace N st toks = .ok st1) :
    st1.indices.length % 3 = st.indices.length % 3 := by
  unfold processFace at h
  split at h
  · rename_i t0 t1 t2 rest
    cases he0 : emitVertex N st t0 with
    | error e => rw [he0] at h; cases h
    | ok rs0 =>
      obtain ⟨r0, s0⟩ := rs0
      rw [he0] at h
      dsimp only [bind, Except.bind] at h
      cases he1 : emitVertex N s0 t1 with
      | error e => rw [he1] at h; cases h
      | ok rs1 =>
        obtain ⟨r1, s1⟩ := rs1
        rw [he1] at h
        dsimp only at h
        rw [fanLoop_mod3 N _ _ _ _ _ h,
          (emitVertex_sameFrame N s0 s1 t1 r1 he1).2.2.2.2.1,
          (emitVertex_sameFrame N st s0 t0 r0 he0).2.2.2.2.1]
  · rw [← Except.ok.inj h]

theorem processLine_mod3 (fs : FileSystem) (objPath : List Char) (st st1 : ParseState F)
    (rawLine : List Char) (h : processLine N fs objPath st rawLine = .ok st1) :
    st1.indices.length % 3 = st.indices.length % 3 := by
  unfold processLine at h
  dsimp only at h
  split at h
  · rw [← Except.ok.inj h]
  · split at h
    · rw [← Except.ok.inj h]
    · split at h
      · rw [← Except.ok.inj h]
      · split at h
        · rw [← Except.ok.inj h]
        · split at h
          · rw [← Except.ok.inj h]
          · split at h
            · rw [← Except.ok.inj h, useMaterial_indices]
            · split at h
              · exact processFace_mod3 N st st1 _ h
              · rw [← Except.ok.inj h]

theorem processLines_mod3 (fs : FileSystem) (objPath : List Char) (lines : List (List Char)) :
    ∀ st st1 : ParseState F, processLines N fs objPath lines st = .ok st1 →
      st1.indices.length % 3 = st.indices.length % 3 := by
  induction lines with
  | nil =>
    intro st st1 h
    rw [processLines] at h
    rw [← Except.ok.inj h]
  | cons line rest ih =>
    intro st st1 h
    rw [processLines] at h
    cases hl : processLine N fs objPath st line with
    | error e => rw [hl] at h; cases h
    | ok s =>
      rw [hl] at h
      rw [ih s st1 h, processLine_mod3 N fs objPath st s line hl]

theorem normalPass_total (vertices : List (VertexPNT F)) (indices : List Nat)
    (hb : ∀ i ∈ indices, i < vertices.length) :
    ∃ out, normalPass N vertices indices = .ok out ∧ out.length = vertices.length := by
  cases h : hasNormals N vertices with
  | true =>
    exact ⟨_, normalPass_supplied N vertices indices h, List.length_map _ _⟩
  | false =>
    obtain ⟨out, h1, h2⟩ := normalPass_absent N vertices indices h hb
    refine ⟨out, h1, ?_⟩
    apply Nat.le_antisymm
    · by_contra hlt
      have := h2 vertices.length
      rw [List.getElem?_eq_none (Nat.le_refl _), Option.map_none'] at this
      rw [List.getElem?_eq_none_iff] at this
      omega
    · by_contra hlt
      have := h2 out.length
      rw [List.getElem?_eq_none (Nat.le_refl _)] at this
      have h3 : vertices[out.length]? = none := by
        cases hv : vertices[out.length]? with
        | none => rfl
        | some x => rw [hv] at this; cases this
      rw [List.getElem?_eq_none_iff] at h3
      omega

/-- C20: after any number of lines of the parse the length of the index buffer is a multiple of
3 and every entry is smaller than the length of the vertex buffer; `ResolveIndex` returns the
invalid marker or a value in `[0, count)`; no list access of `emitVertex` and no vertex access
of the normal pass is out of bounds, so `LoadObjMesh` never ends in an out-of-bounds access; and
the returned mesh has the same two properties. -/
theorem index_buffer_valid (fs : FileSystem) (objPath : List Char) (lines : List (List Char))
    (st : ParseState F)
    (h : processLines N fs objPath lines (ParseState.init N) = .ok st) :
    st.indices.length % 3 = 0 ∧ (∀ i ∈ st.indices, i < st.vertices.length) ∧
    (∀ (idx : Int) (count : Nat), ResolveIndex idx count = -1 ∨
      (0 ≤ ResolveIndex idx count ∧ (ResolveIndex idx count).toNat < count)) ∧
    (∀ tok, emitVertex N st tok ≠ .error .out_of_bounds) ∧
    (∃ out, normalPass N st.vertices st.indices = .ok out ∧ out.length = st.vertices.length) ∧
    LoadObjMesh N fs objPath ≠ .error .out_of_bounds ∧
    ∀ mesh, LoadObjMesh N fs objPath = .ok (some mesh) →
      mesh.indices.length % 3 = 0 ∧ ∀ i ∈ mesh.indices, i < mesh.vertices.length := by
  have hinv := processLines_buffers N fs objPath lines _ st h (buffersInv_init N)
  have hmod := processLines_mod3 N fs objPath lines _ st h
  refine ⟨hmod, hinv.2.2, ResolveIndex_range, emitVertex_in_bounds N st,
    normalPass_total N st.vertices st.indices hinv.2.2, ?_, ?_⟩
  · cases hr : fs.read objPath with
    | none =>
      unfold LoadObjMesh
      rw [hr]
      intro h
      cases h
    | some text =>
      cases hs : processLines N fs objPath (getlines text) (ParseState.init N) with
      | error e =>
        have hne := processLines_in_bounds N fs objPath (getlines text) (ParseState.init N)
        unfold LoadObjMesh
        rw [hr]
        dsimp only
        rw [hs]
        intro h
        dsimp only [bind, Except.bind] at h
        apply hne
        rw [hs, Except.error.inj h]
      | ok s2 =>
        have hinv2 := processLines_buffers N fs objPath _ _ s2 hs (buffersInv_init N)
        obtain ⟨out, ho, _⟩ := normalPass_total N s2.vertices s2.indices hinv2.2.2
        rw [LoadObjMesh_of_parse N fs objPath text s2 out hr hs ho]
        intro h
        cases h
  · intro mesh hm
    obtain ⟨text, s, _, hparse, hpass, hi, _⟩ := LoadObjMesh_ok N fs objPath mesh hm
    have hinv2 := processLines_buffers N fs objPath _ _ s hparse (buffersInv_init N)
    have hmod2 := processLines_mod3 N fs objPath _ _ s hparse
    obtain ⟨out, ho, hlen⟩ := normalPass_total N s.vertices s.indices hinv2.2.2
    rw [hpass] at ho
    rw [hi, Except.ok.inj ho, hlen]
    exact ⟨hmod2, hinv2.2.2⟩

set_option maxRecDepth 100000 in

/-- Witness of C20: the two-material source parses to nine index entries over four vertices. -/
theorem index_buffer_valid_witness :
    (parsedState twoMaterialSource).indices.length = 9 ∧
    (parsedState twoMaterialSource).vertices.length = 4 ∧
    ((parsedState twoMaterialSource).indices.length % 3 = 0 ∧
    (∀ i ∈ (parsedState twoMaterialSource).indices,
      i < (parsedState twoMaterialSource).vertices.length) ∧
    (∀ (idx : Int) (count : Nat), ResolveIndex idx count = -1 ∨
      (0 ≤ ResolveIndex idx count ∧ (ResolveIndex idx count).toNat < count)) ∧
    (∀ tok, emitVertex binary32 (parsedState twoMaterialSource) tok ≠
      .error .out_of_bounds) ∧
    (∃ out, normalPass binary32 (parsedState twoMaterialSource).vertices
        (parsedState twoMaterialSource).indices = .ok out ∧
      out.length = (parsedState twoMaterialSource).vertices.length) ∧
    LoadObjMesh binary32 (oneFile examplePath twoMaterialSource) examplePath ≠
      .error .out_of_bounds ∧
    ∀ mesh, LoadObjMesh binary32 (oneFile examplePath twoMaterialSource) examplePath =
        .ok (some mesh) →
      mesh.indices.length % 3 = 0 ∧ ∀ i ∈ mesh.indices, i < mesh.vertices.length) :=
  ⟨by decide, by decide,
   index_buffer_valid binary32 (oneFile examplePath twoMaterialSource) examplePath
    (getlines twoMaterialSource) (parsedState twoMaterialSource) (by decide)⟩

/-! ### A single triangle -/

theorem processLine_position (fs : FileSystem) (objPath : List Char) (st : ParseState F)
    (rawLine : List Char) (h : PositionLine rawLine) :
    processLine N fs objPath st rawLine =
      .ok { st with positions := st.positions ++ [positionOf N rawLine] } := by
  obtain ⟨h1, h2⟩ := h
  unfold Skipped at h1
  unfold lineToken at h2
  unfold processLine positionOf lineRest
  dsimp only
  rw [if_neg h1, h2, if_pos rfl]
  rfl

theorem accumulate_triangle (a b c : VertexPNT F) :
    accumulate N [0, 1, 2] [a, b, c] =
      .ok (if N.anyIsnan (N.normalize (N.cross (N.sub b.position a.position)
            (N.sub c.position a.position))) then [a, b, c]
        else
          [{ a with normal := N.add a.normal (N.normalize (N.cross
              (N.sub b.position a.position) (N.sub c.position a.position))) },
           { b with normal := N.add b.normal (N.normalize (N.cross
              (N.sub b.position a.position) (N.sub c.position a.position))) },
           { c with normal := N.add c.normal (N.normalize (N.cross
              (N.sub b.position a.position) (N.sub c.position a.position))) }]) := by
  by_cases h : N.anyIsnan (N.normalize (N.cross (N.sub b.position a.position)
      (N.sub c.position a.position))) = true
  · rw [if_pos h]
    show (if N.anyIsnan (N.normalize (N.cross (N.sub b.position a.position)
        (N.sub c.position a.position))) = true then accumulate N [] [a, b, c] else _) = _
    rw [if_pos h]
    rfl
  · rw [if_neg h]
    show (if N.anyIsnan (N.normalize (N.cross (N.sub b.position a.position)
        (N.sub c.position a.position))) = true then accumulate N [] [a, b, c] else _) = _
    rw [if_neg h]
    rfl

theorem ok_bind {α β : Type} (a : α) (f : α → Except Fault β) :
    (Except.ok a >>= f) = f a := rfl

theorem processFace_triangle (p1 p2 p3 : V3 F) :
    processFace N { ParseState.init N with positions := [p1, p2, p3] }
        ["1".toList, "2".toList, "3".toList] =
      .ok { ParseState.init N with
        positions := [p1, p2, p3],
        vertices := [⟨p1, V3.splat N.zero, ⟨N.zero, N.zero⟩⟩,
          ⟨p2, V3.splat N.zero, ⟨N.zero, N.zero⟩⟩, ⟨p3, V3.splat N.zero, ⟨N.zero, N.zero⟩⟩],
        indices := [0, 1, 2],
        currentChunk := ⟨0, 3, defaultMaterial N⟩,
        vertexCache := [(⟨2, -1, -1⟩, 2), (⟨1, -1, -1⟩, 1), (⟨0, -1, -1⟩, 0)] } := by
  have hp1 : ParseFaceToken "1".toList = .ok (true, 1, 0, 0) := by decide
  have hp2 : ParseFaceToken "2".toList = .ok (true, 2, 0, 0) := by decide
  have hp3 : ParseFaceToken "3".toList = .ok (true, 3, 0, 0) := by decide
  have k1 : ∀ st : ParseState F, st.positions = [p1, p2, p3] → st.texcoords = [] →
      st.normals = [] → cornerKey st "1".toList = some ⟨0, -1, -1⟩ := by
    intro st h1 h2 h3
    unfold cornerKey
    rw [hp1, h1, h2, h3]
    rfl
  have k2 : ∀ st : ParseState F, st.positions = [p1, p2, p3] → st.texcoords = [] →
      st.normals = [] → cornerKey st "2".toList = some ⟨1, -1, -1⟩ := by
    intro st h1 h2 h3
    unfold cornerKey
    rw [hp2, h1, h2, h3]
    rfl
  have k3 : ∀ st : ParseState F, st.positions = [p1, p2, p3] → st.texcoords = [] →
      st.normals = [] → cornerKey st "3".toList = some ⟨2, -1, -1⟩ := by
    intro st h1 h2 h3
    unfold cornerKey
    rw [hp3, h1, h2, h3]
    rfl
  have e1 : ∀ st : ParseState F, st.positions = [p1, p2, p3] → st.texcoords = [] →
      st.normals = [] → st.vertexCache = [] → st.vertices.length = 0 →
      emitVertex N st "1".toList = .ok (0, pushVertex N st ⟨0, -1, -1⟩) := by
    intro st h1 h2 h3 h4 h5
    rw [emitVertex_of_key N _ _ _ (k1 st h1 h2 h3), h4, h5]
    dsimp only [List.lookup]
    rw [toUInt32_natCast_of_lt (by decide), toInt32_natCast_of_lt (by decide)]
    rfl
  have l2 : List.lookup (⟨1, -1, -1⟩ : VertexKey) [(⟨0, -1, -1⟩, 0)] = none := by decide
  have l3 : List.lookup (⟨2, -1, -1⟩ : VertexKey) [(⟨1, -1, -1⟩, 1), (⟨0, -1, -1⟩, 0)] = none := by
    decide
  have e2 : ∀ st : ParseState F, st.positions = [p1, p2, p3] → st.texcoords = [] →
      st.normals = [] → st.vertexCache = [(⟨0, -1, -1⟩, 0)] → st.vertices.length = 1 →
      emitVertex N st "2".toList = .ok (1, pushVertex N st ⟨1, -1, -1⟩) := by
    intro st h1 h2 h3 h4 h5
    rw [emitVertex_of_key N _ _ _ (k2 st h1 h2 h3), h4, h5, l2]
    dsimp only
    rw [toUInt32_natCast_of_lt (by decide), toInt32_natCast_of_lt (by decide)]
    rfl
  have e3 : ∀ st : ParseState F, st.positions = [p1, p2, p3] → st.texcoords = [] →
      st.normals = [] → st.vertexCache = [(⟨1, -1, -1⟩, 1), (⟨0, -1, -1⟩, 0)] →
      st.vertices.length = 2 →
      emitVertex N st "3".toList = .ok (2, pushVertex N st ⟨2, -1, -1⟩) := by
    intro st h1 h2 h3 h4 h5
    rw [emitVertex_of_key N _ _ _ (k3 st h1 h2 h3), h4, h5, l3]
    dsimp only
    rw [toUInt32_natCast_of_lt (by decide), toInt32_natCast_of_lt (by decide)]
    rfl
  have u0 : toUInt32 ((0 : Nat) : Int) = 0 := by decide
  have u1 : toUInt32 ((1 : Nat) : Int) = 1 := by decide
  have u2 : toUInt32 ((2 : Nat) : Int) = 2 := by decide
  have v0 : toUInt32 (0 : Int) = 0 := by decide
  have v1 : toUInt32 (1 : Int) = 1 := by decide
  have v2 : toUInt32 (2 : Int) = 2 := by decide
  have v3 : toUInt32 (((0 : Nat) : Int) + 3) = 3 := by decide
  have q1 : pushVertex N { ParseState.init N with positions := [p1, p2, p3] } ⟨0, -1, -1⟩ =
      { ParseState.init N with
        positions := [p1, p2, p3],
        vertices := [⟨p1, V3.splat N.zero, ⟨N.zero, N.zero⟩⟩],
        vertexCache := [(⟨0, -1, -1⟩, 0)] } := by
    unfold pushVertex emplace vertexOf ParseState.init
    dsimp only [List.lookup, List.length_nil, Option.isSome]
    rw [u0]
    rfl
  have q2 : pushVertex N { ParseState.init N with
        positions := [p1, p2, p3],
        vertices := [⟨p1, V3.splat N.zero, ⟨N.zero, N.zero⟩⟩],
        vertexCache := [(⟨0, -1, -1⟩, 0)] } ⟨1, -1, -1⟩ =
      { ParseState.init N with
        positions := [p1, p2, p3],
        vertices := [⟨p1, V3.splat N.zero, ⟨N.zero, N.zero⟩⟩,
          ⟨p2, V3.splat N.zero, ⟨N.zero, N.zero⟩⟩],
        vertexCache := [(⟨1, -1, -1⟩, 1), (⟨0, -1, -1⟩, 0)] } := by
    unfold pushVertex emplace vertexOf ParseState.init
    dsimp only
    rw [l2]
    dsimp only [List.length_cons, List.length_nil, Option.isSome]
    rw [u1]
    rfl
  have q3 : pushVertex N { ParseState.init N with
        positions := [p1, p2, p3],
        vertices := [⟨p1, V3.splat N.zero, ⟨N.zero, N.zero⟩⟩,
          ⟨p2, V3.splat N.zero, ⟨N.zero, N.zero⟩⟩],
        vertexCache := [(⟨1, -1, -1⟩, 1), (⟨0, -1, -1⟩, 0)] } ⟨2, -1, -1⟩ =
      { ParseState.init N with
        positions := [p1, p2, p3],
        vertices := [⟨p1, V3.splat N.zero, ⟨N.zero, N.zero⟩⟩,
          ⟨p2, V3.splat N.zero, ⟨N.zero, N.zero⟩⟩, ⟨p3, V3.splat N.zero, ⟨N.zero, N.zero⟩⟩],
        vertexCache := [(⟨2, -1, -1⟩, 2), (⟨1, -1, -1⟩, 1), (⟨0, -1, -1⟩, 0)] } := by
    unfold pushVertex emplace vertexOf ParseState.init
    dsimp only
    rw [l3]
    dsimp only [List.length_cons, List.length_nil, Option.isSome]
    rw [u2]
    rfl
  have E1 := e1 { ParseState.init N with positions := [p1, p2, p3] } rfl rfl rfl rfl rfl
  rw [q1] at E1
  have E2 := e2 { ParseState.init N with
        positions := [p1, p2, p3],
        vertices := [⟨p1, V3.splat N.zero, ⟨N.zero, N.zero⟩⟩],
        vertexCache := [(⟨0, -1, -1⟩, 0)] } rfl rfl rfl rfl rfl
  rw [q2] at E2
  have E3 := e3 { ParseState.init N with
        positions := [p1, p2, p3],
        vertices := [⟨p1, V3.splat N.zero, ⟨N.zero, N.zero⟩⟩,
          ⟨p2, V3.splat N.zero, ⟨N.zero, N.zero⟩⟩],
        vertexCache := [(⟨1, -1, -1⟩, 1), (⟨0, -1, -1⟩, 0)] } rfl rfl rfl rfl rfl
  rw [q3] at E3
  rw [processFace, E1, ok_bind, E2, ok_bind]
  rw [fanLoop, E3, ok_bind]
  have hno : ¬((0 : Int) < 0 ∨ (1 : Int) < 0 ∨ (2 : Int) < 0) := by decide
  rw [if_neg hno, fanLoop]
  unfold ParseState.init
  rw [v0, v1, v2, v3]
  rfl

theorem bind_last_line (fs : FileSystem) (objPath : List Char)
    (x : Except Fault (ParseState F)) :
    (x >>= fun st1 => processLines N fs objPath [] st1) = x := by
  cases x with
  | error e => rfl
  | ok s => rfl

theorem normalPass_triangle (p1 p2 p3 : V3 F)
    (hzero : nonzero N (V3.splat N.zero) = false) :
    normalPass N [⟨p1, V3.splat N.zero, ⟨N.zero, N.zero⟩⟩,
        ⟨p2, V3.splat N.zero, ⟨N.zero, N.zero⟩⟩, ⟨p3, V3.splat N.zero, ⟨N.zero, N.zero⟩⟩]
        [0, 1, 2] =
      .ok (if N.anyIsnan (N.normalize (N.cross (N.sub p2 p1) (N.sub p3 p1))) then
          [⟨p1, ⟨N.zero, N.one, N.zero⟩, ⟨N.zero, N.zero⟩⟩,
           ⟨p2, ⟨N.zero, N.one, N.zero⟩, ⟨N.zero, N.zero⟩⟩,
           ⟨p3, ⟨N.zero, N.one, N.zero⟩, ⟨N.zero, N.zero⟩⟩]
        else
          [⟨p1, finishedNormal N (N.add (V3.splat N.zero)
              (N.normalize (N.cross (N.sub p2 p1) (N.sub p3 p1)))), ⟨N.zero, N.zero⟩⟩,
           ⟨p2, finishedNormal N (N.add (V3.splat N.zero)
              (N.normalize (N.cross (N.sub p2 p1) (N.sub p3 p1)))), ⟨N.zero, N.zero⟩⟩,
           ⟨p3, finishedNormal N (N.add (V3.splat N.zero)
              (N.normalize (N.cross (N.sub p2 p1) (N.sub p3 p1)))), ⟨N.zero, N.zero⟩⟩]) := by
  have hz : N.gt (N.dot (V3.splat N.zero) (V3.splat N.zero)) N.zero = false := hzero
  have hh : hasNormals N [⟨p1, V3.splat N.zero, ⟨N.zero, N.zero⟩⟩,
      ⟨p2, V3.splat N.zero, ⟨N.zero, N.zero⟩⟩, ⟨p3, V3.splat N.zero, ⟨N.zero, N.zero⟩⟩] =
      false := by
    apply hasNormals_eq_false
    intro v hv
    simp only [List.mem_cons, List.mem_singleton, List.not_mem_nil, or_false] at hv
    rcases hv with h | h | h <;> rw [h] <;> exact hzero
  unfold normalPass
  rw [hh]
  dsimp only [Bool.not_false, if_true, List.map]
  rw [if_pos (show (!false) = true from rfl), accumulate_triangle, ok_bind]
  dsimp only
  split
  · dsimp only [List.map, pure, Except.pure]
    unfold finishSynthesized
    dsimp only
    rw [hz]
    rfl
  · dsimp only [List.map, pure, Except.pure]
    unfold finishSynthesized finishedNormal nonzero
    dsimp only
    split <;> rfl

/-- C18 (as amended): a source of three `v` records followed by `f 1 2 3` loads with the index
buffer `[0, 1, 2]`, three vertices with the three positions in order, and the one chunk
`{0, 3, default material}`; with `f = normalize(cross(p2 - p1, p3 - p1))`, each vertex has the up
vector `(0, 1, 0)` when a component of `f` is NaN (as for collinear positions), and otherwise
the finished sum `0 + f`: `normalize(0 + f)` when `dot(0 + f, 0 + f) > 0.0f`, the up vector
when not. -/
theorem single_triangle_round_trip (fs : FileSystem) (objPath text l1 l2 l3 lf : List Char)
    (hread : fs.read objPath = some text) (hlines : getlines text = [l1, l2, l3, lf])
    (h1 : PositionLine l1) (h2 : PositionLine l2) (h3 : PositionLine l3)
    (hf : FaceLine lf ["1".toList, "2".toList, "3".toList])
    (hzero : nonzero N (V3.splat N.zero) = false) :
    ∃ n : V3 F,
      LoadObjMesh N fs objPath = .ok (some
        { vertices := [⟨positionOf N l1, n, ⟨N.zero, N.zero⟩⟩,
            ⟨positionOf N l2, n, ⟨N.zero, N.zero⟩⟩, ⟨positionOf N l3, n, ⟨N.zero, N.zero⟩⟩],
          indices := [0, 1, 2],
          chunks := [⟨0, 3, defaultMaterial N⟩] }) ∧
      n = if N.anyIsnan (N.normalize (N.cross (N.sub (positionOf N l2) (positionOf N l1))
              (N.sub (positionOf N l3) (positionOf N l1)))) then ⟨N.zero, N.one, N.zero⟩
          else finishedNormal N (N.add (V3.splat N.zero)
            (N.normalize (N.cross (N.sub (positionOf N l2) (positionOf N l1))
              (N.sub (positionOf N l3) (positionOf N l1))))) := by
  have hparse : processLines N fs objPath [l1, l2, l3, lf] (ParseState.init N) =
      processFace N { ParseState.init N with
        positions := [positionOf N l1, positionOf N l2, positionOf N l3] }
        ["1".toList, "2".toList, "3".toList] := by
    rw [processLines, processLine_position N fs objPath _ l1 h1, ok_bind,
      processLines, processLine_position N fs objPath _ l2 h2, ok_bind,
      processLines, processLine_position N fs objPath _ l3 h3, ok_bind,
      processLines, processLine_face N fs objPath _ lf _ hf]
    exact bind_last_line N fs objPath _
  rw [processFace_triangle] at hparse
  rw [← hlines] at hparse
  refine ⟨_, ?_, rfl⟩
  rw [LoadObjMesh_of_parse N fs objPath text _ _ hread hparse
    (normalPass_triangle N _ _ _ hzero)]
  split <;> rfl

set_option maxRecDepth 100000 in

/-- Witness of C18: the triangle over `(0,0,0)`, `(1,0,0)`, `(0,1,0)` loads with the normal
`(0, 0, 1)` on its three vertices. -/
theorem single_triangle_round_trip_witness :
    (meshOf (LoadObjMesh binary32 (oneFile examplePath singleTriangleSource)
      examplePath)).vertices.map (fun v => (v.position, v.normal)) =
      [(pos32 0 0 0, ⟨F32.zero, F32.zero, F32.one⟩), (pos32 1 0 0, ⟨F32.zero, F32.zero, F32.one⟩),
       (pos32 0 1 0, ⟨F32.zero, F32.zero, F32.one⟩)] ∧
    ∃ n : V3 F32,
      LoadObjMesh binary32 (oneFile examplePath singleTriangleSource) examplePath = .ok (some
        { vertices := [⟨positionOf binary32 "v 0 0 0".toList, n, ⟨binary32.zero, binary32.zero⟩⟩,
            ⟨positionOf binary32 "v 1 0 0".toList, n, ⟨binary32.zero, binary32.zero⟩⟩,
            ⟨positionOf binary32 "v 0 1 0".toList, n, ⟨binary32.zero, binary32.zero⟩⟩],
          indices := [0, 1, 2],
          chunks := [⟨0, 3, defaultMaterial binary32⟩] }) ∧
      n = if binary32.anyIsnan (binary32.normalize (binary32.cross
              (binary32.sub (positionOf binary32 "v 1 0 0".toList)
                (positionOf binary32 "v 0 0 0".toList))
              (binary32.sub (positionOf binary32 "v 0 1 0".toList)
                (positionOf binary32 "v 0 0 0".toList)))) then
            ⟨binary32.zero, binary32.one, binary32.zero⟩
          else finishedNormal binary32 (binary32.add (V3.splat binary32.zero)
            (binary32.normalize (binary32.cross
              (binary32.sub (positionOf binary32 "v 1 0 0".toList)
                (positionOf binary32 "v 0 0 0".toList))
              (binary32.sub (positionOf binary32 "v 0 1 0".toList)
                (positionOf binary32 "v 0 0 0".toList))))) :=
  ⟨by decide,
   single_triangle_round_trip binary32 (oneFile examplePath singleTriangleSource) examplePath
    singleTriangleSource "v 0 0 0".toList "v 1 0 0".toList "v 0 1 0".toList "f 1 2 3".toList
    (by decide) (by decide) (by decide) (by decide) (by decide) (by decide) (by decide)⟩

set_option maxRecDepth 100000 in

/-- C18 as stated fails: the three positions `(0,0,0)`, `(1,0,0)`, `(2,0,0)` are pairwise
distinct, `normalize(cross(p2 - p1, p3 - p1))` is `(NaN, NaN, NaN)`, and the three vertices of
the loaded mesh have the normal `(0, 1, 0)`. -/
theorem collinear_triangle_gets_up_vector :
    LoadObjMesh binary32 (oneFile examplePath collinearSource) examplePath = .ok (some
      { vertices := [⟨pos32 0 0 0, ⟨F32.zero, F32.one, F32.zero⟩, ⟨F32.zero, F32.zero⟩⟩,
          ⟨pos32 1 0 0, ⟨F32.zero, F32.one, F32.zero⟩, ⟨F32.zero, F32.zero⟩⟩,
          ⟨pos32 2 0 0, ⟨F32.zero, F32.one, F32.zero⟩, ⟨F32.zero, F32.zero⟩⟩],
        indices := [0, 1, 2],
        chunks := [⟨0, 3, defaultMaterial binary32⟩] }) ∧
    pos32 0 0 0 ≠ pos32 1 0 0 ∧ pos32 0 0 0 ≠ pos32 2 0 0 ∧ pos32 1 0 0 ≠ pos32 2 0 0 ∧
    binary32.normalize (binary32.cross (binary32.sub (pos32 1 0 0) (pos32 0 0 0))
      (binary32.sub (pos32 2 0 0) (pos32 0 0 0))) = ⟨F32.nan, F32.nan, F32.nan⟩ ∧
    (⟨F32.nan, F32.nan, F32.nan⟩ : V3 F32) ≠ ⟨F32.zero, F32.one, F32.zero⟩ := by
  decide

/-! ### The material library -/

theorem lookup_name_cons (name key : List Char) (d : MaterialDefinition F)
    (rest : List (List Char × MaterialDefinition F)) :
    List.lookup name ((key, d) :: rest) = if name = key then some d else List.lookup name rest := by
  by_cases h : name = key
  · subst h
    simp [List.lookup]
  · have hb : (name == key) = false := by simpa using h
    simp [List.lookup, hb, h]

theorem lookup_filter_ne (name k : List Char) (ms : List (List Char × MaterialDefinition F)) :
    List.lookup name (ms.filter (fun e => e.1 ≠ k)) =
      if name = k then none else List.lookup name ms := by
  induction ms with
  | nil => split <;> rfl
  | cons e rest ih =>
    obtain ⟨key, d⟩ := e
    by_cases hk : key = k
    · rw [List.filter_cons_of_neg (by simpa using hk), ih, lookup_name_cons]
      by_cases hn : name = k
      · rw [if_pos hn, if_pos hn]
      · rw [if_neg hn, if_neg hn, if_neg (by rw [hk]; exact hn)]
    · rw [List.filter_cons_of_pos (by simpa using hk), lookup_name_cons, lookup_name_cons, ih]
      by_cases hkey : name = key
      · rw [if_pos hkey, if_neg (by rw [hkey]; exact hk), if_pos hkey]
      · rw [if_neg hkey, if_neg hkey]

theorem lookup_assign (name k : List Char) (d : MaterialDefinition F)
    (ms : List (List Char × MaterialDefinition F)) :
    List.lookup name (assign ms k d) = if name = k then some d else List.lookup name ms := by
  unfold assign
  rw [lookup_name_cons, lookup_filter_ne]
  by_cases hn : name = k
  · rw [if_pos hn, if_pos hn]
  · rw [if_neg hn, if_neg hn, if_neg hn]

theorem lookup_commitCurrent (name : List Char) (s : MtlState F) :
    List.lookup name (commitCurrent s) =
      if s.currentName ≠ [] ∧ name = s.currentName then some s.current
      else List.lookup name s.materials := by
  unfold commitCurrent
  by_cases h : s.currentName ≠ []
  · rw [if_pos h, lookup_assign]
    by_cases hn : name = s.currentName
    · rw [if_pos hn, if_pos ⟨h, hn⟩]
    · rw [if_neg hn, if_neg (fun hc => hn hc.2)]
  · rw [if_neg h, if_neg (fun hc => h hc.1)]

theorem mtlLine_merge (fs : FileSystem) (filePath rawLine : List Char)
    (m : List (List Char × MaterialDefinition F)) (s s0 : MtlState F)
    (h1 : s.current = s0.current) (h2 : s.currentName = s0.currentName)
    (h3 : ∀ name, List.lookup name s.materials =
      match List.lookup name s0.materials with
      | some d => some d
      | none => List.lookup name m) :
    (mtlLine N fs filePath s rawLine).current = (mtlLine N fs filePath s0 rawLine).current ∧
    (mtlLine N fs filePath s rawLine).currentName =
      (mtlLine N fs filePath s0 rawLine).currentName ∧
    ∀ name, List.lookup name (mtlLine N fs filePath s rawLine).materials =
      match List.lookup name (mtlLine N fs filePath s0 rawLine).materials with
      | some d => some d
      | none => List.lookup name m := by
  unfold mtlLine
  dsimp only
  split
  · exact ⟨h1, h2, h3⟩
  · split
    · refine ⟨rfl, by dsimp only; rw [h2], ?_⟩
      intro name
      dsimp only
      rw [lookup_commitCurrent, lookup_commitCurrent, h1, h2, h3 name]
      split
      · rfl
      · rfl
    · split
      · exact ⟨by dsimp only; rw [h1], h2, h3⟩
      · split
        · exact ⟨by dsimp only; rw [h1], h2, h3⟩
        · split
          · exact ⟨by dsimp only; rw [h1], h2, h3⟩
          · exact ⟨h1, h2, h3⟩

theorem foldl_mtlLine_merge (fs : FileSystem) (filePath : List Char)
    (m : List (List Char × MaterialDefinition F)) (lines : List (List Char)) :
    ∀ (s s0 : MtlState F), s.current = s0.current → s.currentName = s0.currentName →
      (∀ name, List.lookup name s.materials =
        match List.lookup name s0.materials with
        | some d => some d
        | none => List.lookup name m) →
      ∀ name, List.lookup name (commitCurrent (lines.foldl (mtlLine N fs filePath) s)) =
        match List.lookup name (commitCurrent (lines.foldl (mtlLine N fs filePath) s0)) with
        | some d => some d
        | none => List.lookup name m := by
  induction lines with
  | nil =>
    intro s s0 h1 h2 h3 name
    rw [List.foldl_nil, List.foldl_nil, lookup_commitCurrent, lookup_commitCurrent, h1, h2,
      h3 name]
    split
    · rfl
    · rfl
  | cons line rest ih =>
    intro s s0 h1 h2 h3
    rw [List.foldl_cons, List.foldl_cons]
    obtain ⟨a, b, c⟩ := mtlLine_merge N fs filePath line m s s0 h1 h2 h3
    exact ih _ _ a b c

theorem ParseMtlFile_merge (fs : FileSystem) (filePath : List Char)
    (m : List (List Char × MaterialDefinition F)) (name : List Char) :
    List.lookup name (ParseMtlFile N fs filePath m) =
      match List.lookup name (ParseMtlFile N fs filePath []) with
      | some d => some d
      | none => List.lookup name m := by
  unfold ParseMtlFile
  cases fs.read filePath with
  | none => rfl
  | some text =>
    exact foldl_mtlLine_merge N fs filePath m (getlines text)
      { current := MaterialDefinition.init N, currentName := [], materials := m }
      { current := MaterialDefinition.init N, currentName := [], materials := [] }
      rfl rfl (fun _ => rfl) name

set_option maxRecDepth 100000 in

/-- C15 (the code at the failing input): `a.mtl` defines `A` with the diffuse colour `(0, 0, 1)`;
`b.mtl` is `newmtl A`, `Kd 1 0 0`, `newmtl`, `Ns 5`, whose only block named `A` sets the diffuse
colour `(1, 0, 0)` and keeps the shininess 32.  After `mtllib a.mtl b.mtl` the entry `A` is
neither: it has the default diffuse colour and the shininess 5 of the nameless block, which the
commit at the end of `b.mtl` stored under the stale name `A`.  An entry `B` that was in the
mapping before is kept. -/
theorem nameless_newmtl_breaks_merge :
    Except.map (fun st => st.materialLibrary)
        (processLine binary32 namelessFiles examplePath (ParseState.init binary32)
          "mtllib a.mtl b.mtl".toList) =
      .ok [("A".toList,
        { name := [], diffuseColor := V3.splat binary32.c08,
          shininess := F32.round false 5 1, diffuseTexture := [] })] ∧
    ParseMtlFile binary32 namelessFiles "a.mtl".toList [] =
      [("A".toList,
        { name := [], diffuseColor := pos32 0 0 1, shininess := binary32.c32,
          diffuseTexture := [] })] ∧
    ParseMtlFile binary32 (oneFile "b.mtl".toList "newmtl A\nKd 1 0 0\n".toList)
        "b.mtl".toList [] =
      [("A".toList,
        { name := [], diffuseColor := pos32 1 0 0, shininess := binary32.c32,
          diffuseTexture := [] })] ∧
    ParseMtlFile binary32 namelessFiles "b.mtl".toList
        [("B".toList, defaultMaterial binary32)] =
      [("A".toList,
        { name := [], diffuseColor := V3.splat binary32.c08,
          shininess := F32.round false 5 1, diffuseTexture := [] }),
       ("B".toList, defaultMaterial binary32)] ∧
    MtllibLine "mtllib a.mtl b.mtl".toList ["a.mtl".toList, "b.mtl".toList] := by
  decide

set_option maxRecDepth 100000 in

/-- C14 (the code at the failing input): in `newmtl A`, `Kd 1 0 0`, `newmtl`, `Ns 5` the second
`newmtl` has no name, the extraction `iss >> currentName` fails and leaves `currentName` at `A`,
and the commit at the end of the file overwrites the entry `A` with the block of the nameless
`newmtl`: default diffuse colour and shininess 5, where the only block named `A` sets the
diffuse colour `(1, 0, 0)` and keeps the shininess 32, as the same file without its last two
lines shows. -/
theorem nameless_newmtl_overwrites_entry :
    ParseMtlFile binary32 (oneFile "m.mtl".toList namelessMtl) "m.mtl".toList [] =
      [("A".toList,
        { name := [], diffuseColor := V3.splat binary32.c08,
          shininess := F32.round false 5 1, diffuseTexture := [] })] ∧
    ParseMtlFile binary32 (oneFile "m.mtl".toList "newmtl A\nKd 1 0 0\n".toList)
        "m.mtl".toList [] =
      [("A".toList,
        { name := [], diffuseColor := pos32 1 0 0, shininess := binary32.c32,
          diffuseTexture := [] })] ∧
    (mtlLine binary32 (oneFile "m.mtl".toList namelessMtl) "m.mtl".toList
      { current := MaterialDefinition.init binary32, currentName := "A".toList, materials := [] }
      "newmtl".toList).currentName = "A".toList := by
  decide

/-! ### Corner token forms -/

theorem digitChar_facts : ∀ k, k < 10 →
    isdigit (Nat.digitChar k) = true ∧ (Nat.digitChar k).toNat - 48 = k := by
  decide

theorem digitsValue_append (pre : List Char) (c : Char) :
    digitsValue (pre ++ [c]) = 10 * digitsValue pre + (c.toNat - 48) := by
  unfold digitsValue
  rw [List.foldl_append]
  rfl

theorem toDigitsCore_spec (fuel : Nat) :
    ∀ (n : Nat) (ds : List Char), n < fuel →
      ∃ pre, Nat.toDigitsCore 10 fuel n ds = pre ++ ds ∧ IsDigits pre ∧ digitsValue pre = n := by
  induction fuel with
  | zero => intro n ds h; omega
  | succ fuel ih =>
    intro n ds h
    obtain ⟨hd, hv⟩ := digitChar_facts (n % 10) (Nat.mod_lt _ (by decide))
    unfold Nat.toDigitsCore
    dsimp only
    split
    · rename_i h0
      refine ⟨[Nat.digitChar (n % 10)], rfl, ⟨by simp, ?_⟩, ?_⟩
      · intro c hc
        rw [List.mem_singleton] at hc
        rw [hc]; exact hd
      · have := digitsValue_append [] (Nat.digitChar (n % 10))
        rw [List.nil_append] at this
        rw [this, hv]
        have : digitsValue [] = 0 := rfl
        rw [this]
        omega
    · rename_i h0
      obtain ⟨pre, h1, ⟨_, h3⟩, h4⟩ := ih (n / 10) (Nat.digitChar (n % 10) :: ds) (by omega)
      refine ⟨pre ++ [Nat.digitChar (n % 10)], ?_, ⟨by simp, ?_⟩, ?_⟩
      · rw [h1, List.append_assoc]; rfl
      · intro c hc
        rw [List.mem_append, List.mem_singleton] at hc
        rcases hc with hc | hc
        · exact h3 c hc
        · rw [hc]; exact hd
      · rw [digitsValue_append, h4, hv]
        omega

theorem toDigits_spec (n : Nat) : IsDigits (Nat.toDigits 10 n) ∧ digitsValue (Nat.toDigits 10 n) = n := by
  obtain ⟨pre, h1, h2, h3⟩ := toDigitsCore_spec (n + 1) n [] (by omega)
  rw [List.append_nil] at h1
  unfold Nat.toDigits
  rw [h1]
  exact ⟨h2, h3⟩

theorem takeWhile_digits (ds rest : List Char) (hds : ∀ c ∈ ds, isdigit c = true)
    (hrest : ∀ c, rest.head? = some c → isdigit c = false) :
    (ds ++ rest).takeWhile isdigit = ds := by
  induction ds with
  | nil =>
    cases rest with
    | nil => rfl
    | cons c r =>
      rw [List.nil_append, List.takeWhile_cons, hrest c rfl]
      rfl
  | cons d ds ih =>
    rw [List.cons_append, List.takeWhile_cons, hds d (List.mem_cons_self _ _)]
    rw [ih (fun c hc => hds c (List.mem_cons_of_mem _ hc))]
    rfl

theorem digit_facts (c : Char) (h : isdigit c = true) :
    isspace c = false ∧ c ≠ '-' ∧ c ≠ '+' ∧ c ≠ '/' := by
  have hne : ∀ x : Char, isdigit x = false → c ≠ x := by
    intro x hx he
    rw [he, hx] at h
    cases h
  refine ⟨?_, hne _ (by decide), hne _ (by decide), hne _ (by decide)⟩
  unfold isspace
  simp [hne ' ' (by decide), hne (Char.ofNat 9) (by decide), hne (Char.ofNat 10) (by decide),
    hne (Char.ofNat 11) (by decide), hne (Char.ofNat 12) (by decide),
    hne (Char.ofNat 13) (by decide)]

theorem stoi_sign_digit (d : Char) (tail : List Char) (h2 : d ≠ '-') (h3 : d ≠ '+') :
    stoi.match_1 (fun _ => Bool × List Char) (d :: tail) (fun r => (true, r))
      (fun r => (false, r)) (fun _ => (false, d :: tail)) = (false, d :: tail) := by
  split
  · rename_i heq
    exact absurd (List.cons.inj heq).1 h2
  · rename_i heq
    exact absurd (List.cons.inj heq).1 h3
  · rfl

theorem stoi_sign_minus (tail : List Char) :
    stoi.match_1 (fun _ => Bool × List Char) ('-' :: tail) (fun r => (true, r))
      (fun r => (false, r)) (fun _ => (false, '-' :: tail)) = (true, tail) := rfl

theorem stoi_digits (ds rest : List Char) (hds : IsDigits ds)
    (hrest : ∀ c, rest.head? = some c → isdigit c = false)
    (hfit : (digitsValue ds : Int) ≤ 2147483647) :
    stoi (ds ++ rest) = .ok (digitsValue ds : Int) := by
  obtain ⟨hne, hall⟩ := hds
  cases ds with
  | nil => exact absurd rfl hne
  | cons d ds1 =>
    obtain ⟨h1, h2, h3, _⟩ := digit_facts d (hall d (List.mem_cons_self _ _))
    have htake := takeWhile_digits (d :: ds1) rest hall hrest
    have hdrop : ((d :: ds1) ++ rest).dropWhile isspace = d :: (ds1 ++ rest) := by
      rw [List.cons_append, List.dropWhile_cons, h1]
      rfl
    unfold stoi
    dsimp only
    rw [hdrop, stoi_sign_digit d (ds1 ++ rest) h2 h3]
    dsimp only
    rw [← List.cons_append, htake, if_neg (by simp)]
    rw [if_neg (by decide : ¬(false = true))]
    rw [if_neg (by omega)]

theorem stoi_minus_digits (ds rest : List Char) (hds : IsDigits ds)
    (hrest : ∀ c, rest.head? = some c → isdigit c = false)
    (hfit : (digitsValue ds : Int) ≤ 2147483648) :
    stoi ('-' :: (ds ++ rest)) = .ok (-(digitsValue ds : Int)) := by
  obtain ⟨hne, hall⟩ := hds
  have htake := takeWhile_digits ds rest hall hrest
  have hdrop : ('-' :: (ds ++ rest)).dropWhile isspace = '-' :: (ds ++ rest) := by
    rw [List.dropWhile_cons]
    rfl
  unfold stoi
  dsimp only
  rw [hdrop, stoi_sign_minus]
  dsimp only
  rw [htake, if_neg hne]
  rw [if_pos rfl]
  rw [if_neg (by omega)]

theorem stoi_decimal (z : Int) (rest : List Char) (hz : IsInt32 z)
    (hrest : ∀ c, rest.head? = some c → isdigit c = false) :
    stoi (decimal z ++ rest) = .ok z := by
  unfold IsInt32 at hz
  cases z with
  | ofNat n =>
    obtain ⟨h1, h2⟩ := toDigits_spec n
    have := stoi_digits (Nat.toDigits 10 n) rest h1 hrest (by rw [h2]; exact hz.2)
    rw [h2] at this
    exact this
  | negSucc n =>
    obtain ⟨h1, h2⟩ := toDigits_spec (n + 1)
    have h3 : Int.negSucc n = -((n + 1 : Nat) : Int) := rfl
    have := stoi_minus_digits (Nat.toDigits 10 (n + 1)) rest h1 hrest
      (by rw [h2]; rw [h3] at hz; omega)
    rw [h2] at this
    rw [h3]
    exact this

theorem indexOf?_none (l : List Char) (ch : Char) (h : ∀ c ∈ l, c ≠ ch) :
    l.indexOf? ch = none := by
  unfold List.indexOf?
  rw [List.findIdx?_eq_none_iff]
  intro c hc
  simpa using h c hc

theorem indexOf?_append (pre rest : List Char) (ch : Char) (h : ∀ c ∈ pre, c ≠ ch) :
    (pre ++ ch :: rest).indexOf? ch = some pre.length := by
  unfold List.indexOf?
  induction pre with
  | nil => simp [List.findIdx?_cons]
  | cons d pre ih =>
    have hd : (d == ch) = false := by simpa using h d (List.mem_cons_self _ _)
    rw [List.cons_append, List.findIdx?_cons, hd]
    simp only [Bool.false_eq_true, if_false]
    rw [List.findIdx?_succ, ih (fun c hc => h c (List.mem_cons_of_mem _ hc))]
    rfl

theorem drop_after_slash (a r : List Char) : (a ++ '/' :: r).drop (a.length + 1) = r := by
  rw [← List.drop_drop, List.drop_left]
  rfl

theorem find_first_slash (a r : List Char) (ha : ∀ c ∈ a, c ≠ '/') :
    find (a ++ '/' :: r) '/' 0 = some a.length := by
  unfold find
  rw [List.drop_zero, indexOf?_append a r '/' ha]
  dsimp only
  rw [Nat.zero_add]

theorem find_no_slash (a : List Char) (ha : ∀ c ∈ a, c ≠ '/') : find a '/' 0 = none := by
  unfold find
  rw [List.drop_zero, indexOf?_none a '/' ha]

theorem find_second_none (a r : List Char) (hr : ∀ c ∈ r, c ≠ '/') :
    find (a ++ '/' :: r) '/' (a.length + 1) = none := by
  unfold find
  rw [drop_after_slash, indexOf?_none r '/' hr]

theorem find_second_some (a b r : List Char) (hb : ∀ c ∈ b, c ≠ '/') :
    find (a ++ '/' :: (b ++ '/' :: r)) '/' (a.length + 1) = some (a.length + 1 + b.length) := by
  unfold find
  rw [drop_after_slash, indexOf?_append b r '/' hb]

theorem substr_prefix (a r : List Char) : substr (a ++ r) 0 a.length = a := by
  unfold substr
  rw [List.drop_zero, List.take_left]

theorem substr_middle (a b r : List Char) :
    substr (a ++ '/' :: (b ++ r)) (a.length + 1) b.length = b := by
  unfold substr
  rw [drop_after_slash, List.take_left]

theorem decimal_no_slash (z : Int) : ∀ c ∈ decimal z, c ≠ '/' := by
  intro c hc
  cases z with
  | ofNat n =>
    exact (digit_facts c ((toDigits_spec n).1.2 c hc)).2.2.2
  | negSucc n =>
    rcases List.mem_cons.mp hc with h | h
    · rw [h]; decide
    · exact (digit_facts c ((toDigits_spec (n + 1)).1.2 c h)).2.2.2

theorem decimal_ne_nil (z : Int) : decimal z ≠ [] := by
  cases z with
  | ofNat n => exact (toDigits_spec n).1.1
  | negSucc n => exact List.cons_ne_nil _ _

theorem stoi_decimal_self (z : Int) (hz : IsInt32 z) : stoi (decimal z) = .ok z := by
  have := stoi_decimal z [] hz (fun c h => by cases h)
  rw [List.append_nil] at this
  exact this

theorem stoi_decimal_slash (z : Int) (r : List Char) (hz : IsInt32 z) :
    stoi (decimal z ++ '/' :: r) = .ok z :=
  stoi_decimal z ('/' :: r) hz (fun c h => by
    rw [List.head?_cons] at h
    rw [← Option.some.inj h]
    decide)

theorem ParseFaceToken_v (v : Int) (hv : IsInt32 v) :
    ParseFaceToken (decimal v) = .ok (true, v, 0, 0) := by
  unfold ParseFaceToken
  rw [find_no_slash _ (decimal_no_slash v)]
  dsimp only
  rw [stoi_decimal_self v hv]
  rfl

theorem ParseFaceToken_v_t (v t : Int) (hv : IsInt32 v) (ht : IsInt32 t) :
    ParseFaceToken (decimal v ++ '/' :: decimal t) = .ok (true, v, t, 0) := by
  unfold ParseFaceToken
  rw [find_first_slash _ _ (decimal_no_slash v)]
  dsimp only
  rw [find_second_none _ _ (decimal_no_slash t), substr_prefix, stoi_decimal_self v hv, ok_bind]
  dsimp only
  have hlen : (decimal v).length + 1 < (decimal v ++ '/' :: decimal t).length := by
    have := List.length_pos.mpr (decimal_ne_nil t)
    rw [List.length_append, List.length_cons]
    omega
  rw [if_pos hlen, drop_after_slash, stoi_decimal_self t ht]
  rfl

theorem ParseFaceToken_v_slash (v : Int) (hv : IsInt32 v) :
    ParseFaceToken (decimal v ++ ['/']) = .ok (true, v, 0, 0) := by
  unfold ParseFaceToken
  rw [find_first_slash _ _ (decimal_no_slash v)]
  dsimp only
  rw [find_second_none _ _ (fun c h => by cases h), substr_prefix, stoi_decimal_self v hv,
    ok_bind]
  dsimp only
  have hlen : ¬((decimal v).length + 1 < (decimal v ++ ['/']).length) := by
    rw [List.length_append, List.length_singleton]
    omega
  rw [if_neg hlen]
  rfl

theorem ParseFaceToken_v_t_n (v t n : Int) (hv : IsInt32 v) (ht : IsInt32 t) (hn : IsInt32 n) :
    ParseFaceToken (decimal v ++ '/' :: (decimal t ++ '/' :: decimal n)) =
      .ok (true, v, t, n) := by
  have hpos := List.length_pos.mpr (decimal_ne_nil t)
  have hposn := List.length_pos.mpr (decimal_ne_nil n)
  unfold ParseFaceToken
  rw [find_first_slash _ _ (decimal_no_slash v)]
  dsimp only
  rw [find_second_some _ _ _ (decimal_no_slash t), substr_prefix, stoi_decimal_self v hv,
    ok_bind]
  dsimp only
  have h1 : (decimal v).length + 1 + (decimal t).length > (decimal v).length + 1 := by omega
  have h2 : (decimal v).length + 1 + (decimal t).length + 1 <
      (decimal v ++ '/' :: (decimal t ++ '/' :: decimal n)).length := by
    simp only [List.length_append, List.length_cons]
    omega
  have h3 : (decimal v).length + 1 + (decimal t).length - (decimal v).length - 1 =
      (decimal t).length := by omega
  have h4 : List.drop ((decimal v).length + 1 + (decimal t).length + 1)
      (decimal v ++ '/' :: (decimal t ++ '/' :: decimal n)) = decimal n := by
    rw [Nat.add_assoc ((decimal v).length + 1), ← List.drop_drop, drop_after_slash,
      drop_after_slash]
  rw [if_pos h1, h3, substr_middle, stoi_decimal_self t ht, ok_bind]
  rw [if_pos h2, h4, stoi_decimal_self n hn]
  rfl

theorem ParseFaceToken_v_n (v n : Int) (hv : IsInt32 v) (hn : IsInt32 n) :
    ParseFaceToken (decimal v ++ '/' :: '/' :: decimal n) = .ok (true, v, 0, n) := by
  have hposn := List.length_pos.mpr (decimal_ne_nil n)
  have hs := find_second_some (decimal v) [] (decimal n) (fun c h => by cases h)
  rw [List.nil_append, List.length_nil, Nat.add_zero] at hs
  unfold ParseFaceToken
  rw [find_first_slash _ _ (decimal_no_slash v)]
  dsimp only
  rw [hs, substr_prefix, stoi_decimal_self v hv, ok_bind]
  dsimp only
  have h1 : ¬((decimal v).length + 1 > (decimal v).length + 1) := by omega
  have h2 : (decimal v).length + 1 + 1 < (decimal v ++ '/' :: '/' :: decimal n).length := by
    simp only [List.length_append, List.length_cons]
    omega
  have h4 : List.drop ((decimal v).length + 1 + 1) (decimal v ++ '/' :: '/' :: decimal n) =
      decimal n := by
    rw [← List.drop_drop, drop_after_slash]
    rfl
  rw [if_neg h1, pure_bind, if_pos h2, h4, stoi_decimal_self n hn]
  rfl

theorem ParseFaceToken_v_slash_slash (v : Int) (hv : IsInt32 v) :
    ParseFaceToken (decimal v ++ ['/', '/']) = .ok (true, v, 0, 0) := by
  have hs := find_second_some (decimal v) [] [] (fun c h => by cases h)
  rw [List.nil_append, List.length_nil, Nat.add_zero] at hs
  unfold ParseFaceToken
  rw [find_first_slash _ _ (decimal_no_slash v)]
  dsimp only
  rw [hs, substr_prefix, stoi_decimal_self v hv, ok_bind]
  dsimp only
  have h1 : ¬((decimal v).length + 1 > (decimal v).length + 1) := by omega
  have h2 : ¬((decimal v).length + 1 + 1 < (decimal v ++ ['/', '/']).length) := by
    simp only [List.length_append, List.length_cons, List.length_nil]
    omega
  rw [if_neg h1, pure_bind, if_neg h2]
  rfl

/-- C23 (as amended): for all integers `v`, `t`, `n` in the range of `int`, written in decimal,
`ParseFaceToken` yields `(v, 0, 0)` for the token `v`, `(v, t, 0)` for `v/t`, `(v, t, n)` for
`v/t/n`, `(v, 0, n)` for `v//n`, and `(v, 0, 0)` for `v/` and for `v//`; it returns `true`. -/
theorem corner_token_forms (v t n : Int) (hv : IsInt32 v) (ht : IsInt32 t) (hn : IsInt32 n) :
    ParseFaceToken (decimal v) = .ok (true, v, 0, 0) ∧
    ParseFaceToken (decimal v ++ '/' :: decimal t) = .ok (true, v, t, 0) ∧
    ParseFaceToken (decimal v ++ '/' :: (decimal t ++ '/' :: decimal n)) =
      .ok (true, v, t, n) ∧
    ParseFaceToken (decimal v ++ '/' :: '/' :: decimal n) = .ok (true, v, 0, n) ∧
    ParseFaceToken (decimal v ++ ['/']) = .ok (true, v, 0, 0) ∧
    ParseFaceToken (decimal v ++ ['/', '/']) = .ok (true, v, 0, 0) :=
  ⟨ParseFaceToken_v v hv, ParseFaceToken_v_t v t hv ht, ParseFaceToken_v_t_n v t n hv ht hn,
   ParseFaceToken_v_n v n hv hn, ParseFaceToken_v_slash v hv,
   ParseFaceToken_v_slash_slash v hv⟩

/-- Witness of C23: the tokens `-12`, `-12/5`, `-12/5/7`, `-12//7`, `-12/` and `-12//`. -/
theorem corner_token_forms_witness :
    decimal (-12) ++ '/' :: (decimal 5 ++ '/' :: decimal 7) = "-12/5/7".toList ∧
    IsInt32 (-12) ∧ IsInt32 5 ∧ IsInt32 7 ∧
    (ParseFaceToken (decimal (-12)) = .ok (true, -12, 0, 0) ∧
    ParseFaceToken (decimal (-12) ++ '/' :: decimal 5) = .ok (true, -12, 5, 0) ∧
    ParseFaceToken (decimal (-12) ++ '/' :: (decimal 5 ++ '/' :: decimal 7)) =
      .ok (true, -12, 5, 7) ∧
    ParseFaceToken (decimal (-12) ++ '/' :: '/' :: decimal 7) = .ok (true, -12, 0, 7) ∧
    ParseFaceToken (decimal (-12) ++ ['/']) = .ok (true, -12, 0, 0) ∧
    ParseFaceToken (decimal (-12) ++ ['/', '/']) = .ok (true, -12, 0, 0)) :=
  ⟨by decide, by decide, by decide, by decide,
   corner_token_forms (-12) 5 7 (by decide) (by decide) (by decide)⟩

/-- C23 as stated fails: the integer `2147483648`, written in decimal, is a corner token for
which `ParseFaceToken` yields no triple: `std::stoi` throws `std::out_of_range`; likewise for
the texture field of `1/2147483648`. -/
theorem corner_token_beyond_int :
    decimal 2147483648 = "2147483648".toList ∧
    ParseFaceToken (decimal 2147483648) = .error Fault.out_of_range ∧
    ParseFaceToken (decimal 1 ++ '/' :: decimal 2147483648) = .error Fault.out_of_range ∧
    ParseFaceToken (decimal (-2147483649)) = .error Fault.out_of_range := by
  decide

/-! ### Draw calls of the model -/

theorem drawStep_key (tl : TextureLoader) (acc : List (MeshDrawCall F) × TextureState)
    (c : MeshChunk F) (hc : c.indexCount ≠ 0) :
    (drawStep tl acc c).1.map drawKey = acc.1.map drawKey ++ [chunkKey c] := by
  unfold drawStep
  rw [if_neg hc]
  dsimp only
  split
  · split
    · rw [List.map_append]; rfl
    · rw [List.map_append]; rfl
  · rw [List.map_append]; rfl

theorem foldl_drawStep_key (tl : TextureLoader) (chunks : List (MeshChunk F)) :
    ∀ acc : List (MeshDrawCall F) × TextureState, (∀ c ∈ chunks, c.indexCount ≠ 0) →
      (chunks.foldl (drawStep tl) acc).1.map drawKey =
        acc.1.map drawKey ++ chunks.map chunkKey := by
  induction chunks with
  | nil =>
    intro acc _
    rw [List.foldl_nil, List.map_nil, List.append_nil]
  | cons c rest ih =>
    intro acc h
    rw [List.foldl_cons, ih _ (fun d hd => h d (List.mem_cons_of_mem _ hd)),
      drawStep_key tl acc c (h c (List.mem_cons_self _ _)), List.append_assoc]
    rfl

/-- C24: when `Model::LoadFromObj` gets past its empty-geometry check, the chunk list of the
mesh is not empty and no chunk has `indexCount` 0; the call returns `true` and the draw list is
the one the loop over the chunks builds, with exactly one entry per chunk, in chunk order, with
the chunk's `startIndex`, `indexCount`, `diffuseColor` and `shininess`; the loop does not leave
the draw list empty, so the fallback draw is not added.  The index buffer fits the `uint32_t`
field `indexCount`. -/
theorem one_draw_per_chunk (fs : FileSystem) (tl : TextureLoader) (self : Model F)
    (objPath : List Char) (mesh : ObjMesh F)
    (hload : LoadObjMesh N fs objPath = .ok (some mesh))
    (hv : mesh.vertices ≠ []) (hi : mesh.indices ≠ [])
    (hfit : mesh.indices.length < 4294967296) :
    mesh.chunks ≠ [] ∧ (∀ c ∈ mesh.chunks, c.indexCount ≠ 0) ∧
    (drawLoop tl mesh.chunks).1 ≠ [] ∧
    ∃ model, LoadFromObj N fs tl self objPath = .ok (true, model) ∧
      model.draws = (drawLoop tl mesh.chunks).1 ∧
      model.draws.map drawKey = mesh.chunks.map chunkKey ∧
      model.draws.length = mesh.chunks.length ∧
      model.indexCount = mesh.indices.length := by
  obtain ⟨text, st, _, hp, _, hidx, hc⟩ := LoadObjMesh_ok N fs objPath mesh hload
  have hinv := chunkInv_processLines N fs objPath _ _ _ hp (chunkInv_init N)
    (by rw [← hidx]; exact hfit)
  have hpart := partitionFrom_closeChunks st hinv
  rw [← hc, ← hidx] at hpart
  have hpos := partitionFrom_pos _ _ _ hpart
  have hsum := partitionFrom_sum _ _ _ hpart
  have hne : mesh.chunks ≠ [] := by
    intro he
    rw [he] at hsum
    have : mesh.indices.length = 0 := by simpa using hsum.symm
    exact hi (List.length_eq_zero.mp this)
  have hnz : ∀ c ∈ mesh.chunks, c.indexCount ≠ 0 := fun c hc => Nat.pos_iff_ne_zero.mp (hpos c hc)
  have hkey : (drawLoop tl mesh.chunks).1.map drawKey = mesh.chunks.map chunkKey := by
    unfold drawLoop
    rw [foldl_drawStep_key tl mesh.chunks _ hnz]
    rfl
  have hlen : (drawLoop tl mesh.chunks).1.length = mesh.chunks.length := by
    have := congrArg List.length hkey
    rw [List.length_map, List.length_map] at this
    exact this
  have hdraws : (drawLoop tl mesh.chunks).1 ≠ [] := by
    intro he
    rw [he] at hlen
    exact hne (List.length_eq_zero.mp hlen.symm)
  refine ⟨hne, hnz, hdraws, ⟨(drawLoop tl mesh.chunks).1, (drawLoop tl mesh.chunks).2.textures,
    mesh.indices.length⟩, ?_, rfl, hkey, hlen, rfl⟩
  have hempty : ¬(mesh.vertices.isEmpty = true ∨ mesh.indices.isEmpty = true) := by
    intro h
    rcases h with h | h
    · exact hv (List.isEmpty_iff.mp h)
    · exact hi (List.isEmpty_iff.mp h)
  have hdr : (drawLoop tl mesh.chunks).1.isEmpty = false := by
    cases hd : (drawLoop tl mesh.chunks).1 with
    | nil => exact absurd hd hdraws
    | cons _ _ => rfl
  unfold LoadFromObj
  rw [hload, ok_bind]
  dsimp only
  rw [if_neg hempty]
  unfold drawLoop at hdr ⊢
  rw [hdr]
  rfl

set_option maxRecDepth 100000 in

/-- Witness of C24: the two chunks of `twoMaterialSource` give the two draws `[0, 3)` and
`[3, 9)`. -/
theorem one_draw_per_chunk_witness :
    (okOr (false, emptyModel) (LoadFromObj binary32 (oneFile examplePath twoMaterialSource)
      noTextures emptyModel examplePath)).2.draws.map (fun d => (d.startIndex, d.indexCount)) =
      [(0, 3), (3, 6)] ∧
    (twoMaterialMesh.chunks ≠ [] ∧ (∀ c ∈ twoMaterialMesh.chunks, c.indexCount ≠ 0) ∧
    (drawLoop noTextures twoMaterialMesh.chunks).1 ≠ [] ∧
    ∃ model, LoadFromObj binary32 (oneFile examplePath twoMaterialSource) noTextures emptyModel
        examplePath = .ok (true, model) ∧
      model.draws = (drawLoop noTextures twoMaterialMesh.chunks).1 ∧
      model.draws.map drawKey = twoMaterialMesh.chunks.map chunkKey ∧
      model.draws.length = twoMaterialMesh.chunks.length ∧
      model.indexCount = twoMaterialMesh.indices.length) :=
  ⟨by decide,
   one_draw_per_chunk binary32 (oneFile examplePath twoMaterialSource) noTextures emptyModel
    examplePath twoMaterialMesh (by decide) (by decide) (by decide) (by decide)⟩

/-! ### The name field of a material -/

theorem mem_assign (ms : List (List Char × MaterialDefinition F)) (k : List Char)
    (d : MaterialDefinition F) (e : List Char × MaterialDefinition F)
    (h : e ∈ assign ms k d) : e = (k, d) ∨ e ∈ ms := by
  unfold assign at h
  rcases List.mem_cons.mp h with h | h
  · exact Or.inl h
  · exact Or.inr (List.mem_filter.mp h).1

theorem mem_commitCurrent (s : MtlState F) (e : List Char × MaterialDefinition F)
    (h : e ∈ commitCurrent s) :
    (e = (s.currentName, s.current) ∧ s.currentName ≠ []) ∨ e ∈ s.materials := by
  unfold commitCurrent at h
  split at h
  · rename_i hne
    rcases mem_assign _ _ _ _ h with h | h
    · exact Or.inl ⟨h, hne⟩
    · exact Or.inr h
  · exact Or.inr h

theorem mtlLine_names (fs : FileSystem) (filePath rawLine : List Char)
    (m : List (List Char × MaterialDefinition F)) (s : MtlState F)
    (h1 : s.current.name = [])
    (h2 : ∀ e ∈ s.materials, e ∈ m ∨ (e.2.name = [] ∧ e.1 ≠ [])) :
    (mtlLine N fs filePath s rawLine).current.name = [] ∧
    ∀ e ∈ (mtlLine N fs filePath s rawLine).materials, e ∈ m ∨ (e.2.name = [] ∧ e.1 ≠ []) := by
  unfold mtlLine
  dsimp only
  split
  · exact ⟨h1, h2⟩
  · split
    · refine ⟨rfl, ?_⟩
      intro e he
      rcases mem_commitCurrent s e he with ⟨h, hne⟩ | h
      · right
        rw [h]
        exact ⟨h1, hne⟩
      · exact h2 e h
    · split
      · exact ⟨h1, h2⟩
      · split
        · exact ⟨h1, h2⟩
        · split
          · exact ⟨h1, h2⟩
          · exact ⟨h1, h2⟩

theorem foldl_mtlLine_names (fs : FileSystem) (filePath : List Char)
    (m : List (List Char × MaterialDefinition F)) (lines : List (List Char)) :
    ∀ s : MtlState F, s.current.name = [] →
      (∀ e ∈ s.materials, e ∈ m ∨ (e.2.name = [] ∧ e.1 ≠ [])) →
      (lines.foldl (mtlLine N fs filePath) s).current.name = [] ∧
      ∀ e ∈ (lines.foldl (mtlLine N fs filePath) s).materials,
        e ∈ m ∨ (e.2.name = [] ∧ e.1 ≠ []) := by
  induction lines with
  | nil => intro s h1 h2; exact ⟨h1, h2⟩
  | cons line rest ih =>
    intro s h1 h2
    rw [List.foldl_cons]
    obtain ⟨a, b⟩ := mtlLine_names N fs filePath line m s h1 h2
    exact ih _ a b

theorem ParseMtlFile_names (fs : FileSystem) (filePath : List Char)
    (m : List (List Char × MaterialDefinition F)) (e : List Char × MaterialDefinition F)
    (h : e ∈ ParseMtlFile N fs filePath m) : e ∈ m ∨ (e.2.name = [] ∧ e.1 ≠ []) := by
  unfold ParseMtlFile at h
  cases hr : fs.read filePath with
  | none =>
    rw [hr] at h
    exact Or.inl h
  | some text =>
    rw [hr] at h
    dsimp only at h
    obtain ⟨a, b⟩ := foldl_mtlLine_names N fs filePath m (getlines text)
      { current := MaterialDefinition.init N, currentName := [], materials := m }
      rfl (fun e he => Or.inl he)
    rcases mem_commitCurrent _ e h with ⟨h, hne⟩ | h
    · right
      rw [h]
      exact ⟨a, hne⟩
    · exact b e h

theorem loadLibraries_names (fs : FileSystem) (objPath : List Char)
    (files : List (List Char)) :
    ∀ m : List (List Char × MaterialDefinition F), NamesEmpty m →
      NamesEmpty (loadLibraries N fs objPath files m) := by
  induction files with
  | nil => intro m h; exact h
  | cons f rest ih =>
    intro m h
    unfold loadLibraries
    rw [List.foldl_cons]
    apply ih
    intro e he
    rcases ParseMtlFile_names N fs _ m e he with h1 | h1
    · exact h e h1
    · exact h1

theorem mem_of_lookup_name (name : List Char) (d : MaterialDefinition F)
    (ms : List (List Char × MaterialDefinition F)) (h : List.lookup name ms = some d) :
    (name, d) ∈ ms := by
  induction ms with
  | nil => cases h
  | cons e rest ih =>
    obtain ⟨key, v⟩ := e
    rw [lookup_name_cons] at h
    split at h
    · rename_i hk
      rw [← hk, Option.some.inj h]
      exact List.mem_cons_self _ _
    · exact List.mem_cons_of_mem _ (ih h)

theorem ResolveMaterial_name (name : List Char)
    (library : List (List Char × MaterialDefinition F)) (h : NamesEmpty library) :
    (ResolveMaterial name library (defaultMaterial N)).name =
      if (List.lookup name library).isSome then [] else "default".toList := by
  unfold ResolveMaterial
  cases hl : List.lookup name library with
  | none => rfl
  | some d => exact (h _ (mem_of_lookup_name name d library hl)).1

theorem nameInv_useMaterial (st : ParseState F) (materialName : List Char)
    (h : NameInv st) : NameInv (useMaterial N st materialName) := by
  obtain ⟨h1, h2, h3⟩ := h
  have hres := ResolveMaterial_name N materialName st.materialLibrary h1
  have hnew : (ResolveMaterial materialName st.materialLibrary (defaultMaterial N)).name =
      "default".toList ∨
      (ResolveMaterial materialName st.materialLibrary (defaultMaterial N)).name = [] := by
    rw [hres]
    split
    · exact Or.inr rfl
    · exact Or.inl rfl
  unfold useMaterial
  split
  · dsimp only
    split
    · refine ⟨h1, ?_, hnew⟩
      intro c hc
      rcases List.mem_append.mp hc with hc | hc
      · exact h2 c hc
      · rw [List.mem_singleton.mp hc]
        exact h3
    · exact ⟨h1, h2, hnew⟩
  · exact ⟨h1, h2, h3⟩

theorem nameInv_processLine (fs : FileSystem) (objPath : List Char) (st st1 : ParseState F)
    (rawLine : List Char) (h : processLine N fs objPath st rawLine = .ok st1)
    (hinv : NameInv st) : NameInv st1 := by
  have hkeep : ∀ s : ParseState F, Except.ok s = Except.ok (ε := Fault) st1 →
      s.materialLibrary = st.materialLibrary → s.chunks = st.chunks →
      s.currentChunk = st.currentChunk → NameInv st1 := by
    intro s e e1 e2 e3
    have e := Except.ok.inj e
    subst e
    unfold NameInv
    rw [e1, e2, e3]
    exact hinv
  unfold processLine at h
  dsimp only at h
  split at h
  · exact hkeep _ h rfl rfl rfl
  · split at h
    · exact hkeep _ h rfl rfl rfl
    · split at h
      · exact hkeep _ h rfl rfl rfl
      · split at h
        · exact hkeep _ h rfl rfl rfl
        · split at h
          · rw [← Except.ok.inj h]
            exact ⟨loadLibraries_names N fs objPath _ _ hinv.1, hinv.2.1, hinv.2.2⟩
          · split at h
            · rw [← Except.ok.inj h]
              exact nameInv_useMaterial N st _ hinv
            · split at h
              · obtain ⟨⟨_, _, _, f4, f5, _, _, f8⟩, _⟩ := processFace_counts N st st1 _ h
                unfold NameInv
                rw [f4, f5, f8]
                exact hinv
              · exact hkeep _ h rfl rfl rfl

theorem nameInv_processLines (fs : FileSystem) (objPath : List Char)
    (lines : List (List Char)) :
    ∀ st st1 : ParseState F, processLines N fs objPath lines st = .ok st1 → NameInv st →
      NameInv st1 := by
  induction lines with
  | nil =>
    intro st st1 h hinv
    rw [processLines] at h
    rw [← Except.ok.inj h]
    exact hinv
  | cons line rest ih =>
    intro st st1 h hinv
    rw [processLines] at h
    cases hl : processLine N fs objPath st line with
    | error e => rw [hl] at h; cases h
    | ok s =>
      rw [hl] at h
      exact ih s st1 h (nameInv_processLine N fs objPath st s line hl hinv)

theorem nameInv_init : NameInv (ParseState.init N) := by
  refine ⟨?_, ?_, Or.inl rfl⟩
  · intro e he
    cases he
  · intro c hc
    cases hc

/-- C22 (as amended): every entry `ParseMtlFile` adds to the mapping has an empty `name` field
(and a key that is not empty); hence the material of every chunk of a returned mesh has the name
`default` or the empty name; and after a `usemtl M` that switches the material the name of the
active chunk's material is `M` only when `M` is `default` and the library has no entry under
it. -/
theorem material_name_field (fs : FileSystem) (objPath : List Char) (mesh : ObjMesh F)
    (hload : LoadObjMesh N fs objPath = .ok (some mesh)) :
    (∀ (filePath : List Char) (m : List (List Char × MaterialDefinition F))
        (e : List Char × MaterialDefinition F),
      e ∈ ParseMtlFile N fs filePath m → e ∈ m ∨ (e.2.name = [] ∧ e.1 ≠ [])) ∧
    (∀ c ∈ mesh.chunks, c.material.name = "default".toList ∨ c.material.name = []) ∧
    (∀ (lines : List (List Char)) (st : ParseState F) (rawLine materialName : List Char),
      processLines N fs objPath lines (ParseState.init N) = .ok st →
      UsemtlLine rawLine materialName → materialName ≠ st.currentMaterialName →
      ∃ st1, processLine N fs objPath st rawLine = .ok st1 ∧
        st1.currentChunk.material.name =
          (if (List.lookup materialName st.materialLibrary).isSome then []
           else "default".toList) ∧
        (st1.currentChunk.material.name = materialName ↔
          (materialName = "default".toList ∧
            List.lookup materialName st.materialLibrary = none))) := by
  refine ⟨ParseMtlFile_names N fs, ?_, ?_⟩
  · obtain ⟨text, st, _, hp, _, _, hc⟩ := LoadObjMesh_ok N fs objPath mesh hload
    obtain ⟨_, h2, h3⟩ := nameInv_processLines N fs objPath _ _ st hp (nameInv_init N)
    intro c hcm
    rw [hc] at hcm
    unfold closeChunks at hcm
    split at hcm
    · rcases List.mem_append.mp hcm with hcm | hcm
      · exact h2 c hcm
      · rw [List.mem_singleton.mp hcm]
        exact h3
    · exact h2 c hcm
  · intro lines st rawLine materialName hp hline hne
    obtain ⟨h1, _, _⟩ := nameInv_processLines N fs objPath _ _ st hp (nameInv_init N)
    have hname : (useMaterial N st materialName).currentChunk.material.name =
        if (List.lookup materialName st.materialLibrary).isSome then []
        else "default".toList := by
      rw [useMaterial_material N st materialName hne]
      exact ResolveMaterial_name N materialName st.materialLibrary h1
    refine ⟨useMaterial N st materialName,
      processLine_usemtl N fs objPath st rawLine materialName hline, hname, ?_⟩
    rw [hname]
    cases hl : List.lookup materialName st.materialLibrary with
    | none =>
      constructor
      · intro h
        exact ⟨h.symm, rfl⟩
      · intro h
        exact h.1.symm
    | some d =>
      have hkey := (h1 _ (mem_of_lookup_name materialName d _ hl)).2
      constructor
      · intro h
        exact absurd h.symm hkey
      · intro h
        cases h.2

set_option maxRecDepth 100000 in

/-- Witness of C22: in the material example the chunk of `usemtl red` has the empty name of the
library entry and the chunk of `usemtl missing` has the name `default`. -/
theorem material_name_field_witness :
    (meshOf (LoadObjMesh binary32 materialFiles examplePath)).chunks.map
      (fun c => c.material.name) = [[], "default".toList] ∧
    ((∀ (filePath : List Char) (m : List (List Char × MaterialDefinition F32))
        (e : List Char × MaterialDefinition F32),
      e ∈ ParseMtlFile binary32 materialFiles filePath m →
        e ∈ m ∨ (e.2.name = [] ∧ e.1 ≠ [])) ∧
    (∀ c ∈ (meshOf (LoadObjMesh binary32 materialFiles examplePath)).chunks,
      c.material.name = "default".toList ∨ c.material.name = []) ∧
    (∀ (lines : List (List Char)) (st : ParseState F32) (rawLine materialName : List Char),
      processLines binary32 materialFiles examplePath lines (ParseState.init binary32) =
        .ok st →
      UsemtlLine rawLine materialName → materialName ≠ st.currentMaterialName →
      ∃ st1, processLine binary32 materialFiles examplePath st rawLine = .ok st1 ∧
        st1.currentChunk.material.name =
          (if (List.lookup materialName st.materialLibrary).isSome then []
           else "default".toList) ∧
        (st1.currentChunk.material.name = materialName ↔
          (materialName = "default".toList ∧
            List.lookup materialName st.materialLibrary = none)))) :=
  ⟨by decide,
   material_name_field binary32 materialFiles examplePath
    (meshOf (LoadObjMesh binary32 materialFiles examplePath)) (by decide)⟩

set_option maxRecDepth 100000 in

/-- C22 as stated fails: a source with `usemtl default` and no material library loads, and the
material of its chunk has the name `default`, the name given to `usemtl`. -/
theorem usemtl_default_names_chunk :
    LoadObjMesh binary32 (oneFile examplePath defaultNamedSource) examplePath =
      .ok (some (meshOf (LoadObjMesh binary32 (oneFile examplePath defaultNamedSource)
        examplePath))) ∧
    (meshOf (LoadObjMesh binary32 (oneFile examplePath defaultNamedSource)
      examplePath)).chunks.map (fun c => c.material.name) = ["default".toList] ∧
    "usemtl default".toList ∈ getlines defaultNamedSource ∧
    UsemtlLine "usemtl default".toList "default".toList := by
  decide

/-! ### The vertex cache is a bijection -/

theorem keyInRange_of_cornerKey (st : ParseState F) (tok : List Char) (key : VertexKey)
    (h : cornerKey st tok = some key) : KeyInRange st key := by
  obtain ⟨parsed, _, h1, h2, h3, h4⟩ := cornerKey_parsed st tok key h
  refine ⟨h4, ?_, ?_, ?_⟩
  · rcases ResolveIndex_range parsed.2.1 st.positions.length with h | h
    · rw [h1, h] at h4
      exact absurd h4 (by decide)
    · rw [h1]; exact h.2
  · rw [h2]
    exact ResolveIndex_range parsed.2.2.1 st.texcoords.length
  · rw [h3]
    exact ResolveIndex_range parsed.2.2.2 st.normals.length

theorem cacheBijection_pushVertex (st : ParseState F) (key : VertexKey)
    (hinv : CacheBijection N st) (hnew : st.vertexCache.lookup key = none)
    (hkey : KeyInRange st key) (hfit : st.vertices.length < 4294967296) :
    CacheBijection N (pushVertex N st key) := by
  obtain ⟨h1, h2, h3, h4⟩ := hinv
  have hu : toUInt32 (st.vertices.length : Int) = st.vertices.length :=
    toUInt32_natCast_of_lt hfit
  have hlen : (pushVertex N st key).vertices.length = st.vertices.length + 1 := by
    unfold pushVertex
    dsimp only
    rw [List.length_append, List.length_singleton]
  have hcache : (pushVertex N st key).vertexCache =
      emplace st.vertexCache key st.vertices.length := by
    show emplace st.vertexCache key (toUInt32 st.vertices.length) = _
    rw [hu]
  have hself : (pushVertex N st key).vertexCache.lookup key = some st.vertices.length := by
    rw [hcache]
    exact lookup_emplace_self st.vertexCache key st.vertices.length hnew
  have hcases : ∀ k i, (pushVertex N st key).vertexCache.lookup k = some i →
      st.vertexCache.lookup k = some i ∨ (k = key ∧ i = st.vertices.length) := by
    intro k i h
    rw [hcache] at h
    exact lookup_emplace_cases st.vertexCache key k st.vertices.length i h
  refine ⟨?_, ?_, ?_, ?_⟩
  · intro k i h
    rw [hlen]
    rcases hcases k i h with h | ⟨_, h⟩
    · exact Nat.lt_succ_of_lt (h1 k i h)
    · rw [h]; exact Nat.lt_succ_self _
  · intro i hi
    rw [hlen] at hi
    by_cases hlt : i < st.vertices.length
    · obtain ⟨k, hk⟩ := h2 i hlt
      refine ⟨k, ?_⟩
      rw [hcache]
      exact lookup_emplace_of_some _ _ _ _ _ hk
    · have : i = st.vertices.length := by omega
      rw [this]
      exact ⟨key, hself⟩
  · intro k1 k2 i ha hb
    rcases hcases k1 i ha with ha | ⟨ha1, ha2⟩
    · rcases hcases k2 i hb with hb | ⟨_, hb2⟩
      · exact h3 k1 k2 i ha hb
      · have := h1 k1 i ha
        omega
    · rcases hcases k2 i hb with hb | ⟨hb1, _⟩
      · have := h1 k2 i hb
        omega
      · rw [ha1, hb1]
  · intro k i h
    have hv : ∀ k2, vertexOf N (pushVertex N st key) k2 = vertexOf N st k2 := fun _ => rfl
    rw [hv]
    rcases hcases k i h with h | ⟨hk, hi⟩
    · obtain ⟨a, b⟩ := h4 k i h
      refine ⟨a, ?_⟩
      show (st.vertices ++ [vertexOf N st key])[i]? = _
      rw [List.getElem?_append_left (h1 k i h)]
      exact b
    · rw [hk, hi]
      refine ⟨hkey, ?_⟩
      show (st.vertices ++ [vertexOf N st key])[st.vertices.length]? = _
      rw [List.getElem?_append_right (Nat.le_refl _), Nat.sub_self]
      rfl

theorem extends_length (st st1 : ParseState F) (h : Extends st st1) :
    st.vertices.length ≤ st1.vertices.length := by
  obtain ⟨⟨added, ha⟩, _⟩ := h
  rw [ha, List.length_append]
  omega

theorem cacheBijection_emitVertex (st st1 : ParseState F) (tok : List Char) (r : Int)
    (h : emitVertex N st tok = .ok (r, st1)) (hfit : st1.vertices.length ≤ 4294967296)
    (hinv : CacheBijection N st) : CacheBijection N st1 := by
  rcases emitVertex_cases N st st1 tok r h with h1 | ⟨key, hk, hl, h1⟩
  · rw [h1]; exact hinv
  · rw [h1] at hfit ⊢
    have hlen : (pushVertex N st key).vertices.length = st.vertices.length + 1 := by
      unfold pushVertex
      dsimp only
      rw [List.length_append, List.length_singleton]
    exact cacheBijection_pushVertex N st key hinv hl (keyInRange_of_cornerKey st tok key hk)
      (by omega)

theorem vertexOf_grow (st st1 : ParseState F) (key : VertexKey)
    (hp : ∃ a, st1.positions = st.positions ++ a) (ht : ∃ a, st1.texcoords = st.texcoords ++ a)
    (hn : ∃ a, st1.normals = st.normals ++ a) (hkey : KeyInRange st key) :
    vertexOf N st1 key = vertexOf N st key ∧ KeyInRange st1 key := by
  obtain ⟨a, hp⟩ := hp
  obtain ⟨b, ht⟩ := ht
  obtain ⟨c, hn⟩ := hn
  obtain ⟨k1, k2, k3, k4⟩ := hkey
  constructor
  · unfold vertexOf
    rw [hp, ht, hn, List.getD_append _ _ _ _ k2]
    congr 1
    · rcases k4 with h | ⟨h1, h2⟩
      · rw [h]
        rfl
      · rw [if_pos h1, if_pos h1, List.getD_append _ _ _ _ h2]
    · rcases k3 with h | ⟨h1, h2⟩
      · rw [h]
        rfl
      · rw [if_pos h1, if_pos h1, List.getD_append _ _ _ _ h2]
  · refine ⟨k1, ?_, ?_, ?_⟩
    · rw [hp, List.length_append]; omega
    · rcases k3 with h | ⟨h1, h2⟩
      · exact Or.inl h
      · right
        rw [ht, List.length_append]
        exact ⟨h1, by omega⟩
    · rcases k4 with h | ⟨h1, h2⟩
      · exact Or.inl h
      · right
        rw [hn, List.length_append]
        exact ⟨h1, by omega⟩

theorem cacheBijection_grow (st st1 : ParseState F) (hv : st1.vertices = st.vertices)
    (hc : st1.vertexCache = st.vertexCache)
    (hp : ∃ a, st1.positions = st.positions ++ a) (ht : ∃ a, st1.texcoords = st.texcoords ++ a)
    (hn : ∃ a, st1.normals = st.normals ++ a) (hinv : CacheBijection N st) :
    CacheBijection N st1 := by
  obtain ⟨h1, h2, h3, h4⟩ := hinv
  unfold CacheBijection
  rw [hv, hc]
  refine ⟨h1, h2, h3, ?_⟩
  intro key i h
  obtain ⟨a, b⟩ := h4 key i h
  obtain ⟨c, d⟩ := vertexOf_grow N st st1 key hp ht hn a
  rw [c]
  exact ⟨d, b⟩

theorem cacheBijection_fanLoop (toks : List (List Char)) :
    ∀ (st st1 : ParseState F) (first prev : Int), fanLoop N first prev toks st = .ok st1 →
      st1.vertices.length ≤ 4294967296 → CacheBijection N st → CacheBijection N st1 := by
  induction toks with
  | nil =>
    intro st st1 first prev h _ hinv
    rw [fanLoop] at h
    rw [← Except.ok.inj h]
    exact hinv
  | cons tok rest ih =>
    intro st st1 first prev h hfit hinv
    rw [fanLoop] at h
    cases he : emitVertex N st tok with
    | error e => rw [he] at h; cases h
    | ok rs =>
      obtain ⟨r, s⟩ := rs
      rw [he] at h
      dsimp only [bind, Except.bind] at h
      split at h
      · have hs := extends_length s st1 (fanLoop_extends N rest _ _ _ _ h)
        exact ih _ _ _ _ h hfit
          (cacheBijection_emitVertex N st s tok r he (by omega) hinv)
      · have hs := extends_length _ st1 (fanLoop_extends N rest _ _ _ _ h)
        have hs2 : s.vertices.length ≤ 4294967296 := Nat.le_trans hs hfit
        exact ih _ _ _ _ h hfit
          (cacheBijection_grow N s _ rfl rfl ⟨[], (List.append_nil _).symm⟩
            ⟨[], (List.append_nil _).symm⟩ ⟨[], (List.append_nil _).symm⟩
            (cacheBijection_emitVertex N st s tok r he hs2 hinv))

theorem cacheBijection_processFace (st st1 : ParseState F) (toks : List (List Char))
    (h : processFace N st toks = .ok st1) (hfit : st1.vertices.length ≤ 4294967296)
    (hinv : CacheBijection N st) : CacheBijection N st1 := by
  unfold processFace at h
  split at h
  · rename_i t0 t1 t2 rest
    cases he0 : emitVertex N st t0 with
    | error e => rw [he0] at h; cases h
    | ok rs0 =>
      obtain ⟨r0, s0⟩ := rs0
      rw [he0] at h
      dsimp only [bind, Except.bind] at h
      cases he1 : emitVertex N s0 t1 with
      | error e => rw [he1] at h; cases h
      | ok rs1 =>
        obtain ⟨r1, s1⟩ := rs1
        rw [he1] at h
        dsimp only at h
        have hs1 := extends_length s1 st1 (fanLoop_extends N _ _ _ _ _ h)
        have hs0 := extends_length s0 s1 (emitVertex_extends N s0 s1 t1 r1 he1)
        exact cacheBijection_fanLoop N _ _ _ _ _ h hfit
          (cacheBijection_emitVertex N s0 s1 t1 r1 he1 (by omega)
            (cacheBijection_emitVertex N st s0 t0 r0 he0 (by omega) hinv))
  · rw [← Except.ok.inj h]
    exact hinv

theorem useMaterial_buffers (st : ParseState F) (materialName : List Char) :
    (useMaterial N st materialName).vertices = st.vertices ∧
    (useMaterial N st materialName).vertexCache = st.vertexCache ∧
    (useMaterial N st materialName).positions = st.positions ∧
    (useMaterial N st materialName).texcoords = st.texcoords ∧
    (useMaterial N st materialName).normals = st.normals := by
  unfold useMaterial
  split
  · dsimp only
    split <;> exact ⟨rfl, rfl, rfl, rfl, rfl⟩
  · exact ⟨rfl, rfl, rfl, rfl, rfl⟩

theorem cacheBijection_processLine (fs : FileSystem) (objPath : List Char)
    (st st1 : ParseState F) (rawLine : List Char)
    (h : processLine N fs objPath st rawLine = .ok st1)
    (hfit : st1.vertices.length ≤ 4294967296) (hinv : CacheBijection N st) :
    CacheBijection N st1 := by
  have hkeep : ∀ s : ParseState F, Except.ok s = Except.ok (ε := Fault) st1 →
      s.vertices = st.vertices → s.vertexCache = st.vertexCache →
      (∃ a, s.positions = st.positions ++ a) → (∃ a, s.texcoords = st.texcoords ++ a) →
      (∃ a, s.normals = st.normals ++ a) → CacheBijection N st1 := by
    intro s e e1 e2 e3 e4 e5
    have e := Except.ok.inj e
    subst e
    exact cacheBijection_grow N st s e1 e2 e3 e4 e5 hinv
  have hnil : ∀ {α : Type} (l : List α), ∃ a, l = l ++ a :=
    fun l => ⟨[], (List.append_nil l).symm⟩
  unfold processLine at h
  dsimp only at h
  split at h
  · exact hkeep _ h rfl rfl (hnil _) (hnil _) (hnil _)
  · split at h
    · exact hkeep _ h rfl rfl ⟨_, rfl⟩ (hnil _) (hnil _)
    · split at h
      · exact hkeep _ h rfl rfl (hnil _) ⟨_, rfl⟩ (hnil _)
      · split at h
        · exact hkeep _ h rfl rfl (hnil _) (hnil _) ⟨_, rfl⟩
        · split at h
          · exact hkeep _ h rfl rfl (hnil _) (hnil _) (hnil _)
          · split at h
            · obtain ⟨u1, u2, u3, u4, u5⟩ := useMaterial_buffers N st
                (readWord (readWord (Trim rawLine) []).2 []).1
              exact hkeep _ h u1 u2 ⟨[], by rw [u3, List.append_nil]⟩
                ⟨[], by rw [u4, List.append_nil]⟩ ⟨[], by rw [u5, List.append_nil]⟩
            · split at h
              · exact cacheBijection_processFace N st st1 _ h hfit hinv
              · exact hkeep _ h rfl rfl (hnil _) (hnil _) (hnil _)

theorem cacheBijection_init : CacheBijection N (ParseState.init N) := by
  refine ⟨?_, ?_, ?_, ?_⟩
  · intro _ _ h; cases h
  · intro i hi; exact absurd hi (Nat.not_lt_zero i)
  · intro _ _ _ h; cases h
  · intro _ _ h; cases h

theorem cacheBijection_evolves (fs : FileSystem) (objPath : List Char) (st : ParseState F)
    (hev : Evolves N fs objPath (ParseState.init N) st) :
    st.vertices.length ≤ 4294967296 → CacheBijection N st := by
  induction hev with
  | refl => intro _; exact cacheBijection_init N
  | emit tok r _ he ih =>
    intro hfit
    have := extends_length _ _ (emitVertex_extends N _ _ tok r he)
    exact cacheBijection_emitVertex N _ _ tok r he hfit (ih (by omega))
  | push indices chunk _ ih =>
    intro hfit
    exact cacheBijection_grow N _ _ rfl rfl ⟨[], (List.append_nil _).symm⟩
      ⟨[], (List.append_nil _).symm⟩ ⟨[], (List.append_nil _).symm⟩ (ih hfit)
  | line rawLine _ hl ih =>
    intro hfit
    have := extends_length _ _ (processLine_extends N fs objPath _ _ rawLine hl)
    exact cacheBijection_processLine N fs objPath _ _ rawLine hl hfit (ih (by omega))

theorem evolves_of_processLines (fs : FileSystem) (objPath : List Char)
    (lines : List (List Char)) :
    ∀ st0 st st1 : ParseState F, Evolves N fs objPath st0 st →
      processLines N fs objPath lines st = .ok st1 → Evolves N fs objPath st0 st1 := by
  induction lines with
  | nil =>
    intro st0 st st1 hev h
    rw [processLines] at h
    rw [← Except.ok.inj h]
    exact hev
  | cons line rest ih =>
    intro st0 st st1 hev h
    rw [processLines] at h
    cases hl : processLine N fs objPath st line with
    | error e => rw [hl] at h; cases h
    | ok s =>
      rw [hl] at h
      exact ih st0 s st1 (Evolves.line line hev hl) h

theorem emitVertex_key_index (st st1 : ParseState F) (tok : List Char) (key : VertexKey)
    (r : Int) (hk : cornerKey st tok = some key) (h : emitVertex N st tok = .ok (r, st1)) :
    ∃ i, st1.vertexCache.lookup key = some i ∧ r = toInt32 i := by
  rw [emitVertex_of_key N st tok key hk] at h
  cases hl : st.vertexCache.lookup key with
  | some i =>
    rw [hl] at h
    obtain ⟨hr, hs⟩ := Prod.mk.inj (Except.ok.inj h)
    subst hs
    exact ⟨i, hl, hr.symm⟩
  | none =>
    rw [hl] at h
    obtain ⟨hr, hs⟩ := Prod.mk.inj (Except.ok.inj h)
    subst hs
    exact ⟨_, lookup_emplace_self _ _ _ hl, hr.symm⟩

theorem toInt32_injective (i j : Nat) (hi : i < 4294967296) (hj : j < 4294967296)
    (h : toInt32 i = toInt32 j) : i = j := by
  unfold toInt32 at h
  omega

/-- C21: in every state of a parse (between any two calls of `emitVertex`) the vertex cache is a
bijection between its keys and the indices `0 .. vertices.size - 1`, every cached key indexes
the attribute lists, and the vertex at the index of a key is the vertex built from the key; two
corners whose resolved index triples differ get different results from `emitVertex`, whatever
the attribute values; and the vertex buffer of an earlier state is a prefix of the buffer of a
later one, so the vertices emitted for a face that appends no triangle stay.  The vertex buffer
has at most `2^32` entries, the range of the `uint32_t` cache values. -/
theorem cache_bijection (fs : FileSystem) (objPath : List Char) (st : ParseState F)
    (hev : Evolves N fs objPath (ParseState.init N) st)
    (hfit : st.vertices.length ≤ 4294967296) :
    (∀ key i, st.vertexCache.lookup key = some i → i < st.vertices.length) ∧
    (∀ i, i < st.vertices.length → ∃ key, st.vertexCache.lookup key = some i) ∧
    (∀ k1 k2 i, st.vertexCache.lookup k1 = some i → st.vertexCache.lookup k2 = some i →
      k1 = k2) ∧
    (∀ key i, st.vertexCache.lookup key = some i →
      KeyInRange st key ∧ st.vertices[i]? = some (vertexOf N st key)) ∧
    (∀ (s0 s1 s2 : ParseState F) (tok1 tok2 : List Char) (key1 key2 : VertexKey) (r1 r2 : Int),
      cornerKey s0 tok1 = some key1 → emitVertex N s0 tok1 = .ok (r1, s1) →
      Evolves N fs objPath s1 s2 →
      cornerKey s2 tok2 = some key2 → emitVertex N s2 tok2 = .ok (r2, st) →
      key1 ≠ key2 → r1 ≠ r2) ∧
    (∀ s0 : ParseState F, Evolves N fs objPath s0 st →
      ∃ added, st.vertices = s0.vertices ++ added) := by
  obtain ⟨h1, h2, h3, h4⟩ := cacheBijection_evolves N fs objPath st hev hfit
  refine ⟨h1, h2, h3, h4, ?_, fun s0 h => (evolves_extends N fs objPath s0 st h).1⟩
  intro s0 s1 s2 tok1 tok2 key1 key2 r1 r2 hk1 he1 hev2 hk2 he2 hne hr
  obtain ⟨i1, hl1, hr1⟩ := emitVertex_key_index N s0 s1 tok1 key1 r1 hk1 he1
  obtain ⟨i2, hl2, hr2⟩ := emitVertex_key_index N s2 st tok2 key2 r2 hk2 he2
  have hl1st : st.vertexCache.lookup key1 = some i1 :=
    (emitVertex_extends N s2 st tok2 r2 he2).2 key1 i1
      ((evolves_extends N fs objPath s1 s2 hev2).2 key1 i1 hl1)
  have hb1 := h1 key1 i1 hl1st
  have hb2 := h1 key2 i2 hl2
  have hij : i1 = i2 := by
    apply toInt32_injective i1 i2 (by omega) (by omega)
    rw [← hr1, ← hr2, hr]
  rw [hij] at hl1st
  exact hne (h3 key1 key2 i2 hl1st hl2)

set_option maxRecDepth 100000 in

/-- Witness of C21: two positions with equal values and a third one; the face `f 1 2 9` appends
no triangle and leaves the vertices of its corners `1` and `2` behind, which have equal values
and the indices `0` and `1`; the face `f 1 2 3` uses them. -/
theorem cache_bijection_witness :
    (parsedState equalPositionsSource).vertices.map (fun v => v.position) =
      [pos32 0 0 0, pos32 0 0 0, pos32 1 0 0] ∧
    (parsedState equalPositionsSource).indices = [0, 1, 2] ∧
    (parsedState "v 0 0 0\nv 0 0 0\nv 1 0 0\nf 1 2 9\n".toList).vertices.length = 2 ∧
    (parsedState "v 0 0 0\nv 0 0 0\nv 1 0 0\nf 1 2 9\n".toList).indices = [] ∧
    ((∀ key i, (parsedState equalPositionsSource).vertexCache.lookup key = some i →
      i < (parsedState equalPositionsSource).vertices.length) ∧
    (∀ i, i < (parsedState equalPositionsSource).vertices.length →
      ∃ key, (parsedState equalPositionsSource).vertexCache.lookup key = some i) ∧
    (∀ k1 k2 i, (parsedState equalPositionsSource).vertexCache.lookup k1 = some i →
      (parsedState equalPositionsSource).vertexCache.lookup k2 = some i → k1 = k2) ∧
    (∀ key i, (parsedState equalPositionsSource).vertexCache.lookup key = some i →
      KeyInRange (parsedState equalPositionsSource) key ∧
      (parsedState equalPositionsSource).vertices[i]? =
        some (vertexOf binary32 (parsedState equalPositionsSource) key)) ∧
    (∀ (s0 s1 s2 : ParseState F32) (tok1 tok2 : List Char) (key1 key2 : VertexKey)
        (r1 r2 : Int),
      cornerKey s0 tok1 = some key1 → emitVertex binary32 s0 tok1 = .ok (r1, s1) →
      Evolves binary32 (oneFile examplePath equalPositionsSource) examplePath s1 s2 →
      cornerKey s2 tok2 = some key2 →
      emitVertex binary32 s2 tok2 = .ok (r2, parsedState equalPositionsSource) →
      key1 ≠ key2 → r1 ≠ r2) ∧
    (∀ s0 : ParseState F32,
      Evolves binary32 (oneFile examplePath equalPositionsSource) examplePath s0
        (parsedState equalPositionsSource) →
      ∃ added, (parsedState equalPositionsSource).vertices = s0.vertices ++ added)) :=
  ⟨by decide, by decide, by decide, by decide,
   cache_bijection binary32 (oneFile examplePath equalPositionsSource) examplePath
    (parsedState equalPositionsSource)
    (evolves_of_processLines binary32 (oneFile examplePath equalPositionsSource) examplePath
      (getlines equalPositionsSource) (ParseState.init binary32) (ParseState.init binary32)
      (parsedState equalPositionsSource) (Evolves.refl _) (by decide))
    (by decide)⟩

/-! ### Normals whose square underflows -/

set_option maxRecDepth 100000 in

/-- C9 as stated fails: the three vertices of `tinyNormalSource` carry the supplied normal
`(10^-30, 0, 0)`, which is not zero, but `dot(n, n)` underflows to zero, the loader takes the
branch without supplied normals, and every vertex is returned with the face normal `(0, 0, 1)`
of the triangle, which is not `normalize(n)`. -/
theorem tiny_supplied_normal_replaced :
    (parsedState tinyNormalSource).vertices.map (fun v => v.normal) =
      [⟨tiny32, F32.zero, F32.zero⟩, ⟨tiny32, F32.zero, F32.zero⟩,
       ⟨tiny32, F32.zero, F32.zero⟩] ∧
    tiny32 ≠ F32.zero ∧ F32.lt F32.zero tiny32 = true ∧
    nonzero binary32 ⟨tiny32, F32.zero, F32.zero⟩ = false ∧
    Except.map (fun m => m.map (fun mesh => mesh.vertices.map (fun v => v.normal)))
        (LoadObjMesh binary32 (oneFile examplePath tinyNormalSource) examplePath) =
      .ok (some [⟨F32.zero, F32.zero, F32.one⟩, ⟨F32.zero, F32.zero, F32.one⟩,
        ⟨F32.zero, F32.zero, F32.one⟩]) ∧
    faceNormal binary32 ((parsedState tinyNormalSource).vertices.map (fun v => v.position))
      0 1 2 = ⟨F32.zero, F32.zero, F32.one⟩ ∧
    binary32.normalize ⟨tiny32, F32.zero, F32.zero⟩ ≠ ⟨F32.zero, F32.zero, F32.one⟩ ∧
    (⟨F32.one, F32.zero, F32.zero⟩ : V3 F32) ≠ ⟨F32.zero, F32.zero, F32.one⟩ := by
  decide

set_option maxRecDepth 100000 in

/-- C10 as stated fails: in `tinySumSource` no vertex carries a supplied normal, the sum of the
two face normals at the first vertex is `(10^-30, 0, 0)`, which is not zero, but `dot(S, S)`
underflows to zero and the vertex is returned with the up vector `(0, 1, 0)`, which is not
`normalize(S)`. -/
theorem tiny_sum_gets_up_vector :
    (parsedState tinySumSource).vertices.map (fun v => v.normal) =
      [V3.splat F32.zero, V3.splat F32.zero, V3.splat F32.zero, V3.splat F32.zero] ∧
    (parsedState tinySumSource).indices = [0, 1, 2, 0, 3, 1] ∧
    normalSum binary32 ((parsedState tinySumSource).vertices.map (fun v => v.position)) 0
      (parsedState tinySumSource).indices (V3.splat F32.zero) =
      ⟨tiny32, F32.zero, F32.zero⟩ ∧
    tiny32 ≠ F32.zero ∧ F32.lt F32.zero tiny32 = true ∧
    nonzero binary32 ⟨tiny32, F32.zero, F32.zero⟩ = false ∧
    (meshOf (LoadObjMesh binary32 (oneFile examplePath tinySumSource)
      examplePath)).vertices.head?.map (fun v => v.normal) =
      some ⟨F32.zero, F32.one, F32.zero⟩ ∧
    binary32.normalize ⟨tiny32, F32.zero, F32.zero⟩ ≠ ⟨F32.zero, F32.one, F32.zero⟩ ∧
    (⟨F32.one, F32.zero, F32.zero⟩ : V3 F32) ≠ ⟨F32.zero, F32.one, F32.zero⟩ := by
  decide

set_option maxRecDepth 100000 in

/-- With no triangle and the supplied normal `(10^-30, 0, 0)` on both vertices, no vertex passes
the test `dot(n, n) > 0.0f`, and both vertices are returned with the up vector. -/
theorem tiny_normal_without_triangle :
    (parsedState tinyOrphanSource).indices = [] ∧
    (parsedState tinyOrphanSource).vertices.map (fun v => v.normal) =
      [⟨tiny32, F32.zero, F32.zero⟩, ⟨tiny32, F32.zero, F32.zero⟩] ∧
    tiny32 ≠ F32.zero ∧ hasNormals binary32 (parsedState tinyOrphanSource).vertices = false ∧
    Except.map (fun m => m.map (fun mesh => mesh.vertices.map (fun v => v.normal)))
        (LoadObjMesh binary32 (oneFile examplePath tinyOrphanSource) examplePath) =
      .ok (some [⟨F32.zero, F32.one, F32.zero⟩, ⟨F32.zero, F32.one, F32.zero⟩]) := by
  decide

end Face

end ObjLoader
